import Mathlib

/-!
# Verification of the deep-search reasoning engine (`app/api/query/route.ts`)

This file is a shallow embedding, in Lean 4, of the reasoning core implemented in
`src/app/api/query/route.ts` (the "ultimate deep search" engine): the statistical
embedder, the multi-algorithm document search, the entity extractor, the
confidence-decayed graph traversal, the rule engine, the answer synthesizer and the
`POST` handler.  Strings are modelled as `List Char`, JavaScript numbers as exact
rationals (`ℚ`), and the IEEE special values the code can actually produce
(`NaN`, `±Infinity`) by the dedicated type `JSVal`.  `Math.sqrt` is kept abstract:
definitions that need it take a function `ℚ → ℚ` (or `ℚ → JSVal`) as a parameter,
and theorems that depend on numeric properties of the square root assume only
facts satisfied by the real square root (`sqrt 0 = 0`, positivity, and
`(sqrt q)^2 ≥ q`), so they hold for every faithful reading of the floating-point
code.  All definitions are computable so that concrete runs can be evaluated by
`decide`.
-/

namespace Spec2Proof

/-! ## Generic string helpers (JavaScript semantics over `List Char`) -/

/-- Whitespace test used to model the regex class `\s` (the corpus and the queries
considered are ASCII). -/
def isWsChar (c : Char) : Bool :=
  c = ' ' || c = '\t' || c = '\n' || c = '\r'

/-- Lower-casing a JS string, modelling `String.prototype.toLowerCase` on ASCII text. -/
def jsToLower (cs : List Char) : List Char :=
  cs.map Char.toLower

/-- Split on every single separator character, keeping empty pieces, modelling a JS
`split` on a one-character regex class (`"".split` gives `[""]`). -/
def splitEvery (p : Char → Bool) : List Char → List (List Char)
  | [] => [[]]
  | c :: cs =>
    match splitEvery p cs with
    | [] => [[]]
    | w :: ws => if p c then [] :: w :: ws else (c :: w) :: ws

/-- JS `text.split(/\s+/)`: maximal whitespace runs are single separators, but a
leading or trailing run contributes an empty piece, and `"".split(/\s+/) = [""]`. -/
def jsSplitWs (cs : List Char) : List (List Char) :=
  if cs = [] then [[]]
  else
    let parts := (splitEvery isWsChar cs).filter (fun w => w ≠ [])
    let parts1 := if (cs.head?.map isWsChar).getD false then [] :: parts else parts
    if (cs.getLast?.map isWsChar).getD false then parts1 ++ [[]] else parts1

/-- Does the haystack start with the needle? -/
def startsWithL : List Char → List Char → Bool
  | _, [] => true
  | [], _ :: _ => false
  | a :: as, b :: bs => a = b && startsWithL as bs

/-- JS `haystack.includes(needle)` (substring containment; the empty needle always
matches). -/
def jsIncludes : List Char → List Char → Bool
  | [], n => n = []
  | h :: hs, n => startsWithL (h :: hs) n || jsIncludes hs n

/-- `Array.prototype.join(sep)`. -/
def joinSep (sep : List Char) : List (List Char) → List Char
  | [] => []
  | [w] => w
  | w :: ws => w ++ sep ++ joinSep sep ws

/-- Insertion-ordered deduplication, modelling the iteration order of a JS `Set`
(first occurrence wins). -/
def dedupFirst : List (List Char) → List (List Char)
  | [] => []
  | w :: ws => w :: (dedupFirst ws).filter (fun v => v ≠ w)

/-- Stable insertion into a descending-sorted list: the new element (which occurs
EARLIER in the original list) is placed before every element with a key not above
its own, reproducing the unique stable descending sort that `Array.prototype.sort`
with the comparator `(a, b) => key b - key a` performs. -/
def insertDescBy {α : Type} (key : α → ℚ) (a : α) : List α → List α
  | [] => [a]
  | b :: bs => if key b ≤ key a then a :: b :: bs else b :: insertDescBy key a bs

/-- Stable descending sort by a rational key. -/
def sortDescBy {α : Type} (key : α → ℚ) (l : List α) : List α :=
  l.foldr (insertDescBy key) []

/-! ## JavaScript numbers with special values -/

/-- A JavaScript number: an exact rational, or one of the special values `NaN`,
`Infinity`, `-Infinity` that the embedder can produce (`0/0` and `Math.max()` on an
empty list). -/
inductive JSVal : Type where
  | num (q : ℚ)
  | nan
  | inf
  | neginf
deriving DecidableEq, Repr

/-- JS addition. -/
def jsAdd : JSVal → JSVal → JSVal
  | .nan, _ => .nan
  | _, .nan => .nan
  | .num a, .num b => .num (a + b)
  | .inf, .neginf => .nan
  | .neginf, .inf => .nan
  | .inf, _ => .inf
  | _, .inf => .inf
  | .neginf, _ => .neginf
  | _, .neginf => .neginf

/-- JS multiplication (`Infinity * 0 = NaN`). -/
def jsMul : JSVal → JSVal → JSVal
  | .nan, _ => .nan
  | _, .nan => .nan
  | .num a, .num b => .num (a * b)
  | .num a, .inf => if a = 0 then .nan else if 0 < a then .inf else .neginf
  | .inf, .num a => if a = 0 then .nan else if 0 < a then .inf else .neginf
  | .num a, .neginf => if a = 0 then .nan else if 0 < a then .neginf else .inf
  | .neginf, .num a => if a = 0 then .nan else if 0 < a then .neginf else .inf
  | .inf, .inf => .inf
  | .inf, .neginf => .neginf
  | .neginf, .inf => .neginf
  | .neginf, .neginf => .inf

/-- JS division (`0/0 = NaN`, `q/0 = ±Infinity`, `-Infinity/0 = -Infinity`; the
distinction between `-0` and `0` is dropped, which is observationally irrelevant
here since the code only compares with `=== 0`, for which `-0 === 0`). -/
def jsDiv : JSVal → JSVal → JSVal
  | .nan, _ => .nan
  | _, .nan => .nan
  | .num a, .num b =>
    if b = 0 then (if a = 0 then .nan else if 0 < a then .inf else .neginf)
    else .num (a / b)
  | .num _, .inf => .num 0
  | .num _, .neginf => .num 0
  | .inf, .num b => if 0 ≤ b then .inf else .neginf
  | .neginf, .num b => if 0 ≤ b then .neginf else .inf
  | .inf, _ => .nan
  | .neginf, _ => .nan

/-- `Math.max(...values)` over natural counts: `-Infinity` on the empty list. -/
def jsMaxNat : List ℕ → JSVal
  | [] => .neginf
  | n :: ns =>
    match jsMaxNat ns with
    | .num q => .num (max (n : ℚ) q)
    | _ => .num (n : ℚ)

/-- `Math.sqrt` lifted to `JSVal`, abstract in its action `f` on non-negative
rationals (`Math.sqrt` of a negative number is `NaN`, of `NaN` is `NaN`, of
`Infinity` is `Infinity`). -/
def jsSqrtWith (f : ℚ → JSVal) : JSVal → JSVal
  | .num q => if q < 0 then .nan else f q
  | .nan => .nan
  | .inf => .inf
  | .neginf => .nan

/-! ## The embedder (`advancedEmbed`) -/

/-- The 76-character alphabet of the character-frequency layer, transcribed from the
source (`'abcdefghijklmnopqrstuvwxyzABCDEFGHIJKLMNOPQRSTUVWXYZ0123456789 .,!?-:;()[]{}'`). -/
def embedAlphabet : List Char :=
  "abcdefghijklmnopqrstuvwxyzABCDEFGHIJKLMNOPQRSTUVWXYZ0123456789 .,!?-:;()[]\x7b\x7d".toList

/-- The word list of `advancedEmbed`: lower-cased text split on whitespace, keeping
words longer than 2 characters. -/
def embedWords (text : List Char) : List (List Char) :=
  (jsSplitWs (jsToLower text)).filter (fun w => 2 < w.length)

/-- The distinct-bigram count of `advancedEmbed` (`Object.keys(bigrams).length`);
bigram keys are the two words joined by `'_'` exactly as in the source. -/
def bigramCount (words : List (List Char)) : ℕ :=
  (dedupFirst ((words.zip words.tail).map (fun p => p.1 ++ '_' :: p.2))).length

/-- `advancedEmbed`: character frequencies over `embedAlphabet` normalised by the
total count (left un-normalised when the total is 0), followed by the five word
features.  For a text without words the second feature is `0/0 = NaN` and the third
is `Math.max()/0 = -Infinity`, exactly as in JavaScript. -/
def advancedEmbed (text : List Char) : List JSVal :=
  let charVector : List ℕ := embedAlphabet.map (fun c => text.count c)
  let charTotal : ℕ := charVector.sum
  let normalizedChars : List JSVal :=
    if 0 < charTotal then charVector.map (fun n => .num ((n : ℚ) / (charTotal : ℚ)))
    else charVector.map (fun n => .num (n : ℚ))
  let words := embedWords text
  let distinctWords := dedupFirst words
  let counts : List ℕ := distinctWords.map (fun w => words.count w)
  let wordFeatures : List JSVal :=
    [ .num ((words.length : ℚ) / 100)
    , jsDiv (.num (distinctWords.length : ℚ)) (.num (words.length : ℚ))
    , jsDiv (jsMaxNat counts) (.num (words.length : ℚ))
    , .num ((bigramCount words : ℚ) / (max (words.length - 1) 1 : ℕ))
    , .num (((splitEvery (fun c => c = '.' || c = '!' || c = '?') text).length : ℚ) / 10) ]
  normalizedChars ++ wordFeatures

/-- Rational projection of `advancedEmbed`, used by the search model.  It agrees
with `advancedEmbed` whenever the text has at least one word of length `> 2` (then
no special value arises); degenerate queries are treated by the `JSVal` model. -/
def advancedEmbedQ (text : List Char) : List ℚ :=
  (advancedEmbed text).map (fun v => match v with | .num q => q | _ => 0)


/-! ## Data model -/

/-- Document metadata, as in the `Document`/knowledge-base records of the source. -/
structure DocMeta : Type where
  topic : List Char
  category : List Char
  importance : List Char
  keywords : List (List Char)
  domain : List Char
deriving DecidableEq, Repr

/-- A knowledge-base document (`{id, title, content, meta}`). -/
structure KBDoc : Type where
  id : List Char
  title : List Char
  content : List Char
  meta : DocMeta
deriving DecidableEq, Repr

/-- A search-result document as returned by `multiAlgorithmSearch`
(`{id, score, preview, content, meta}`; the transient `compositeScore` field the
code deletes before returning equals `score` and is not kept separately). -/
structure SDoc : Type where
  id : List Char
  score : ℚ
  preview : List Char
  content : List Char
  meta : DocMeta
deriving DecidableEq, Repr

/-- One outgoing relation of the knowledge graph
(`{target, predicate, weight, confidence, source}`). -/
structure Rel : Type where
  target : List Char
  predicate : List Char
  weight : ℚ
  confidence : ℚ
  source : List Char
deriving DecidableEq, Repr

/-- The knowledge graph: an association list in source key order. -/
abbrev KG : Type := List (List Char × List Rel)

/-- The derived concept graph: entity to insertion-ordered neighbour set. -/
abbrev CG : Type := List (List Char × List (List Char))

/-- A traversed edge (`GraphTriple`). -/
structure Triple : Type where
  subject : List Char
  predicate : List Char
  object : List Char
  weight : ℚ
  confidence : ℚ
  source : List Char
deriving DecidableEq, Repr

/-- The deduplication key of a traversed edge
(the JS map key `` `${subject}-${predicate}-${object}` ``). -/
def tripleKey (t : Triple) : List Char :=
  t.subject ++ '-' :: t.predicate ++ '-' :: t.object


/-! ## Graph traversal (`deepGraphTraversal`) -/

/-- Association-list lookup (a JS `Map.get` / object property read; keys are
unique, so first match is the value). -/
def alookup {β : Type} (m : List (List Char × β)) (k : List Char) : Option β :=
  match m with
  | [] => none
  | (k', v) :: rest => if k' = k then some v else alookup rest k

/-- `Map.set`: overwrite the value of an existing key (keeping its position) or
append a new entry. -/
def aset {β : Type} (m : List (List Char × β)) (k : List Char) (v : β) :
    List (List Char × β) :=
  match m with
  | [] => [(k, v)]
  | (k', v') :: rest => if k' = k then (k, v) :: rest else (k', v') :: aset rest k v

/-- `buildConceptGraph`: fold over the graph entries in key order, adding each
target to the subject's neighbour set and the subject to the target's, in
insertion order without duplicates. -/
def cgAdd (m : CG) (k t : List Char) : CG :=
  match alookup m k with
  | none => m ++ [(k, [t])]
  | some ts => if t ∈ ts then m else aset m k (ts ++ [t])

/-- The concept graph derived from a knowledge graph, exactly as
`buildConceptGraph` constructs it. -/
def buildConceptGraph (kg : KG) : CG :=
  kg.foldl
    (fun m e =>
      let m1 := match alookup m e.1 with
        | none => m ++ [(e.1, [])]
        | some _ => m
      e.2.foldl (fun acc r => cgAdd (cgAdd acc e.1 r.target) r.target e.1) m1)
    []

/-- The mutable state of one `deepGraphTraversal` run: the accumulated edge list
`path`, the visited map (entity to depth of its most recent expansion), and an
instrumentation log of the expansions `(entity, depth, pathConfidence)` in
chronological order.  The log is observational only: `path` and `visited` evolve
exactly as in the source. -/
structure TravState : Type where
  visited : List (List Char × ℕ)
  path : List Triple
  log : List (List Char × ℕ × ℚ)
deriving DecidableEq, Repr

/-- The per-node candidate edges: relations with confidence at least the
threshold, sorted descending by `weight * confidence`, limited to 5 branches. -/
def candRels (minConf : ℚ) (rels : List Rel) : List Rel :=
  (sortDescBy (fun r => r.weight * r.confidence)
    (rels.filter (fun r => minConf ≤ r.confidence))).take 5

/-- Iterate a step function over the candidate relations, pushing each edge and
then recursing, exactly like the `for` loop over `sortedRelations.slice(0, 5)`.
The recursive call of the traversal is passed in as `step`. -/
def runRels (step : List Char → ℚ → TravState → TravState)
    (entity : List Char) (conf : ℚ) :
    List Rel → TravState → TravState
  | [], st => st
  | r :: rs, st =>
    let ec := r.confidence * conf
    let st' := { st with
      path := st.path ++ [⟨entity, r.predicate, r.target, r.weight, ec, r.source⟩] }
    runRels step entity conf rs (step r.target (ec * (9/10)) st')

/-- The loop over (at most 3) concept-graph neighbours: push a synthetic
`conceptually_related_to` edge unless the target was already visited at depth
`≤ depth + 1`. -/
def runConcepts (entity : List Char) (depth : ℕ) (conf : ℚ) :
    List (List Char) → TravState → TravState
  | [], st => st
  | t :: ts, st =>
    let ok := match alookup st.visited t with
      | none => true
      | some v => depth + 1 < v
    let st' := if ok then
        { st with path := st.path ++
            [⟨entity, "conceptually_related_to".toList, t, 6/10, conf * (8/10),
              "concept_graph".toList⟩] }
      else st
    runConcepts entity depth conf ts st'

/-- The recursive walk `traverse(entity, currentDepth, pathConfidence)`, with an
explicit fuel argument for structural termination.  `deepGraphTraversal` runs it
with fuel `maxDepth`, which is exact: a call at depth `d` holds fuel
`maxDepth - d`, and fuel 0 coincides with the `currentDepth >= maxDepth` guard. -/
def traverse (kg : KG) (cg : CG) (maxDepth : ℕ) (minConf : ℚ) :
    ℕ → List Char → ℕ → ℚ → TravState → TravState
  | 0, _, _, _, st => st
  | fuel + 1, entity, depth, conf, st =>
    if maxDepth ≤ depth ∨ conf < minConf then st
    else
      let blocked := match alookup st.visited entity with
        | none => false
        | some v => v ≤ depth
      if blocked then st
      else
        let st1 : TravState :=
          { visited := aset st.visited entity depth
            path := st.path
            log := st.log ++ [(entity, depth, conf)] }
        let st2 := match alookup kg entity with
          | none => st1
          | some rels =>
            runRels (fun e c s => traverse kg cg maxDepth minConf fuel e (depth + 1) c s)
              entity conf (candRels minConf rels) st1
        match alookup cg entity with
        | none => st2
        | some ts => runConcepts entity depth conf (ts.take 3) st2

/-- JS-`Map` deduplication: key order is first occurrence, the value kept is the
last occurrence (`new Map(path.map(t => [key, t]))`). -/
def dedupLast (l : List Triple) : List Triple :=
  l.foldl
    (fun acc t =>
      if acc.any (fun u => tripleKey u = tripleKey t) then
        acc.map (fun u => if tripleKey u = tripleKey t then t else u)
      else acc ++ [t])
    []

/-- The full state of a `deepGraphTraversal` run, before deduplication. -/
def travRun (kg : KG) (cg : CG) (startEntities : List (List Char))
    (maxDepth : ℕ) (minConf : ℚ) : TravState :=
  startEntities.foldl
    (fun st e => traverse kg cg maxDepth minConf maxDepth e 0 1 st)
    ⟨[], [], []⟩

/-- `deepGraphTraversal`, parametric in the graphs: run the walk from every seed,
deduplicate by triple key keeping the last instance, sort descending by
`weight * confidence` and truncate to 12 results. -/
def deepGraphTraversalOn (kg : KG) (cg : CG) (startEntities : List (List Char))
    (maxDepth : ℕ) (minConf : ℚ) : List Triple :=
  (sortDescBy (fun t => t.weight * t.confidence)
    (dedupLast (travRun kg cg startEntities maxDepth minConf).path)).take 12

/-- The static document corpus `comprehensiveKnowledgeBase` of the engine, transcribed verbatim. -/
def comprehensiveKnowledgeBase : List KBDoc := [
  ⟨"ghchain-ecosystem".toList, "GHChain Blockchain Ecosystem".toList, "GHChain is a revolutionary blockchain ecosystem specifically designed for African financial inclusion and economic empowerment. The platform is built on principles of community governance through tribal consensus mechanisms, providing robust infrastructure for decentralized finance applications, cross-border payments, and comprehensive digital asset management across the African continent and beyond.".toList,
    ⟨"ghchain".toList, "blockchain".toList, "high".toList, ["blockchain".toList, "africa".toList, "defi".toList, "consensus".toList], "cryptocurrency".toList⟩⟩,
  ⟨"gh-gold-tokenomics".toList, "GH GOLD Advanced Tokenomics".toList, "GH GOLD (GHG) serves as the native utility token powering the entire GHChain ecosystem with advanced tokenomics. Holders can stake GHG to earn substantial rewards, participate in governance decisions through innovative tribal voting mechanisms, pay transaction fees at significantly discounted rates, and access premium DeFi features. The tokenomics model includes sophisticated deflationary mechanics through strategic token burning, comprehensive liquidity mining rewards, and a robust staking system.".toList,
    ⟨"gh-gold".toList, "tokenomics".toList, "high".toList, ["token".toList, "staking".toList, "governance".toList, "defi".toList], "cryptocurrency".toList⟩⟩,
  ⟨"goldvault-exchange-platform".toList, "GOLDVAULT Advanced Exchange Platform".toList, "GOLDVAULT represents a leading African cryptocurrency exchange providing seamless, secure trading experiences for GH GOLD and numerous other digital assets. The platform features highly competitive trading fees, multiple sophisticated KYC verification tiers specifically tailored for African users, and direct fiat on-ramps supporting major African currencies including Nigerian Naira, Ghanaian Cedi, and South African Rand.".toList,
    ⟨"goldvault".toList, "exchange".toList, "medium".toList, ["exchange".toList, "trading".toList, "africa".toList, "fiat".toList], "cryptocurrency".toList⟩⟩,
  ⟨"ai-comprehensive-overview".toList, "Comprehensive Artificial Intelligence Overview".toList, "Artificial Intelligence represents computer systems capable of performing complex tasks typically requiring human-level intelligence. This encompasses machine learning algorithms, natural language processing systems, computer vision technologies, automated reasoning, and decision-making frameworks. Modern AI includes deep neural networks, transformer architectures, reinforcement learning, and large language models like GPT, Claude, and PaLM that demonstrate emergent capabilities across diverse domains.".toList,
    ⟨"artificial-intelligence".toList, "technology".toList, "high".toList, ["ai".toList, "machine-learning".toList, "neural-networks".toList, "nlp".toList], "computer-science".toList⟩⟩,
  ⟨"machine-learning-deep-dive".toList, "Machine Learning and Deep Neural Networks".toList, "Machine learning enables computers to learn complex patterns from vast datasets without explicit programming. Deep neural networks mimic biological brain structures with interconnected nodes across multiple layers. Advanced architectures include convolutional neural networks (CNNs) for image processing, recurrent neural networks (RNNs) for sequential data, transformers for language understanding, and generative adversarial networks (GANs) for content creation.".toList,
    ⟨"machine-learning".toList, "ai".toList, "high".toList, ["deep-learning".toList, "neural-networks".toList, "cnn".toList, "rnn".toList, "transformers".toList], "computer-science".toList⟩⟩,
  ⟨"nlp-language-models-advanced".toList, "Advanced Natural Language Processing and LLMs".toList, "Natural Language Processing enables sophisticated computer understanding and generation of human language. Large Language Models like GPT-4, Claude, BERT, and T5 are trained on massive text corpora using transformer architectures. They perform complex tasks including translation, summarization, question-answering, code generation, creative writing, and reasoning through attention mechanisms and emergent capabilities.".toList,
    ⟨"nlp".toList, "ai".toList, "high".toList, ["nlp".toList, "transformers".toList, "gpt".toList, "bert".toList, "language-models".toList], "computer-science".toList⟩⟩,
  ⟨"quantum-computing-fundamentals".toList, "Quantum Computing and Quantum Mechanics".toList, "Quantum computing harnesses quantum mechanical phenomena like superposition, entanglement, and interference to process information exponentially faster than classical computers. Quantum bits (qubits) can exist in multiple states simultaneously, enabling parallel computation. Applications include cryptography, drug discovery, financial modeling, and solving complex optimization problems intractable for classical systems.".toList,
    ⟨"quantum-computing".toList, "physics".toList, "high".toList, ["quantum".toList, "qubits".toList, "superposition".toList, "entanglement".toList], "physics".toList⟩⟩,
  ⟨"theoretical-physics-advanced".toList, "Theoretical Physics and Cosmology".toList, "Theoretical physics explores fundamental laws governing the universe through mathematical frameworks. General relativity describes spacetime curvature and gravity. Quantum field theory unifies quantum mechanics with special relativity. The Standard Model describes fundamental particles and forces. Current research includes string theory, dark matter, dark energy, and the search for a theory of quantum gravity.".toList,
    ⟨"theoretical-physics".toList, "physics".toList, "high".toList, ["relativity".toList, "quantum-field-theory".toList, "standard-model".toList, "cosmology".toList], "physics".toList⟩⟩,
  ⟨"advanced-programming-paradigms".toList, "Advanced Programming Paradigms and Languages".toList, "Programming encompasses multiple paradigms including object-oriented (Java, C++), functional (Haskell, Lisp), procedural (C), and reactive programming. Modern languages like Rust provide memory safety, Go offers concurrency, Python enables rapid development, and JavaScript powers web applications. Advanced concepts include design patterns, data structures, algorithms, and software architecture principles.".toList,
    ⟨"programming".toList, "computer-science".toList, "high".toList, ["programming".toList, "languages".toList, "paradigms".toList, "algorithms".toList], "computer-science".toList⟩⟩,
  ⟨"distributed-systems-architecture".toList, "Distributed Systems and Microservices Architecture".toList, "Distributed systems span multiple networked computers working together as a unified system. Microservices architecture decomposes applications into small, independent services communicating via APIs. Key concepts include load balancing, service discovery, circuit breakers, eventual consistency, CAP theorem, and fault tolerance. Technologies include Kubernetes, Docker, Apache Kafka, and service meshes.".toList,
    ⟨"distributed-systems".toList, "architecture".toList, "high".toList, ["microservices".toList, "kubernetes".toList, "docker".toList, "scalability".toList], "computer-science".toList⟩⟩,
  ⟨"biotechnology-gene-editing".toList, "Biotechnology and CRISPR Gene Editing".toList, "Biotechnology applies biological systems to develop products and technologies. CRISPR-Cas9 enables precise gene editing with applications in treating genetic diseases, developing crops, and creating new materials. Advanced techniques include gene therapy, synthetic biology, personalized medicine, and regenerative medicine using stem cells. Biotechnology intersects with AI for drug discovery and protein folding prediction.".toList,
    ⟨"biotechnology".toList, "biology".toList, "high".toList, ["crispr".toList, "gene-editing".toList, "synthetic-biology".toList, "medicine".toList], "biology".toList⟩⟩,
  ⟨"neuroscience-brain-research".toList, "Neuroscience and Brain-Computer Interfaces".toList, "Neuroscience studies the nervous system structure and function. Modern research includes neural plasticity, consciousness, memory formation, and neurological disorders. Brain-computer interfaces (BCIs) enable direct communication between brains and computers. Applications include treating paralysis, depression, and enhancing cognitive abilities. Companies like Neuralink are developing implantable brain chips.".toList,
    ⟨"neuroscience".toList, "biology".toList, "high".toList, ["neuroscience".toList, "brain".toList, "bci".toList, "neural-interfaces".toList], "biology".toList⟩⟩,
  ⟨"advanced-mathematics-topology".toList, "Advanced Mathematics: Topology and Abstract Algebra".toList, "Advanced mathematics includes topology (study of spatial properties preserved under continuous deformations), abstract algebra (groups, rings, fields), real and complex analysis, and differential geometry. These fields underpin modern physics, computer science, and engineering. Applications include cryptography, machine learning optimization, quantum field theory, and computer graphics.".toList,
    ⟨"advanced-mathematics".toList, "mathematics".toList, "medium".toList, ["topology".toList, "algebra".toList, "analysis".toList, "geometry".toList], "mathematics".toList⟩⟩,
  ⟨"statistics-data-science".toList, "Statistics, Probability, and Data Science".toList, "Statistics provides frameworks for collecting, analyzing, and interpreting data. Probability theory models uncertainty and randomness. Data science combines statistics, programming, and domain expertise to extract insights from large datasets. Modern techniques include Bayesian inference, hypothesis testing, regression analysis, time series forecasting, and causal inference.".toList,
    ⟨"statistics".toList, "mathematics".toList, "high".toList, ["statistics".toList, "probability".toList, "data-science".toList, "bayesian".toList], "mathematics".toList⟩⟩,
  ⟨"behavioral-economics-game-theory".toList, "Behavioral Economics and Game Theory".toList, "Behavioral economics studies psychological, emotional, and social factors influencing economic decisions, challenging traditional rational actor models. Game theory analyzes strategic decision-making in competitive situations. Applications include auction design, market design, negotiation theory, and understanding financial bubbles. Nobel laureates like Daniel Kahneman revolutionized economic thinking.".toList,
    ⟨"behavioral-economics".toList, "economics".toList, "medium".toList, ["behavioral-economics".toList, "game-theory".toList, "psychology".toList, "markets".toList], "economics".toList⟩⟩,
  ⟨"cryptocurrency-defi-advanced".toList, "Advanced Cryptocurrency and DeFi Protocols".toList, "Cryptocurrency represents digital assets using cryptographic techniques for security. Advanced DeFi protocols include automated market makers (Uniswap), lending platforms (Aave, Compound), yield farming strategies, liquidity mining, and synthetic asset creation. Layer 2 solutions like Ethereum rollups improve scalability. Central Bank Digital Currencies (CBDCs) represent government-issued digital money.".toList,
    ⟨"cryptocurrency".toList, "finance".toList, "high".toList, ["defi".toList, "amm".toList, "lending".toList, "layer2".toList, "cbdc".toList], "economics".toList⟩⟩,
  ⟨"climate-science-carbon-capture".toList, "Climate Science and Carbon Capture Technology".toList, "Climate science studies Earth\x27s climate system including greenhouse gas effects, feedback loops, and tipping points. Carbon capture technologies remove CO2 from atmosphere or industrial processes. Solutions include direct air capture, carbon utilization, renewable energy systems, and nature-based solutions. Climate modeling uses supercomputers to predict future scenarios and inform policy decisions.".toList,
    ⟨"climate-science".toList, "environment".toList, "high".toList, ["climate".toList, "carbon-capture".toList, "renewable-energy".toList, "sustainability".toList], "environmental-science".toList⟩⟩,
  ⟨"renewable-energy-systems".toList, "Renewable Energy and Smart Grid Technology".toList, "Renewable energy includes solar photovoltaics, wind turbines, hydroelectric power, and emerging technologies like fusion energy. Smart grids use digital technology to manage electricity distribution efficiently. Energy storage solutions include lithium-ion batteries, pumped hydro, and emerging technologies like solid-state batteries and hydrogen fuel cells.".toList,
    ⟨"renewable-energy".toList, "technology".toList, "high".toList, ["solar".toList, "wind".toList, "smart-grid".toList, "batteries".toList], "engineering".toList⟩⟩,
  ⟨"space-exploration-mars".toList, "Space Exploration and Mars Colonization".toList, "Space exploration includes robotic missions, human spaceflight, and plans for Mars colonization. SpaceX develops reusable rockets, NASA\x27s Artemis program aims for lunar return, and Mars missions study planetary habitability. Technologies include ion propulsion, life support systems, in-situ resource utilization, and radiation shielding for long-duration spaceflight.".toList,
    ⟨"space-exploration".toList, "astronomy".toList, "medium".toList, ["mars".toList, "spacex".toList, "rockets".toList, "colonization".toList], "aerospace".toList⟩⟩,
  ⟨"astrophysics-black-holes".toList, "Astrophysics: Black Holes and Dark Matter".toList, "Astrophysics studies celestial objects and phenomena. Black holes are regions of spacetime with extreme gravity from which nothing can escape. Dark matter comprises 85% of matter but doesn\x27t interact electromagnetically. Dark energy drives accelerating cosmic expansion. Recent discoveries include gravitational waves, exoplanets, and the Event Horizon Telescope\x27s black hole images.".toList,
    ⟨"astrophysics".toList, "physics".toList, "medium".toList, ["black-holes".toList, "dark-matter".toList, "gravitational-waves".toList, "exoplanets".toList], "physics".toList⟩⟩,
  ⟨"philosophy-consciousness-mind".toList, "Philosophy of Mind and Consciousness Studies".toList, "Philosophy of mind examines the nature of consciousness, mental states, and their relationship to physical processes. Hard problem of consciousness asks how subjective experiences arise from neural activity. Theories include dualism, materialism, and integrated information theory. AI consciousness raises questions about machine sentience and ethical treatment of artificial minds.".toList,
    ⟨"philosophy".toList, "philosophy".toList, "medium".toList, ["consciousness".toList, "mind".toList, "qualia".toList, "ai-consciousness".toList], "philosophy".toList⟩⟩,
  ⟨"ethics-ai-technology".toList, "Ethics in AI and Technology".toList, "Technology ethics examines moral implications of technological development and deployment. AI ethics addresses bias, fairness, transparency, accountability, and safety in artificial systems. Key issues include algorithmic bias, privacy, autonomous weapons, job displacement, and AI alignment. Frameworks include responsible AI development, explainable AI, and value alignment research.".toList,
    ⟨"ethics".toList, "philosophy".toList, "high".toList, ["ai-ethics".toList, "bias".toList, "fairness".toList, "safety".toList, "alignment".toList], "philosophy".toList⟩⟩,
  ⟨"current-ai-trends-2024".toList, "Current AI and Technology Trends 2024-2025".toList, "Current technology trends include multimodal AI models combining text, images, and audio, advancing autonomous vehicles with Level 4/5 capabilities, quantum computing breakthroughs, augmented reality integration, and sustainable technology solutions. Generative AI tools transform creative industries, while edge computing brings AI processing closer to users. Regulatory frameworks for AI are emerging globally.".toList,
    ⟨"current-tech".toList, "technology".toList, "high".toList, ["multimodal-ai".toList, "autonomous-vehicles".toList, "quantum".toList, "edge-computing".toList], "technology".toList⟩⟩
]

/-- The static relationship graph `comprehensiveKnowledgeGraph`, transcribed verbatim
(association list in source key order; edge order preserved). -/
def comprehensiveKnowledgeGraph : KG := [
  ("AI".toList,
   [⟨"Machine Learning".toList, "encompasses".toList, (19 : ℚ)/20, (49 : ℚ)/50, "definitional".toList⟩,
    ⟨"Neural Networks".toList, "utilizes".toList, (9 : ℚ)/10, (19 : ℚ)/20, "technical".toList⟩,
    ⟨"Programming".toList, "requires".toList, (4 : ℚ)/5, (9 : ℚ)/10, "practical".toList⟩,
    ⟨"Mathematics".toList, "depends_on".toList, (17 : ℚ)/20, (23 : ℚ)/25, "foundational".toList⟩,
    ⟨"Ethics".toList, "raises_concerns_about".toList, (3 : ℚ)/4, (22 : ℚ)/25, "societal".toList⟩]),
  ("Machine Learning".toList,
   [⟨"Data".toList, "learns_from".toList, (19 : ℚ)/20, (49 : ℚ)/50, "definitional".toList⟩,
    ⟨"Statistics".toList, "applies".toList, (22 : ℚ)/25, (23 : ℚ)/25, "mathematical".toList⟩,
    ⟨"Pattern Recognition".toList, "performs".toList, (9 : ℚ)/10, (47 : ℚ)/50, "functional".toList⟩,
    ⟨"Predictions".toList, "generates".toList, (17 : ℚ)/20, (9 : ℚ)/10, "output".toList⟩]),
  ("Neural Networks".toList,
   [⟨"Brain".toList, "mimics".toList, (7 : ℚ)/10, (4 : ℚ)/5, "biological".toList⟩,
    ⟨"Deep Learning".toList, "enables".toList, (23 : ℚ)/25, (19 : ℚ)/20, "technical".toList⟩,
    ⟨"Backpropagation".toList, "uses".toList, (22 : ℚ)/25, (9 : ℚ)/10, "algorithmic".toList⟩]),
  ("Quantum Computing".toList,
   [⟨"Quantum Mechanics".toList, "based_on".toList, (19 : ℚ)/20, (49 : ℚ)/50, "physics".toList⟩,
    ⟨"Cryptography".toList, "threatens".toList, (4 : ℚ)/5, (17 : ℚ)/20, "security".toList⟩,
    ⟨"Optimization".toList, "excels_at".toList, (3 : ℚ)/4, (4 : ℚ)/5, "computational".toList⟩,
    ⟨"Superposition".toList, "exploits".toList, (9 : ℚ)/10, (19 : ℚ)/20, "quantum-property".toList⟩]),
  ("Physics".toList,
   [⟨"Mathematics".toList, "requires".toList, (19 : ℚ)/20, (49 : ℚ)/50, "foundational".toList⟩,
    ⟨"Engineering".toList, "enables".toList, (17 : ℚ)/20, (9 : ℚ)/10, "applied".toList⟩,
    ⟨"Technology".toList, "drives".toList, (4 : ℚ)/5, (17 : ℚ)/20, "innovation".toList⟩,
    ⟨"Universe".toList, "explains".toList, (9 : ℚ)/10, (23 : ℚ)/25, "descriptive".toList⟩]),
  ("Blockchain".toList,
   [⟨"Cryptocurrency".toList, "enables".toList, (9 : ℚ)/10, (19 : ℚ)/20, "technical".toList⟩,
    ⟨"Decentralization".toList, "provides".toList, (17 : ℚ)/20, (9 : ℚ)/10, "architectural".toList⟩,
    ⟨"Smart Contracts".toList, "supports".toList, (4 : ℚ)/5, (17 : ℚ)/20, "functional".toList⟩,
    ⟨"Cryptography".toList, "relies_on".toList, (22 : ℚ)/25, (23 : ℚ)/25, "security".toList⟩]),
  ("GHChain".toList,
   [⟨"GH GOLD".toList, "powers".toList, 1, 1, "ecosystem".toList⟩,
    ⟨"Africa".toList, "targets".toList, (19 : ℚ)/20, (49 : ℚ)/50, "geographic".toList⟩,
    ⟨"DeFi".toList, "enables".toList, (17 : ℚ)/20, (9 : ℚ)/10, "financial".toList⟩,
    ⟨"Tribal Governance".toList, "implements".toList, (4 : ℚ)/5, (17 : ℚ)/20, "social".toList⟩]),
  ("GH GOLD".toList,
   [⟨"Staking".toList, "enables".toList, (9 : ℚ)/10, (19 : ℚ)/20, "tokenomics".toList⟩,
    ⟨"Governance".toList, "provides".toList, (17 : ℚ)/20, (9 : ℚ)/10, "political".toList⟩,
    ⟨"GOLDVAULT".toList, "traded_on".toList, (22 : ℚ)/25, (23 : ℚ)/25, "exchange".toList⟩,
    ⟨"Transaction Fees".toList, "reduces".toList, (3 : ℚ)/4, (4 : ℚ)/5, "economic".toList⟩]),
  ("Programming".toList,
   [⟨"Algorithms".toList, "implements".toList, (9 : ℚ)/10, (19 : ℚ)/20, "core-concept".toList⟩,
    ⟨"Data Structures".toList, "uses".toList, (22 : ℚ)/25, (23 : ℚ)/25, "fundamental".toList⟩,
    ⟨"Software".toList, "creates".toList, (19 : ℚ)/20, (49 : ℚ)/50, "output".toList⟩,
    ⟨"Problem Solving".toList, "involves".toList, (17 : ℚ)/20, (22 : ℚ)/25, "cognitive".toList⟩]),
  ("Web Development".toList,
   [⟨"JavaScript".toList, "uses".toList, (9 : ℚ)/10, (19 : ℚ)/20, "language".toList⟩,
    ⟨"HTML".toList, "structures_with".toList, (17 : ℚ)/20, (9 : ℚ)/10, "markup".toList⟩,
    ⟨"CSS".toList, "styles_with".toList, (83 : ℚ)/100, (22 : ℚ)/25, "presentation".toList⟩,
    ⟨"Databases".toList, "connects_to".toList, (39 : ℚ)/50, (17 : ℚ)/20, "backend".toList⟩]),
  ("Mathematics".toList,
   [⟨"Logic".toList, "based_on".toList, (9 : ℚ)/10, (19 : ℚ)/20, "foundational".toList⟩,
    ⟨"Abstract Thinking".toList, "develops".toList, (17 : ℚ)/20, (22 : ℚ)/25, "cognitive".toList⟩,
    ⟨"Science".toList, "underlies".toList, (22 : ℚ)/25, (23 : ℚ)/25, "supporting".toList⟩,
    ⟨"Engineering".toList, "enables".toList, (83 : ℚ)/100, (87 : ℚ)/100, "applied".toList⟩]),
  ("Statistics".toList,
   [⟨"Data Science".toList, "powers".toList, (23 : ℚ)/25, (24 : ℚ)/25, "methodological".toList⟩,
    ⟨"Probability".toList, "based_on".toList, (22 : ℚ)/25, (23 : ℚ)/25, "theoretical".toList⟩,
    ⟨"Research".toList, "validates".toList, (17 : ℚ)/20, (9 : ℚ)/10, "scientific".toList⟩]),
  ("Biology".toList,
   [⟨"Evolution".toList, "explains_through".toList, (9 : ℚ)/10, (19 : ℚ)/20, "theory".toList⟩,
    ⟨"Genetics".toList, "includes".toList, (22 : ℚ)/25, (23 : ℚ)/25, "sub-field".toList⟩,
    ⟨"Medicine".toList, "informs".toList, (17 : ℚ)/20, (9 : ℚ)/10, "applied".toList⟩,
    ⟨"Biotechnology".toList, "enables".toList, (4 : ℚ)/5, (17 : ℚ)/20, "technological".toList⟩]),
  ("Biotechnology".toList,
   [⟨"CRISPR".toList, "uses".toList, (17 : ℚ)/20, (9 : ℚ)/10, "tool".toList⟩,
    ⟨"Gene Therapy".toList, "enables".toList, (41 : ℚ)/50, (87 : ℚ)/100, "medical".toList⟩,
    ⟨"Agriculture".toList, "improves".toList, (3 : ℚ)/4, (4 : ℚ)/5, "applied".toList⟩]),
  ("Economics".toList,
   [⟨"Markets".toList, "studies".toList, (9 : ℚ)/10, (19 : ℚ)/20, "subject-matter".toList⟩,
    ⟨"Behavior".toList, "models".toList, (17 : ℚ)/20, (22 : ℚ)/25, "behavioral".toList⟩,
    ⟨"Policy".toList, "informs".toList, (4 : ℚ)/5, (17 : ℚ)/20, "governmental".toList⟩,
    ⟨"Business".toList, "guides".toList, (39 : ℚ)/50, (83 : ℚ)/100, "practical".toList⟩]),
  ("Business".toList,
   [⟨"Innovation".toList, "drives".toList, (17 : ℚ)/20, (9 : ℚ)/10, "competitive".toList⟩,
    ⟨"Technology".toList, "adopts".toList, (4 : ℚ)/5, (17 : ℚ)/20, "operational".toList⟩,
    ⟨"Markets".toList, "operates_in".toList, (22 : ℚ)/25, (23 : ℚ)/25, "contextual".toList⟩]),
  ("Philosophy".toList,
   [⟨"Ethics".toList, "includes".toList, (9 : ℚ)/10, (19 : ℚ)/20, "branch".toList⟩,
    ⟨"Logic".toList, "uses".toList, (22 : ℚ)/25, (23 : ℚ)/25, "tool".toList⟩,
    ⟨"Consciousness".toList, "examines".toList, (83 : ℚ)/100, (87 : ℚ)/100, "topic".toList⟩,
    ⟨"Reality".toList, "questions".toList, (17 : ℚ)/20, (22 : ℚ)/25, "inquiry".toList⟩]),
  ("Ethics".toList,
   [⟨"AI Safety".toList, "addresses".toList, (17 : ℚ)/20, (9 : ℚ)/10, "contemporary".toList⟩,
    ⟨"Technology".toList, "evaluates".toList, (4 : ℚ)/5, (17 : ℚ)/20, "applied".toList⟩,
    ⟨"Society".toList, "guides".toList, (39 : ℚ)/50, (83 : ℚ)/100, "social".toList⟩])
]


/-- The concept graph of the engine. -/
def conceptGraph : CG := buildConceptGraph comprehensiveKnowledgeGraph

/-- `deepGraphTraversal` as shipped: the walk over the engine's own graphs. -/
def deepGraphTraversal (startEntities : List (List Char)) (maxDepth : ℕ)
    (minConf : ℚ) : List Triple :=
  deepGraphTraversalOn comprehensiveKnowledgeGraph conceptGraph startEntities maxDepth minConf


/-! ## Similarity search (`multiAlgorithmSearch`) -/

/-- Dot product (`a.reduce((sum, val, i) => sum + val * b[i], 0)`; the vectors
compared have equal length). -/
def dotQ (a b : List ℚ) : ℚ :=
  ((a.zip b).map (fun p => p.1 * p.2)).sum

/-- Sum of squares (the radicand of a magnitude). -/
def sumSq (a : List ℚ) : ℚ :=
  (a.map (fun x => x * x)).sum

/-- `enhancedCosineSimilarity` over rational vectors, abstract in `Math.sqrt`:
zero when either magnitude is zero, otherwise `dot / (magA * magB)`. -/
def cosineSimQ (sqrtFn : ℚ → ℚ) (a b : List ℚ) : ℚ :=
  let magA := sqrtFn (sumSq a)
  let magB := sqrtFn (sumSq b)
  if magA = 0 ∨ magB = 0 then 0 else dotQ a b / (magA * magB)

/-- The radicand of `euclideanDistance` (`sum of (a_i - b_i)^2`). -/
def euclidSq (a b : List ℚ) : ℚ :=
  ((a.zip b).map (fun p => (p.1 - p.2) * (p.1 - p.2))).sum

/-- `manhattanDistance`. -/
def manhattanDist (a b : List ℚ) : ℚ :=
  ((a.zip b).map (fun p => |p.1 - p.2|)).sum

/-- The `domainExperts` table, transcribed verbatim (insertion order). -/
def domainExperts : List (List Char × List (List Char)) :=
  [ ("computer-science".toList,
     ["ai".toList, "programming".toList, "algorithms".toList, "software".toList,
      "neural-networks".toList])
  , ("physics".toList,
     ["quantum".toList, "relativity".toList, "mechanics".toList,
      "thermodynamics".toList, "particles".toList])
  , ("mathematics".toList,
     ["algebra".toList, "calculus".toList, "topology".toList, "statistics".toList,
      "probability".toList])
  , ("biology".toList,
     ["genetics".toList, "evolution".toList, "biotechnology".toList,
      "medicine".toList, "neuroscience".toList])
  , ("economics".toList,
     ["markets".toList, "finance".toList, "business".toList,
      "cryptocurrency".toList, "defi".toList])
  , ("blockchain".toList,
     ["ghchain".toList, "gh-gold".toList, "goldvault".toList, "defi".toList,
      "smart-contracts".toList])
  , ("philosophy".toList,
     ["ethics".toList, "consciousness".toList, "logic".toList, "reality".toList,
      "knowledge".toList]) ]

/-- `calculateDomainRelevance`: fraction of the domain's expert keywords contained
in the lower-cased query. -/
def calculateDomainRelevance (query : List Char) (domain : List Char) : ℚ :=
  let dk := (alookup domainExperts domain).getD []
  ((dk.filter (fun kw => jsIncludes (jsToLower query) kw)).length : ℚ) /
    (max dk.length 1 : ℕ)

/-- The keyword-matching boost: fraction of the document's keywords `kw` such that
some query word `qw` satisfies `kw.includes(qw) || qw.includes(kw)`
(all lower-cased; the query words are NOT length-filtered here). -/
def keywordScore (query : List Char) (keywords : List (List Char)) : ℚ :=
  let queryWords := jsSplitWs (jsToLower query)
  ((keywords.filter (fun kw =>
      queryWords.any (fun qw =>
        jsIncludes (jsToLower kw) qw || jsIncludes qw (jsToLower kw)))).length : ℚ) /
    (max keywords.length 1 : ℕ)

/-- The importance multiplier (`high` 1.2, `medium` 1.0, otherwise 0.8). -/
def importanceWeight (importance : List Char) : ℚ :=
  if importance = "high".toList then 12/10
  else if importance = "medium".toList then 1 else 8/10

/-- The text a document is embedded from
(`` `${doc.title} ${doc.content} ${doc.meta.keywords.join(' ')}` ``); the engine
computes these vectors once at start-up and caches them, which the model renders
by recomputation (the cached and recomputed values coincide). -/
def docEmbedText (d : KBDoc) : List Char :=
  d.title ++ ' ' :: d.content ++ ' ' :: joinSep [' '] d.meta.keywords

/-- The composite score of one document against a query vector. -/
def compositeScore (sqrtFn : ℚ → ℚ) (query : List Char) (queryEmbedding : List ℚ)
    (d : KBDoc) : ℚ :=
  let docEmbedding := advancedEmbedQ (docEmbedText d)
  let cosineSim := cosineSimQ sqrtFn queryEmbedding docEmbedding
  let euclideanSim := 1 / (1 + sqrtFn (euclidSq queryEmbedding docEmbedding))
  let manhattanSim := 1 / (1 + manhattanDist queryEmbedding docEmbedding)
  let kw := keywordScore query d.meta.keywords
  let dom := calculateDomainRelevance query d.meta.domain
  (cosineSim * (4/10) + euclideanSim * (2/10) + manhattanSim * (1/10) +
      kw * (2/10) + dom * (1/10)) * importanceWeight d.meta.importance

/-- The preview of a result document: the body truncated to 300 characters with a
trailing ellipsis when longer. -/
def mkPreview (content : List Char) : List Char :=
  if 300 < content.length then content.take 300 ++ "...".toList else content

/-- `multiAlgorithmSearch`: score every corpus document, keep scores strictly
above the 0.1 floor, sort stably by descending composite score and return the
first `topK`. -/
def multiAlgorithmSearch (sqrtFn : ℚ → ℚ) (query : List Char) (topK : ℕ) :
    List SDoc :=
  let queryEmbedding := advancedEmbedQ query
  let results := comprehensiveKnowledgeBase.filterMap (fun d =>
    let score := compositeScore sqrtFn query queryEmbedding d
    if 1/10 < score then
      some ⟨d.id, score, mkPreview d.content, d.content, d.meta⟩
    else none)
  (sortDescBy (fun r => r.score) results).take topK

/-- The search contract the specification describes, stated as a definition for
comparison ("computes `embed(queryText)`, scores every corpus vector by cosine
similarity, discards scores below a fixed relevance floor, and returns the top-k
by descending score"), with the same floor constant as the code. -/
def specCosineSearch (sqrtFn : ℚ → ℚ) (query : List Char) (topK : ℕ) :
    List SDoc :=
  let queryEmbedding := advancedEmbedQ query
  let results := comprehensiveKnowledgeBase.filterMap (fun d =>
    let score := cosineSimQ sqrtFn queryEmbedding (advancedEmbedQ (docEmbedText d))
    if 1/10 < score then
      some ⟨d.id, score, mkPreview d.content, d.content, d.meta⟩
    else none)
  (sortDescBy (fun r => r.score) results).take topK


/-- Sum of squares over JS values (`a.reduce((sum, val) => sum + val * val, 0)`). -/
def sumsqJS (a : List JSVal) : JSVal :=
  a.foldl (fun s v => jsAdd s (jsMul v v)) (.num 0)

/-- Dot product over JS values (`a.reduce((sum, val, i) => sum + val * b[i], 0)`;
faithful whenever `b` is at least as long as `a`, which holds at every call site,
where both vectors are embeddings of the fixed dimension). -/
def dotJS (a b : List JSVal) : JSVal :=
  ((a.zip b).map (fun p => jsMul p.1 p.2)).foldl jsAdd (.num 0)

/-- `enhancedCosineSimilarity` with JS special-value semantics, abstract in
`Math.sqrt`: 0 when either magnitude compares `=== 0`, otherwise
`dot / (magA * magB)`.  `cosineSimQ` above is its rational projection used inside
the composite scoring, where no special value arises. -/
def enhancedCosineSimilarity (f : ℚ → JSVal) (a b : List JSVal) : JSVal :=
  let magA := jsSqrtWith f (sumsqJS a)
  let magB := jsSqrtWith f (sumsqJS b)
  if magA = .num 0 ∨ magB = .num 0 then .num 0
  else jsDiv (dotJS a b) (jsMul magA magB)

/-- A concrete square-root stand-in satisfying every hypothesis the theorems place
on `Math.sqrt` (zero at zero, positive on positives, and
`q ≤ sqrtStub q * sqrtStub q`), used to instantiate closed statements. -/
def sqrtStub (q : ℚ) : ℚ := if q ≤ 0 then 0 else max q 1


/-! ## Entity extraction (`advancedEntityExtraction`)

The four regexes of the source are modelled by direct scanners over the character
list.  Each scanner reproduces the global-match semantics of the corresponding
pattern (leftmost match, greedy with the backtracking the pattern allows,
continuing after each match): see the comments on each definition. -/

/-- A regex word character (`\w` = `[A-Za-z0-9_]`), which also determines the word
boundaries `\b`. -/
def isWordChar (c : Char) : Bool :=
  c.isAlpha || c.isDigit || c = '_'

/-- Maximal runs of word characters, in order of position. -/
def wordRuns : List Char → List (List Char) :=
  fun cs =>
    ((splitEvery (fun c => !isWordChar c) cs).filter (fun w => w ≠ []))

/-- Matches of `/\b[A-Z]{2,10}\b/g`: because the character class is a subset of
word characters and both ends carry `\b`, the matches are exactly the maximal
word runs that consist solely of 2 to 10 uppercase letters. -/
def acronymMatches (cs : List Char) : List (List Char) :=
  (wordRuns cs).filter (fun r =>
    r.all (fun c => 'A' ≤ c && c ≤ 'Z') && 2 ≤ r.length && r.length ≤ 10)

/-- Matches of `/\b\d+[A-Za-z]+\b/g`: maximal word runs of the exact shape digits
then letters (any other shape fails the trailing `\b` under every backtracking). -/
def alnumCodeMatches (cs : List Char) : List (List Char) :=
  (wordRuns cs).filter (fun r =>
    let ds := r.takeWhile Char.isDigit
    let rest := r.dropWhile Char.isDigit
    ds ≠ [] && rest ≠ [] && rest.all Char.isAlpha)

/-- One proper-noun segment `[A-Z][a-z]+` with a greedy lowercase run; returns the
segment and the rest. -/
def pnSegment : List Char → Option (List Char × List Char)
  | [] => none
  | c :: rest =>
    if 'A' ≤ c && c ≤ 'Z' then
      let low := rest.takeWhile (fun d => 'a' ≤ d && d ≤ 'z')
      if low = [] then none else some (c :: low, rest.drop low.length)
    else none

/-- Greedily parse `(?:\s+[A-Z][a-z]+)*` extensions: whitespace runs followed by
further segments.  Returns the list of `(separator, segment)` pairs and the rest. -/
def pnExts (fuel : ℕ) (cs : List Char) :
    List (List Char × List Char) × List Char :=
  match fuel with
  | 0 => ([], cs)
  | fuel + 1 =>
    let ws := cs.takeWhile isWsChar
    if ws = [] then ([], cs)
    else
      match pnSegment (cs.drop ws.length) with
      | none => ([], cs)
      | some (seg, rest) =>
        let (more, rest') := pnExts fuel rest
        ((ws, seg) :: more, rest')

/-- Matches of `/\b[A-Z][a-z]+(?:\s+[A-Z][a-z]+)*\b/g`.  After greedily chaining
segments, only the final segment can fail the trailing `\b` (inner segments are
followed by whitespace); in that case the match backtracks by exactly one segment,
and if only one segment was parsed the whole attempt fails and scanning advances
one character.  `prevWord` records whether the previous character was a word
character (for the leading `\b`). -/
def pnScan (fuel : ℕ) (prevWord : Bool) (cs : List Char) : List (List Char) :=
  match fuel, cs with
  | 0, _ => []
  | _, [] => []
  | fuel + 1, c :: rest =>
    let advance := pnScan fuel (isWordChar c) rest
    if prevWord then advance
    else
      match pnSegment (c :: rest) with
      | none => advance
      | some (seg0, rest0) =>
        let (exts, restAll) := pnExts (c :: rest).length rest0
        let boundaryOk := match restAll.head? with
          | none => true
          | some d => !isWordChar d
        if boundaryOk then
          let m := seg0 ++ joinSep [] (exts.map (fun p => p.1 ++ p.2))
          m :: pnScan fuel true restAll
        else
          match exts.getLast? with
          | none => advance
          | some lastExt =>
            let kept := exts.dropLast
            let m := seg0 ++ joinSep [] (kept.map (fun p => p.1 ++ p.2))
            m :: pnScan fuel true (lastExt.1 ++ lastExt.2 ++ restAll)

/-- Matches of `/\b[A-Z][a-z]+(?:\s+[A-Z][a-z]+)*\b/g` over a text. -/
def properNounMatches (cs : List Char) : List (List Char) :=
  pnScan (cs.length + 1) false cs

/-- Matches of `/\b[a-z]+-[a-z]+\b/gi`: at a word boundary, a maximal letter run,
a hyphen, a second maximal letter run, and a trailing boundary; on failure the
scan advances one character, after a match it continues behind the match. -/
def hyphenScan (fuel : ℕ) (prevWord : Bool) (cs : List Char) : List (List Char) :=
  match fuel, cs with
  | 0, _ => []
  | _, [] => []
  | fuel + 1, c :: rest =>
    let advance := hyphenScan fuel (isWordChar c) rest
    if prevWord || !c.isAlpha then advance
    else
      let l1 := (c :: rest).takeWhile Char.isAlpha
      let afterL1 := (c :: rest).drop l1.length
      match afterL1 with
      | '-' :: tail =>
        let l2 := tail.takeWhile Char.isAlpha
        let afterL2 := tail.drop l2.length
        let boundaryOk := match afterL2.head? with
          | none => true
          | some d => !isWordChar d
        if l2 ≠ [] && boundaryOk then
          (l1 ++ '-' :: l2) :: hyphenScan fuel true afterL2
        else advance
      | _ => advance

/-- Matches of `/\b[a-z]+-[a-z]+\b/gi` over a text. -/
def hyphenMatches (cs : List Char) : List (List Char) :=
  hyphenScan (cs.length + 1) false cs

/-- The gazetteer of known entities, transcribed verbatim. -/
def knownEntities : List (List Char) :=
  ["GHChain", "GH GOLD", "GOLDVAULT", "Anaase", "DeFi", "Africa",
   "AI", "Machine Learning", "Neural Networks", "Deep Learning",
   "Blockchain", "Bitcoin", "Cryptocurrency", "Smart Contracts",
   "Quantum Computing", "Quantum Mechanics", "Physics", "Mathematics",
   "Programming", "JavaScript", "Python", "React", "Node.js",
   "Biology", "Genetics", "CRISPR", "Biotechnology", "Medicine",
   "Economics", "Business", "Markets", "Finance", "Statistics",
   "Philosophy", "Ethics", "Consciousness", "Logic"].map String.toList

/-- The technical-term list, transcribed verbatim. -/
def techTerms : List (List Char) :=
  ["algorithm", "database", "framework", "protocol", "interface",
   "function", "variable", "parameter", "optimization", "analysis",
   "synthesis", "implementation", "architecture", "methodology"].map String.toList

/-- `term.charAt(0).toUpperCase() + term.slice(1)`. -/
def capitalizeWord : List Char → List Char
  | [] => []
  | c :: cs => c.toUpper :: cs

/-- `advancedEntityExtraction`: known entities (case-insensitive substring match),
then pattern matches of plausible length, then capitalized technical terms, as an
insertion-ordered set. -/
def advancedEntityExtraction (text : List Char) : List (List Char) :=
  let lower := jsToLower text
  let known := knownEntities.filter (fun e => jsIncludes lower (jsToLower e))
  let patternFound :=
    (acronymMatches text ++ properNounMatches text ++ alnumCodeMatches text ++
      hyphenMatches text).filter (fun m => 2 < m.length && m.length < 30)
  let tech := (techTerms.filter (fun t => jsIncludes lower t)).map capitalizeWord
  dedupFirst (known ++ patternFound ++ tech)


/-! ## Rule engine (`advancedRuleEngine`) -/

/-- One rule: a name, the literal alternatives of its trigger regex (the empty
list encodes `/.*/`, which matches everything), and its structural condition over
the retrieved documents and extracted entities. -/
structure SRule : Type where
  name : List Char
  alts : List (List Char)
  trigger : List SDoc → List (List Char) → Bool

/-- Does the rule's pattern match the (lower-cased) text?  Every source pattern is
either `/.*/` or an alternation of lower-case literals, so matching is substring
containment of some alternative. -/
def patternTest (alts : List (List Char)) (text : List Char) : Bool :=
  match alts with
  | [] => true
  | _ => alts.any (fun a => jsIncludes text a)

/-- The fixed rule set `advancedRules`, transcribed verbatim in registration
order. -/
def advancedRules : List SRule :=
  [ ⟨"ai-deep-learning-rule".toList,
     ["artificial intelligence", "ai", "machine learning", "neural network",
      "deep learning"].map String.toList,
     fun _ ents => ents.any (fun e =>
       e ∈ ["AI", "Machine Learning", "Neural Networks"].map String.toList)⟩
  , ⟨"blockchain-ecosystem-rule".toList,
     ["blockchain", "cryptocurrency", "defi", "smart contract",
      "token"].map String.toList,
     fun _ ents => ents.any (fun e =>
       e ∈ ["Blockchain", "Cryptocurrency", "GHChain", "GH GOLD"].map String.toList)⟩
  , ⟨"quantum-physics-rule".toList,
     ["quantum", "physics", "mechanics", "relativity", "particle"].map String.toList,
     fun _ ents => ents.any (fun e =>
       e ∈ ["Quantum Computing", "Physics", "Quantum Mechanics"].map String.toList)⟩
  , ⟨"programming-software-rule".toList,
     ["programming", "software", "code", "development", "algorithm"].map String.toList,
     fun _ ents => ents.any (fun e =>
       e ∈ ["Programming", "Software", "Algorithm"].map String.toList)⟩
  , ⟨"biology-medicine-rule".toList,
     ["biology", "genetics", "medicine", "biotech", "crispr", "gene"].map String.toList,
     fun _ ents => ents.any (fun e =>
       e ∈ ["Biology", "Genetics", "Medicine", "Biotechnology"].map String.toList)⟩
  , ⟨"mathematics-statistics-rule".toList,
     ["mathematics", "math", "statistics", "probability", "calculus"].map String.toList,
     fun _ ents => ents.any (fun e =>
       e ∈ ["Mathematics", "Statistics", "Probability"].map String.toList)⟩
  , ⟨"economics-business-rule".toList,
     ["economics", "business", "market", "finance", "trading"].map String.toList,
     fun _ ents => ents.any (fun e =>
       e ∈ ["Economics", "Business", "Markets", "Finance"].map String.toList)⟩
  , ⟨"interdisciplinary-connection-rule".toList, [],
     fun docs _ => 1 < (dedupFirst (docs.map (fun d => d.meta.domain))).length⟩
  , ⟨"high-complexity-reasoning-rule".toList,
     ["explain", "analyze", "compare", "relationship", "connection",
      "impact"].map String.toList,
     fun docs ents => 3 < ents.length || 3 < docs.length⟩
  , ⟨"specialization-expertise-rule".toList, [],
     fun docs ents =>
       docs.any (fun d => d.meta.importance = "high".toList) && 0 < ents.length⟩ ]

/-- The text every pattern is tested against: the query concatenated with the
full CONTENTS of the retrieved documents, lower-cased
(`` `${query} ${docs.map(d => d.content).join(' ')}`.toLowerCase() ``). -/
def ruleCombinedText (query : List Char) (docs : List SDoc) : List Char :=
  jsToLower (query ++ ' ' :: joinSep [' '] (docs.map (fun d => d.content)))

/-- `advancedRuleEngine`: evaluate each rule once, in registration order, firing
it when its pattern matches the combined text and its structural condition holds. -/
def advancedRuleEngine (query : List Char) (docs : List SDoc)
    (entities : List (List Char)) : List (List Char) :=
  advancedRules.foldl
    (fun acc r =>
      if patternTest r.alts (ruleCombinedText query docs) && r.trigger docs entities
      then acc ++ [r.name] else acc)
    []

/-- The rule evaluation the specification describes, for comparison: identical
except that patterns are tested against the query concatenated with the document
PREVIEWS. -/
def specRuleEngineOnPreviews (query : List Char) (docs : List SDoc)
    (entities : List (List Char)) : List (List Char) :=
  let combined := jsToLower (query ++ ' ' :: joinSep [' '] (docs.map (fun d => d.preview)))
  advancedRules.foldl
    (fun acc r =>
      if patternTest r.alts combined && r.trigger docs entities
      then acc ++ [r.name] else acc)
    []

/-! ## Answer synthesis (`synthesizeIntelligentAnswer`) -/

/-- Rendering of a predicate in prose:
`predicate.replace(/([A-Z])/g, ' $1').toLowerCase().replace(/_/g, ' ')`. -/
def renderPredicate (p : List Char) : List Char :=
  (jsToLower (joinSep [] (p.map (fun c =>
      if 'A' ≤ c && c ≤ 'Z' then [' ', c] else [c])))).map
    (fun c => if c = '_' then ' ' else c)

/-- A natural number printed the way a JS template literal prints it. -/
def natStr (n : ℕ) : List Char := (Nat.repr n).toList

/-- The no-evidence fallback sentence (verbatim). -/
def fallbackAnswer (query : List Char) : List Char :=
  "I\x27m performing deep analysis on \"".toList ++ query ++
  "\" across my comprehensive knowledge base spanning technology, science, mathematics, business, and specialized domains. While I may have limited direct matches, I\x27m applying multi-hop reasoning and cross-domain inference to provide the most relevant insights possible.".toList

/-- The default answer returned when every synthesis stage contributed nothing
(`answer || "I've processed your query …"`). -/
def defaultAnswer : List Char :=
  "I\x27ve processed your query using advanced semantic search, multi-hop graph reasoning, and cross-domain inference across my comprehensive knowledge base.".toList

/-- The accumulated `answer` of `synthesizeIntelligentAnswer` before the final
`answer || default` fallback: primary document, cross-domain note, rendered
high-confidence relationships, and the concept/inference count note. -/
def synthAnswerBody (docs : List SDoc) (graphPath : List Triple)
    (entities : List (List Char)) : List Char :=
  let domains := dedupFirst (docs.map (fun d => d.meta.domain))
    let part1 := match docs with
      | [] => []
      | primaryDoc :: _ =>
        "Based on my deep knowledge analysis: ".toList ++ primaryDoc.content.take 400 ++
        (if primaryDoc.meta.importance = "high".toList then
          " This represents core knowledge in ".toList ++ primaryDoc.meta.domain ++
            ".".toList
         else [])
    let part2 := if 1 < domains.length then
        " My reasoning engine has identified cross-domain connections spanning ".toList ++
        joinSep ", ".toList domains ++ ".".toList
      else []
    let part3 := if graphPath ≠ [] then
        let high := (graphPath.filter (fun p => 8/10 < p.confidence)).take 3
        if high ≠ [] then
          " Through knowledge graph traversal, I\x27ve identified these key relationships: ".toList ++
          joinSep "; ".toList (high.map (fun t =>
            t.subject ++ ' ' :: renderPredicate t.predicate ++ ' ' :: t.object)) ++
          ".".toList
        else []
      else []
    let part4 := if 2 < entities.length ∧ 2 < graphPath.length then
        " This analysis involved ".toList ++ natStr entities.length ++
        " key concepts and ".toList ++ natStr graphPath.length ++
        " relationship inferences across multiple reasoning paths.".toList
      else []
  part1 ++ part2 ++ part3 ++ part4

/-- `synthesizeIntelligentAnswer`, transcribed clause by clause: the fixed
fallback when there is no evidence at all, otherwise the accumulated answer,
replaced by the default sentence when empty (`return answer || "I've …"`). -/
def synthesizeIntelligentAnswer (query : List Char) (docs : List SDoc)
    (graphPath : List Triple) (entities : List (List Char)) : List Char :=
  if docs = [] ∧ graphPath = [] then fallbackAnswer query
  else if synthAnswerBody docs graphPath entities = [] then defaultAnswer
  else synthAnswerBody docs graphPath entities


/-! ## Deep analysis, alternatives, related concepts -/

/-- JS `Math.round` (half away from zero upward; all rounded values here are
non-negative). -/
def jsRound (q : ℚ) : ℤ := ⌊q + 1/2⌋

/-- `inferDomainFromEntity`: the first expert domain one of whose keywords
overlaps the entity name (two-sided substring test), else `general`. -/
def inferDomainFromEntity (e : List Char) : List Char :=
  match domainExperts.find? (fun p => p.2.any (fun kw =>
      jsIncludes (jsToLower e) kw || jsIncludes kw (jsToLower e))) with
  | some p => p.1
  | none => "general".toList

/-- The result of `generateDeepAnalysis`. -/
structure DeepAnalysis : Type where
  conceptualDepth : ℤ
  crossDomainConnections : ℕ
  inferenceChains : List (List Char)
  confidenceScore : ℤ
deriving DecidableEq, Repr

/-- `generateDeepAnalysis`, transcribed (the `query` argument is unused in the
source as well). -/
def generateDeepAnalysis (docs : List SDoc) (graphPath : List Triple)
    (entities : List (List Char)) : DeepAnalysis :=
  let highDocs := (docs.filter (fun d => d.meta.importance = "high".toList)).length
  let conceptualDepth : ℚ :=
    min ((highDocs : ℚ) * 2 + (entities.length : ℚ) * (3/2) +
      (graphPath.length : ℚ) * (1/2)) 10
  let domains := dedupFirst (docs.map (fun d => d.meta.domain))
  let crossDomainConnections := if 1 < domains.length then domains.length * 2 else 1
  let groupKeys := dedupFirst (graphPath.map (fun p => inferDomainFromEntity p.subject))
  let inferenceChains := (groupKeys.filterMap (fun dom =>
    match graphPath.find? (fun p => inferDomainFromEntity p.subject = dom) with
    | some p => some (dom ++ ": ".toList ++ p.subject ++ " → ".toList ++
        p.predicate ++ " → ".toList ++ p.object)
    | none => none)).take 5
  let avgDocScore := (docs.map (fun d => d.score)).sum / (max docs.length 1 : ℕ)
  let avgPathConfidence :=
    (graphPath.map (fun p => p.confidence)).sum / (max graphPath.length 1 : ℕ)
  let confidenceScore :=
    min ((avgDocScore * (6/10) + avgPathConfidence * (4/10)) * 100) 95
  ⟨jsRound conceptualDepth, crossDomainConnections, inferenceChains,
    jsRound confidenceScore⟩

/-- `generateAlternativeQuestions`, transcribed. -/
def generateAlternativeQuestions (query : List Char) (entities : List (List Char))
    (docs : List SDoc) : List (List Char) :=
  let queryWords := (jsSplitWs (jsToLower query)).filter (fun w => 2 < w.length)
  let entityAlts := (entities.take 3).flatMap (fun e =>
    ["How does ".toList ++ e ++ " work?".toList,
     "What is the relationship between ".toList ++ e ++ " and other concepts?".toList])
  let domains := dedupFirst (docs.map (fun d => d.meta.domain))
  let domainAlts := (domains.take 2).map (fun d =>
    "What are the latest developments in ".toList ++ d ++ "?".toList)
  let compareAlts := match entities with
    | e0 :: e1 :: _ => ["Compare ".toList ++ e0 ++ " and ".toList ++ e1]
    | _ => []
  let explainAlts :=
    if queryWords.any (fun w =>
        w ∈ ["what".toList, "how".toList, "why".toList, "explain".toList]) then
      let concept := match entities with
        | e :: _ => some e
        | [] => queryWords.find? (fun w => 4 < w.length)
      match concept with
      | some c =>
        ["Explain ".toList ++ c ++ " in simple terms".toList,
         "What are the applications of ".toList ++ c ++ "?".toList]
      | none => []
    else []
  (entityAlts ++ domainAlts ++ compareAlts ++ explainAlts).take 5

/-- `extractRelatedConcepts`, transcribed: objects and (de-underscored)
predicates of the traversed edges, then up to three concept-graph neighbours per
entity, with the query's own entities removed. -/
def extractRelatedConcepts (entities : List (List Char))
    (graphPath : List Triple) : List (List Char) :=
  let fromPath := graphPath.flatMap (fun p =>
    [p.object] ++
    (if p.source ≠ "concept_graph".toList then
      [p.predicate.map (fun c => if c = '_' then ' ' else c)] else []))
  let fromConcepts := entities.flatMap (fun e =>
    ((alookup conceptGraph e).getD []).take 3)
  ((dedupFirst (fromPath ++ fromConcepts)).filter (fun c => c ∉ entities)).take 8

/-! ## The query pipeline (`query`) -/

/-- A heterogeneous trace-info value. -/
inductive JInfo : Type where
  | s (v : List Char)
  | n (v : ℚ)
  | arr (vs : List (List Char))
deriving DecidableEq, Repr

/-- One reasoning-trace event (`{type, timestamp, info, score?}`). -/
structure TraceItem : Type where
  ttype : List Char
  timestamp : List Char
  info : List (List Char × JInfo)
  score : Option ℚ
deriving DecidableEq, Repr

/-- The wall clock, abstracted: `iso n` is the string the `n`-th
`new Date().toISOString()` call returns, `now n` the value of the `n`-th
`Date.now()` call. -/
structure Clock : Type where
  iso : ℕ → List Char
  now : ℕ → ℤ

/-- The `options` object of a query. -/
structure QOptions : Type where
  topK : Option ℕ
  maxDepth : Option ℕ
  minConfidence : Option ℚ
deriving DecidableEq, Repr

/-- JS `x || d` for an optional numeric option (`0` is falsy and falls back). -/
def jsOrNat (v : Option ℕ) (d : ℕ) : ℕ :=
  match v with
  | some n => if n = 0 then d else n
  | none => d

/-- JS `x || d` for a rational option. -/
def jsOrQ (v : Option ℚ) (d : ℚ) : ℚ :=
  match v with
  | some q => if q = 0 then d else q
  | none => d

/-- The structured query result (`QueryResponse`). -/
structure QueryResponse : Type where
  answer : List Char
  docs : List SDoc
  path : List Triple
  rulesFired : List (List Char)
  trace : List TraceItem
  deepAnalysis : DeepAnalysis
  alternativeQuestions : List (List Char)
  relatedConcepts : List (List Char)

/-- The full query pipeline `query(question, options)`: retrieval, entity
extraction, traversal (only with a non-empty entity set), rule evaluation, deep
analysis, synthesis, alternatives and related concepts, plus the reasoning trace
whose timestamps come from the abstract clock in call order. -/
def queryModel (sqrtFn : ℚ → ℚ) (clock : Clock) (question : List Char)
    (options : QOptions) : QueryResponse :=
  let topK := jsOrNat options.topK 8
  let maxDepth := jsOrNat options.maxDepth 4
  let minConfidence := jsOrQ options.minConfidence (7/10)
  let docs := multiAlgorithmSearch sqrtFn question topK
  let entities := advancedEntityExtraction question
  let graphPath :=
    if entities = [] then [] else deepGraphTraversal entities maxDepth minConfidence
  let rulesFired := advancedRuleEngine question docs entities
  let analysis := generateDeepAnalysis docs graphPath entities
  let answer := synthesizeIntelligentAnswer question docs graphPath entities
  let alts := generateAlternativeQuestions question entities docs
  let related := extractRelatedConcepts entities graphPath
  let t1 : TraceItem :=
    ⟨"advanced-retrieval".toList, clock.iso 0,
     [("question".toList, .s question),
      ("method".toList, .s "multi_algorithm_search".toList),
      ("algorithms".toList, .arr (["cosine", "euclidean", "manhattan",
        "keyword_boost", "domain_relevance"].map String.toList)),
      ("knowledgeBase".toList, .s "comprehensive".toList)], none⟩
  let t2 : TraceItem :=
    ⟨"entity-extraction".toList, clock.iso 1,
     [("method".toList, .s "pattern_matching_plus_nlp".toList),
      ("patterns".toList, .arr (["acronyms", "proper_nouns",
        "technical_terms"].map String.toList))], none⟩
  let travTrace : List TraceItem :=
    if entities = [] then []
    else
      [⟨"deep-graph-traversal".toList, clock.iso 2,
        [("startEntities".toList, .arr entities),
         ("maxDepth".toList, .n maxDepth),
         ("minConfidence".toList, .n minConfidence),
         ("method".toList, .s "confidence_weighted_traversal".toList)], none⟩]
  let rulesIdx := 2 + travTrace.length
  let rulesTrace : List TraceItem :=
    if rulesFired = [] then []
    else
      [⟨"advanced-rule-inference".toList, clock.iso rulesIdx,
        [("fired".toList, .arr rulesFired),
         ("types".toList, .arr (["domain_specific", "cross_domain",
           "complexity_based"].map String.toList))], none⟩]
  let processingTime := clock.now 1 - clock.now 0
  let t5 : TraceItem :=
    ⟨"deep-synthesis".toList, clock.iso (rulesIdx + rulesTrace.length),
     [("components".toList, .arr (["multi_algorithm_search",
        "deep_graph_traversal", "advanced_rules",
        "cross_domain_analysis"].map String.toList)),
      ("docsFound".toList, .n docs.length),
      ("entitiesExtracted".toList, .n entities.length),
      ("graphHops".toList, .n graphPath.length),
      ("rulesApplied".toList, .n rulesFired.length),
      ("domains".toList, .arr (dedupFirst (docs.map (fun d => d.meta.domain)))),
      ("processingTime".toList, .s ((Int.repr processingTime).toList ++ "ms".toList)),
      ("confidenceScore".toList, .n analysis.confidenceScore)],
     some ((analysis.confidenceScore : ℚ) / 100)⟩
  ⟨answer, docs, graphPath, rulesFired,
    [t1, t2] ++ travTrace ++ rulesTrace ++ [t5],
    analysis, alts, related⟩

/-! ## The `POST` handler -/

/-- A parsed JSON value (the resolved result of `request.json()`). -/
inductive JsonVal : Type where
  | jnull
  | jbool (b : Bool)
  | jnum (q : ℚ)
  | jstr (s : List Char)
  | jarr (n : ℕ)
  | jobj (fields : List (List Char × JsonVal))
deriving Repr

/-- Property read `body.question` under JS destructuring: only objects yield
properties (arrays, numbers, booleans and strings have no `question` property;
the `null` case never reaches a read because destructuring `null` throws). -/
def jsonGet (v : JsonVal) (k : List Char) : Option JsonVal :=
  match v with
  | .jobj fs => alookup fs k
  | _ => none

/-- JS truthiness of a field value. -/
def jsTruthyJson : JsonVal → Bool
  | .jnull => false
  | .jbool b => b
  | .jnum q => q ≠ 0
  | .jstr s => s ≠ []
  | _ => true

/-- `options || {}`. -/
def jsOrEmptyObj (v : Option JsonVal) : JsonVal :=
  match v with
  | some x => if jsTruthyJson x then x else .jobj []
  | none => .jobj []

/-- A transport-level response of the handler: either a 200 payload built from an
engine result, or an error response with its HTTP status and message. -/
inductive PostResponse (α : Type) : Type where
  | ok (result : α)
  | err (status : ℕ) (message : List Char)
deriving Repr

/-- The 400 message for a missing or non-string question. -/
def missingQuestionMsg : List Char :=
  "Question is required and must be a string".toList

/-- The 400 message for an over-long question. -/
def tooLongMsg : List Char :=
  "Question too long. Please limit to 1000 characters.".toList

/-- The 500 message of the catch-all handler. -/
def internalErrorMsg : List Char :=
  "Internal server error during deep reasoning".toList

/-- The `POST` handler over a parsed body, abstract in the reasoning engine it
invokes: a body of JSON `null` makes the destructuring throw into the catch-all
500; a missing, falsy (in particular empty-string) or non-string `question` is
rejected with 400; a question above 1000 characters is rejected with 400; only
then is the engine run on the question and `options || {}`. -/
def postHandler {α : Type} (engine : List Char → JsonVal → α) (body : JsonVal) :
    PostResponse α :=
  match body with
  | .jnull => .err 500 internalErrorMsg
  | _ =>
    match jsonGet body "question".toList with
    | some (.jstr s) =>
      if s = [] then .err 400 missingQuestionMsg
      else if 1000 < s.length then .err 400 tooLongMsg
      else .ok (engine s (jsOrEmptyObj (jsonGet body "options".toList)))
    | _ => .err 400 missingQuestionMsg


/-! # Theorems -/

set_option maxRecDepth 100000

/-! ## C10: input length limit at the query interface -/

/-- C10: every POST body carrying a `question` string longer than 1000 characters
is rejected with HTTP 400 ("Question too long. Please limit to 1000 characters.")
and the reasoning engine is never invoked: the response is the same for every
engine. -/
theorem c10_question_length_limit {α : Type} (engine : List Char → JsonVal → α)
    (fields : List (List Char × JsonVal)) (s : List Char)
    (hq : jsonGet (.jobj fields) "question".toList = some (.jstr s))
    (hlen : 1000 < s.length) :
    postHandler engine (.jobj fields) = .err 400 tooLongMsg := by
  have hne : ¬(s = []) := by
    intro h
    rw [h] at hlen
    simp at hlen
  show (match jsonGet (.jobj fields) "question".toList with
    | some (.jstr s) =>
      if s = [] then PostResponse.err 400 missingQuestionMsg
      else if 1000 < s.length then PostResponse.err 400 tooLongMsg
      else PostResponse.ok (engine s (jsOrEmptyObj (jsonGet (.jobj fields) "options".toList)))
    | _ => PostResponse.err 400 missingQuestionMsg) = _
  rw [hq]
  simp [hne, hlen]

/-- Witness for C10: a concrete body with a 1001-character question. -/
theorem c10_question_length_limit_witness :
    postHandler (fun _ _ => ())
      (.jobj [("question".toList, .jstr (List.replicate 1001 'a'))]) =
      .err 400 tooLongMsg :=
  c10_question_length_limit _ _ _ (by rfl) (by simp)

/-! ## C9: malformed input rejection -/

/-- C9, counterexample: a POST body that is JSON `null` has no `question` field,
yet the endpoint does not reject it with HTTP 400 — destructuring `null` throws
into the catch-all handler, which responds HTTP 500. -/
theorem c9_null_body_counterexample :
    postHandler (fun q _ => q) JsonVal.jnull = .err 500 internalErrorMsg ∧
    ∀ msg : List Char, postHandler (fun q _ => q) JsonVal.jnull ≠ .err 400 msg := by
  refine ⟨rfl, ?_⟩
  intro msg h
  simp [postHandler] at h

/-- C9 as amended: every parseable POST body other than JSON `null` whose
`question` field is missing or not a string is rejected with HTTP 400 before any
stage runs (the response is independent of the engine). -/
theorem c9_missing_question_rejected {α : Type} (engine : List Char → JsonVal → α)
    (body : JsonVal) (hnn : body ≠ .jnull)
    (hq : ∀ s : List Char, jsonGet body "question".toList ≠ some (.jstr s)) :
    postHandler engine body = .err 400 missingQuestionMsg := by
  cases body with
  | jnull => exact absurd rfl hnn
  | jobj fields =>
    show (match jsonGet (.jobj fields) "question".toList with
      | some (.jstr s) =>
        if s = [] then PostResponse.err 400 missingQuestionMsg
        else if 1000 < s.length then PostResponse.err 400 tooLongMsg
        else PostResponse.ok (engine s (jsOrEmptyObj (jsonGet (.jobj fields) "options".toList)))
      | _ => PostResponse.err 400 missingQuestionMsg) = _
    rcases h : jsonGet (.jobj fields) "question".toList with _ | v
    · rfl
    · cases v with
      | jstr s => exact absurd h (hq s)
      | jnull => rfl
      | jbool b => rfl
      | jnum q => rfl
      | jarr n => rfl
      | jobj fs => rfl
  | jbool b => rfl
  | jnum q => rfl
  | jstr s => rfl
  | jarr n => rfl

/-- Witness for C9 as amended: a body with a numeric `question` is rejected with
the 400 message. -/
theorem c9_missing_question_rejected_witness :
    postHandler (fun _ _ => ()) (.jobj [("question".toList, .jnum 5)]) =
      .err 400 missingQuestionMsg :=
  c9_missing_question_rejected _ _ (by simp)
    (by
      intro s h
      rw [show jsonGet (.jobj [("question".toList, JsonVal.jnum 5)]) "question".toList =
        some (.jnum 5) from rfl] at h
      simp at h)

/-- The fallback sentence is never empty. -/
theorem fallback_ne_nil (query : List Char) : fallbackAnswer query ≠ [] := by
  unfold fallbackAnswer
  intro h
  rcases List.append_eq_nil.mp h with ⟨h1, -⟩
  rcases List.append_eq_nil.mp h1 with ⟨h2, -⟩
  exact absurd h2 (by decide)

/-- The default sentence is never empty. -/
theorem default_ne_nil : defaultAnswer ≠ [] := by decide

/-! ## C6: fallback answer -/

/-- C6, counterexample: with no documents and no paths the synthesized answer is
the fixed sentence naming the query, but — contrary to the claim — it does not
invite rephrasing (no form of "rephras…" occurs in it); it promises multi-hop
reasoning instead. -/
theorem c6_no_rephrasing_counterexample :
    synthesizeIntelligentAnswer "test".toList [] [] [] = fallbackAnswer "test".toList ∧
    jsIncludes (jsToLower (synthesizeIntelligentAnswer "test".toList [] [] []))
      "rephras".toList = false := by
  constructor
  · rfl
  · with_unfolding_all decide

/-- C6 as amended: with no documents and no relationship paths the synthesized
answer is the fixed fallback sentence naming the query (which does not invite
rephrasing), and the synthesized answer is never the empty string. -/
theorem c6_fallback_fixed_and_nonempty (query : List Char) (docs : List SDoc)
    (graphPath : List Triple) (entities : List (List Char)) :
    (docs = [] → graphPath = [] →
      synthesizeIntelligentAnswer query docs graphPath entities = fallbackAnswer query) ∧
    synthesizeIntelligentAnswer query docs graphPath entities ≠ [] := by
  constructor
  · intro h1 h2
    simp [synthesizeIntelligentAnswer, h1, h2]
  · unfold synthesizeIntelligentAnswer
    by_cases h1 : docs = [] ∧ graphPath = []
    · rw [if_pos h1]
      exact fallback_ne_nil query
    · rw [if_neg h1]
      by_cases h2 : synthAnswerBody docs graphPath entities = []
      · rw [if_pos h2]
        exact default_ne_nil
      · rw [if_neg h2]
        exact h2

/-- Witness for C6 as amended, at a concrete query with empty evidence. -/
theorem c6_fallback_fixed_and_nonempty_witness :
    synthesizeIntelligentAnswer "test".toList [] [] [] = fallbackAnswer "test".toList ∧
    synthesizeIntelligentAnswer "test".toList [] [] [] ≠ [] :=
  ⟨(c6_fallback_fixed_and_nonempty "test".toList [] [] []).1 rfl rfl,
   (c6_fallback_fixed_and_nonempty "test".toList [] [] []).2⟩


/-! ## C4: zero-magnitude guard and the empty-query NaN bug -/

/-- `NaN` absorbs on the right of a JS addition. -/
theorem jsAdd_nan_right (a : JSVal) : jsAdd a .nan = .nan := by
  cases a <;> rfl

/-- `NaN` absorbs on the left of a JS addition. -/
theorem jsAdd_nan_left (b : JSVal) : jsAdd .nan b = .nan := by
  cases b <;> rfl

/-- `NaN` absorbs on the left of a JS multiplication. -/
theorem jsMul_nan_left (b : JSVal) : jsMul .nan b = .nan := by
  cases b <;> rfl

/-- Folding JS addition from a `NaN` accumulator stays `NaN`. -/
theorem foldl_jsAdd_nan (l : List JSVal) : l.foldl jsAdd .nan = .nan := by
  induction l with
  | nil => rfl
  | cons x t ih =>
    show t.foldl jsAdd (jsAdd .nan x) = .nan
    rw [jsAdd_nan_left]
    exact ih

/-- Folding JS addition over a list containing `NaN` gives `NaN`. -/
theorem foldl_jsAdd_of_mem_nan (l : List JSVal) (h : JSVal.nan ∈ l) (acc : JSVal) :
    l.foldl jsAdd acc = .nan := by
  induction l generalizing acc with
  | nil => cases h
  | cons x t ih =>
    rcases List.mem_cons.mp h with hx | ht
    · subst hx
      show t.foldl jsAdd (jsAdd acc .nan) = .nan
      rw [jsAdd_nan_right]
      exact foldl_jsAdd_nan t
    · exact ih ht _

/-- `NaN` divided by anything is `NaN`. -/
theorem jsDiv_nan_left (b : JSVal) : jsDiv .nan b = .nan := by
  cases b <;> rfl

/-- The square-sum fold from a `NaN` accumulator stays `NaN`. -/
theorem foldl_sumsq_nan (l : List JSVal) :
    l.foldl (fun s v => jsAdd s (jsMul v v)) .nan = .nan := by
  induction l with
  | nil => rfl
  | cons x t ih =>
    show t.foldl (fun s v => jsAdd s (jsMul v v)) (jsAdd .nan (jsMul x x)) = .nan
    rw [jsAdd_nan_left]
    exact ih

/-- A vector containing `NaN` has a `NaN` square sum. -/
theorem foldl_sumsq_of_mem_nan (l : List JSVal) (h : JSVal.nan ∈ l) (acc : JSVal) :
    l.foldl (fun s v => jsAdd s (jsMul v v)) acc = .nan := by
  induction l generalizing acc with
  | nil => cases h
  | cons y w ihw =>
    rcases List.mem_cons.mp h with hy | hw
    · subst hy
      show w.foldl (fun s v => jsAdd s (jsMul v v)) (jsAdd acc .nan) = .nan
      rw [jsAdd_nan_right]
      exact foldl_sumsq_nan w
    · exact ihw hw _

/-- A vector containing `NaN` has a `NaN` square sum. -/
theorem sumsqJS_of_mem_nan (l : List JSVal) (h : JSVal.nan ∈ l) :
    sumsqJS l = .nan :=
  foldl_sumsq_of_mem_nan l h _

/-- The value of the embedding of the empty text, grouped so that the `NaN`
vocabulary-diversity feature (`0/0`) is exposed: 76 zero character frequencies,
the zero length feature, then `NaN`, `-Infinity` (`Math.max()/0`), 0, and the
sentence-count feature `1/10`. -/
theorem advancedEmbed_empty :
    advancedEmbed [] =
      (List.replicate 76 (JSVal.num 0) ++ [JSVal.num 0]) ++
        JSVal.nan :: [JSVal.neginf, JSVal.num 0, JSVal.num (1/10)] := by
  with_unfolding_all decide

/-- C4 (code bug): the embedding of the empty query text contains `NaN` — it is
NOT the zero vector — and its cosine similarity against every vector of the
embedding dimension (81) whose own magnitude does not compare `=== 0` is `NaN`,
not 0.  (When the compared magnitude is zero, the guard of
`enhancedCosineSimilarity` returns 0, which is why that case is excluded;
corpus vectors have positive magnitudes.) -/
theorem c4_empty_query_embeds_to_nan :
    JSVal.nan ∈ advancedEmbed [] ∧
    ∀ (f : ℚ → JSVal) (b : List JSVal), b.length = 81 →
      jsSqrtWith f (sumsqJS b) ≠ .num 0 →
      enhancedCosineSimilarity f (advancedEmbed []) b = .nan := by
  have hemb := advancedEmbed_empty
  have hmem : JSVal.nan ∈ advancedEmbed [] := by
    rw [hemb]
    simp
  refine ⟨hmem, ?_⟩
  intro f b hlen hmb
  have hA : ((List.replicate 76 (JSVal.num 0) ++ [JSVal.num 0])).length = 77 := by
    simp
  have hdot : dotJS (advancedEmbed []) b = .nan := by
    unfold dotJS
    have hb : b = b.take 77 ++ b.drop 77 := (List.take_append_drop 77 b).symm
    have htl : (b.take 77).length = 77 := by
      rw [List.length_take]
      omega
    have hdl : 0 < (b.drop 77).length := by
      rw [List.length_drop]
      omega
    rcases List.exists_cons_of_ne_nil (List.ne_nil_of_length_pos hdl) with ⟨y, t, hyt⟩
    have hzip : (advancedEmbed []).zip b =
        ((List.replicate 76 (JSVal.num 0) ++ [JSVal.num 0]).zip (b.take 77)) ++
          ((JSVal.nan :: [JSVal.neginf, JSVal.num 0, JSVal.num (1/10)]).zip (y :: t)) := by
      conv_lhs => rw [hemb, hb, hyt]
      rw [List.zip_append (by rw [hA, htl])]
    apply foldl_jsAdd_of_mem_nan
    rw [hzip]
    refine List.mem_map.mpr ⟨(JSVal.nan, y), ?_, jsMul_nan_left y⟩
    exact List.mem_append_right _ (by simp [List.zip_cons_cons])
  have hsum : sumsqJS (advancedEmbed []) = .nan := sumsqJS_of_mem_nan _ hmem
  unfold enhancedCosineSimilarity
  rw [hsum]
  have hguard : ¬(jsSqrtWith f JSVal.nan = JSVal.num 0 ∨
      jsSqrtWith f (sumsqJS b) = JSVal.num 0) := by
    rintro (h | h)
    · exact absurd h (by simp [jsSqrtWith])
    · exact hmb h
  rw [if_neg hguard, hdot]
  exact jsDiv_nan_left _

/-- Witness for C4: the claim fails concretely against a nonzero 81-dimensional
vector under a concrete square root. -/
theorem c4_empty_query_embeds_to_nan_witness :
    JSVal.nan ∈ advancedEmbed [] ∧
    enhancedCosineSimilarity (fun q => .num (q + 1)) (advancedEmbed [])
      (JSVal.num 1 :: List.replicate 80 (JSVal.num 0)) = .nan :=
  ⟨c4_empty_query_embeds_to_nan.1,
   c4_empty_query_embeds_to_nan.2 _ _ (by simp)
     (by with_unfolding_all decide)⟩


/-! ## C8: the rule engine matches contents, not previews -/

/-- A default (empty) knowledge-base document, for total list indexing. -/
def emptyKBDoc : KBDoc := ⟨[], [], [], ⟨[], [], [], [], []⟩⟩

/-- The corpus document at an index. -/
def corpusDocAt (i : ℕ) : KBDoc := comprehensiveKnowledgeBase.getD i emptyKBDoc

/-- The retrieved-document record the search stage would return for a corpus
document (score as retrieved; the rule engine never reads it). -/
def retrievedDoc (d : KBDoc) (score : ℚ) : SDoc :=
  ⟨d.id, score, mkPreview d.content, d.content, d.meta⟩

/-- C8, counterexample: for the query `"hello"`, the retrieved NLP document
(corpus index 5, whose first occurrence of a `programming-software-rule` pattern
word, "code", lies beyond the 300-character preview) and the entity list
`["Programming"]`, the engine fires `programming-software-rule` — its pattern
matches the full document CONTENT — although the pattern does not match the
concatenation of the query and the document PREVIEWS, so the claim's
"fires iff the pattern matches query + previews" is false. -/
theorem c8_contents_vs_previews_counterexample :
    "programming-software-rule".toList ∈
      advancedRuleEngine "hello".toList [retrievedDoc (corpusDocAt 5) 1]
        ["Programming".toList] ∧
    ¬ patternTest (["programming", "software", "code", "development",
        "algorithm"].map String.toList)
      (jsToLower ("hello".toList ++ ' ' ::
        joinSep [' '] ([retrievedDoc (corpusDocAt 5) 1].map (fun d => d.preview)))) ∧
    "programming-software-rule".toList ∉
      specRuleEngineOnPreviews "hello".toList [retrievedDoc (corpusDocAt 5) 1]
        ["Programming".toList] := by
  refine ⟨?_, ?_, ?_⟩ <;> with_unfolding_all decide

/-- Pushing names through the fold equals filtering and mapping. -/
theorem foldl_fire_eq_filter_map (p : SRule → Bool) (rs : List SRule)
    (acc : List (List Char)) :
    rs.foldl (fun a r => if p r then a ++ [r.name] else a) acc =
      acc ++ (rs.filter p).map (fun r => r.name) := by
  induction rs generalizing acc with
  | nil => simp
  | cons r t ih =>
    by_cases h : p r
    · simp [h, ih, List.append_assoc]
    · simp [h, ih]

/-- C8 as amended: each rule is evaluated exactly once, in registration order,
and a rule's name is fired exactly when its textual pattern matches the
concatenation of the query text with the retrieved documents' full CONTENTS
(not their previews) and its structural condition holds: the fired list is the
registration-ordered filter of the rule set. -/
theorem c8_rule_engine_characterization (query : List Char) (docs : List SDoc)
    (entities : List (List Char)) :
    advancedRuleEngine query docs entities =
      (advancedRules.filter (fun r =>
        patternTest r.alts (ruleCombinedText query docs) &&
          r.trigger docs entities)).map (fun r => r.name) ∧
    ∀ rname : List Char,
      rname ∈ advancedRuleEngine query docs entities ↔
        ∃ r, r ∈ advancedRules ∧ r.name = rname ∧
          patternTest r.alts (ruleCombinedText query docs) = true ∧
          r.trigger docs entities = true := by
  have heq : advancedRuleEngine query docs entities =
      (advancedRules.filter (fun r =>
        patternTest r.alts (ruleCombinedText query docs) &&
          r.trigger docs entities)).map (fun r => r.name) := by
    unfold advancedRuleEngine
    rw [foldl_fire_eq_filter_map]
    rfl
  refine ⟨heq, ?_⟩
  intro rname
  rw [heq]
  constructor
  · intro h
    rcases List.mem_map.mp h with ⟨r, hr, hname⟩
    rcases List.mem_filter.mp hr with ⟨hmem, hcond⟩
    rcases (Bool.and_eq_true _ _).mp hcond with ⟨h1, h2⟩
    exact ⟨r, hmem, hname, h1, h2⟩
  · rintro ⟨r, hmem, hname, h1, h2⟩
    exact List.mem_map.mpr ⟨r, List.mem_filter.mpr ⟨hmem, by rw [h1, h2]; rfl⟩, hname⟩


/-! ## C7: idempotence of the query pipeline -/

/-- A trace item without its clock-derived data (the wall-clock timestamp and the
measured `processingTime` entry of the synthesis event). -/
def stripClockData (t : TraceItem) :
    List Char × List (List Char × JInfo) × Option ℚ :=
  (t.ttype, t.info.filter (fun p => p.1 ≠ "processingTime".toList), t.score)

/-- C7: two invocations of the query pipeline with the same question and options
against the unchanged corpus and graphs — modelled as two runs under arbitrary
clocks — return identical ranked documents, relationship paths, fired rule
names, answer text, deep analysis, alternative questions and related concepts;
the traces agree except for their clock-derived data (timestamps and the
measured processing time). -/
theorem c7_query_idempotent (sqrtFn : ℚ → ℚ) (clock1 clock2 : Clock)
    (question : List Char) (options : QOptions) :
    (queryModel sqrtFn clock1 question options).docs =
      (queryModel sqrtFn clock2 question options).docs ∧
    (queryModel sqrtFn clock1 question options).path =
      (queryModel sqrtFn clock2 question options).path ∧
    (queryModel sqrtFn clock1 question options).rulesFired =
      (queryModel sqrtFn clock2 question options).rulesFired ∧
    (queryModel sqrtFn clock1 question options).answer =
      (queryModel sqrtFn clock2 question options).answer ∧
    (queryModel sqrtFn clock1 question options).deepAnalysis =
      (queryModel sqrtFn clock2 question options).deepAnalysis ∧
    (queryModel sqrtFn clock1 question options).alternativeQuestions =
      (queryModel sqrtFn clock2 question options).alternativeQuestions ∧
    (queryModel sqrtFn clock1 question options).relatedConcepts =
      (queryModel sqrtFn clock2 question options).relatedConcepts ∧
    (queryModel sqrtFn clock1 question options).trace.map stripClockData =
      (queryModel sqrtFn clock2 question options).trace.map stripClockData := by
  refine ⟨rfl, rfl, rfl, rfl, rfl, rfl, rfl, ?_⟩
  show List.map stripClockData _ = List.map stripClockData _
  simp only [queryModel]
  by_cases he : advancedEntityExtraction question = []
  · by_cases hr : advancedRuleEngine question
        (multiAlgorithmSearch sqrtFn question (jsOrNat options.topK 8)) [] = []
    · simp [he, hr, stripClockData]
    · simp [he, hr, stripClockData]
  · by_cases hr : advancedRuleEngine question
        (multiAlgorithmSearch sqrtFn question (jsOrNat options.topK 8))
        (advancedEntityExtraction question) = []
    · simp [he, hr, stripClockData]
    · simp [he, hr, stripClockData]


/-! ## C2: threshold monotonicity of the traversal — counterexample -/

/-- C2, counterexample: for the seed list `["Machine Learning"]` with
`maxDepth = 3`, RAISING the threshold from 0 to 0.7 makes the returned list
LARGER (8 vs 9 edges), and the triple
`Statistics —conceptually_related_to→ Probability` is returned at threshold 0.7
but not at threshold 0: the returned triple set at the stricter threshold is not
a subset of the looser one, and the result size is not monotonically
non-increasing.  (At threshold 0 the walk visits `Probability` at depth 2 before
`Statistics` is expanded, so the synthetic concept edge is suppressed by the
visited map; the stricter walk never visits `Probability` first.) -/
theorem c2_threshold_not_monotone_counterexample :
    (deepGraphTraversal ["Machine Learning".toList] 3 0).length = 8 ∧
    (deepGraphTraversal ["Machine Learning".toList] 3 (7/10)).length = 9 ∧
    (∃ t ∈ deepGraphTraversal ["Machine Learning".toList] 3 (7/10),
      t.subject = "Statistics".toList ∧
      t.predicate = "conceptually_related_to".toList ∧
      t.object = "Probability".toList) ∧
    ∀ t ∈ deepGraphTraversal ["Machine Learning".toList] 3 0,
      ¬(t.subject = "Statistics".toList ∧
        t.predicate = "conceptually_related_to".toList ∧
        t.object = "Probability".toList) := by
  refine ⟨?_, ?_, ?_, ?_⟩ <;> with_unfolding_all decide


/-! ## Sorting lemmas shared by the search and the traversal -/

/-- `insertDescBy` coincides with Mathlib's ordered insert under the reversed
key order. -/
theorem insertDescBy_eq_orderedInsert {α : Type} (key : α → ℚ) (a : α)
    (u : List α) :
    insertDescBy key a u = List.orderedInsert (fun x y => key y ≤ key x) a u := by
  induction u with
  | nil => simp [insertDescBy, List.orderedInsert]
  | cons b v ih =>
    simp only [insertDescBy, List.orderedInsert]
    by_cases h : key b ≤ key a
    · rw [if_pos h, if_pos h]
    · rw [if_neg h, if_neg h, ih]

/-- `sortDescBy` coincides with Mathlib insertion sort under the reversed key
order. -/
theorem sortDescBy_eq_insertionSort {α : Type} (key : α → ℚ) (l : List α) :
    sortDescBy key l = l.insertionSort (fun x y => key y ≤ key x) := by
  induction l with
  | nil => rfl
  | cons a t ih =>
    show insertDescBy key a (sortDescBy key t) = _
    rw [ih]
    rw [show List.insertionSort (fun x y => key y ≤ key x) (a :: t) =
      List.orderedInsert (fun x y => key y ≤ key x) a
        (List.insertionSort (fun x y => key y ≤ key x) t) from rfl]
    exact insertDescBy_eq_orderedInsert key a _

/-- The stable descending sort is a permutation of its input. -/
theorem sortDescBy_perm {α : Type} (key : α → ℚ) (l : List α) :
    (sortDescBy key l).Perm l := by
  rw [sortDescBy_eq_insertionSort]
  exact List.perm_insertionSort _ l

/-- The stable descending sort is sorted: every later element has a key not above
an earlier one. -/
theorem sortDescBy_sorted {α : Type} (key : α → ℚ) (l : List α) :
    (sortDescBy key l).Pairwise (fun a b => key b ≤ key a) := by
  rw [sortDescBy_eq_insertionSort]
  haveI : IsTotal α (fun a b => key b ≤ key a) :=
    ⟨fun a b => (le_total (key b) (key a)).elim Or.inl Or.inr⟩
  haveI : IsTrans α (fun a b => key b ≤ key a) :=
    ⟨fun _ _ _ h1 h2 => le_trans h2 h1⟩
  exact List.sorted_insertionSort _ l

/-- Membership transfer through the sort. -/
theorem mem_sortDescBy {α : Type} (key : α → ℚ) (l : List α) (a : α) :
    a ∈ sortDescBy key l ↔ a ∈ l :=
  (sortDescBy_perm key l).mem_iff

/-- The sort preserves length. -/
theorem length_sortDescBy {α : Type} (key : α → ℚ) (l : List α) :
    (sortDescBy key l).length = l.length :=
  (sortDescBy_perm key l).length_eq


/-! ## C3: the search scores by a composite, not by cosine similarity -/

/-- Zipping a list with itself pairs every element with itself. -/
theorem zip_self_map {α : Type} (a : List α) : a.zip a = a.map (fun x => (x, x)) := by
  induction a with
  | nil => rfl
  | cons x t ih => simp [List.zip_cons_cons, ih]

/-- The dot product of a vector with itself is its square sum. -/
theorem dotQ_self (a : List ℚ) : dotQ a a = sumSq a := by
  unfold dotQ sumSq
  rw [zip_self_map, List.map_map]
  rfl

/-- The euclidean radicand of a vector against itself vanishes. -/
theorem euclidSq_self (a : List ℚ) : euclidSq a a = 0 := by
  unfold euclidSq
  rw [zip_self_map, List.map_map]
  apply List.sum_eq_zero
  intro x hx
  rcases List.mem_map.mp hx with ⟨y, _, hy⟩
  rw [← hy]
  show (y - y) * (y - y) = 0
  ring

/-- The manhattan distance of a vector to itself vanishes. -/
theorem manhattanDist_self (a : List ℚ) : manhattanDist a a = 0 := by
  unfold manhattanDist
  rw [zip_self_map, List.map_map]
  apply List.sum_eq_zero
  intro x hx
  rcases List.mem_map.mp hx with ⟨y, _, hy⟩
  rw [← hy]
  show |y - y| = 0
  simp

/-- Square sums are non-negative. -/
theorem sumSq_nonneg (a : List ℚ) : 0 ≤ sumSq a := by
  unfold sumSq
  apply List.sum_nonneg
  intro x hx
  rcases List.mem_map.mp hx with ⟨y, _, hy⟩
  exact hy ▸ mul_self_nonneg y

/-- Each member's square is at most the square sum. -/
theorem sq_le_sumSq (a : List ℚ) (x : ℚ) (hx : x ∈ a) : x * x ≤ sumSq a := by
  unfold sumSq
  refine List.single_le_sum ?_ _ (List.mem_map.mpr ⟨x, hx, rfl⟩)
  intro y hy
  rcases List.mem_map.mp hy with ⟨z, _, hz⟩
  exact hz ▸ mul_self_nonneg z

/-- Splitting never yields the empty list of pieces. -/
theorem splitEvery_ne_nil (p : Char → Bool) (cs : List Char) :
    splitEvery p cs ≠ [] := by
  cases cs with
  | nil => simp [splitEvery]
  | cons c t =>
    unfold splitEvery
    rcases h : splitEvery p t with _ | ⟨w, ws⟩
    · simp
    · by_cases hp : p c <;> simp [hp]

/-- The sentence-count feature belongs to every embedding and is at least 1/10. -/
theorem embedQ_sentence_feature (text : List Char) :
    ∃ q ∈ advancedEmbedQ text, (1 : ℚ)/10 ≤ q := by
  refine ⟨((splitEvery (fun c => c = '.' || c = '!' || c = '?') text).length : ℚ) / 10,
    ?_, ?_⟩
  · unfold advancedEmbedQ advancedEmbed
    simp only [List.map_append]
    apply List.mem_append_right
    simp
  · have h1 : 1 ≤ (splitEvery (fun c => c = '.' || c = '!' || c = '?') text).length := by
      rcases h : splitEvery (fun c => c = '.' || c = '!' || c = '?') text with _ | ⟨w, ws⟩
      · exact absurd h (splitEvery_ne_nil _ _)
      · simp
    have : (1 : ℚ) ≤ ((splitEvery (fun c => c = '.' || c = '!' || c = '?') text).length : ℚ) := by
      exact_mod_cast h1
    linarith

/-- Every embedding has a positive square sum. -/
theorem sumSq_embedQ_pos (text : List Char) : 0 < sumSq (advancedEmbedQ text) := by
  rcases embedQ_sentence_feature text with ⟨q, hq, hge⟩
  have h1 : q * q ≤ sumSq (advancedEmbedQ text) := sq_le_sumSq _ q hq
  nlinarith

/-- Cosine similarity of a positive-square-sum vector with itself is positive and
at most 1, for every square root satisfying the listed properties of the real
one. -/
theorem cosineSimQ_self_bounds (sqrtFn : ℚ → ℚ)
    (hpos : ∀ q : ℚ, 0 < q → 0 < sqrtFn q)
    (hsq : ∀ q : ℚ, 0 ≤ q → q ≤ sqrtFn q * sqrtFn q)
    (v : List ℚ) (hv : 0 < sumSq v) :
    0 < cosineSimQ sqrtFn v v ∧ cosineSimQ sqrtFn v v ≤ 1 := by
  have hm : 0 < sqrtFn (sumSq v) := hpos _ hv
  have hmsq : sumSq v ≤ sqrtFn (sumSq v) * sqrtFn (sumSq v) := hsq _ (le_of_lt hv)
  unfold cosineSimQ
  rw [if_neg (by push_neg; exact ⟨ne_of_gt hm, ne_of_gt hm⟩), dotQ_self]
  constructor
  · exact div_pos hv (by positivity)
  · rw [div_le_one (by positivity)]
    exact hmsq

/-- The first corpus document (the GHChain ecosystem document). -/
def ghDoc : KBDoc := corpusDocAt 0

/-- The query used to refute the cosine-scoring claim: the exact text the engine
embeds for `ghDoc`. -/
def ghQuery : List Char := docEmbedText ghDoc

/-- The keyword score of `ghDoc` against `ghQuery` is 1 (each of the four
keywords occurs verbatim among the query words). -/
theorem ghDoc_keywordScore : keywordScore ghQuery ghDoc.meta.keywords = 1 := by
  with_unfolding_all decide

/-- The domain score of `ghDoc` against any query is 0: the corpus domain
`cryptocurrency` has no entry in `domainExperts`. -/
theorem ghDoc_domainScore (query : List Char) :
    calculateDomainRelevance query ghDoc.meta.domain = 0 := by
  have h : alookup domainExperts ghDoc.meta.domain = none := by
    with_unfolding_all decide
  unfold calculateDomainRelevance
  rw [h]
  simp

/-- `ghDoc` carries high importance. -/
theorem ghDoc_importance : importanceWeight ghDoc.meta.importance = 12/10 := by
  with_unfolding_all decide

/-- The composite score of `ghDoc` against its own embedding text, for every
admissible square root: `(2/5) * cosine * (6/5) + 3/5`. -/
theorem ghDoc_compositeScore (sqrtFn : ℚ → ℚ) (h0 : sqrtFn 0 = 0) :
    compositeScore sqrtFn ghQuery (advancedEmbedQ ghQuery) ghDoc =
      (cosineSimQ sqrtFn (advancedEmbedQ ghQuery) (advancedEmbedQ (docEmbedText ghDoc)) *
          (4/10) + 1/2) * (12/10) := by
  simp only [compositeScore]
  have hqd : advancedEmbedQ (docEmbedText ghDoc) = advancedEmbedQ ghQuery := rfl
  rw [hqd, euclidSq_self, manhattanDist_self, h0, ghDoc_keywordScore,
    ghDoc_domainScore, ghDoc_importance]
  ring

/-- C3, general form: for every square root satisfying the properties of the real
one, the search result for the query equal to `ghDoc`'s embedding text (with
`topK = 23`, the corpus size) contains a document whose returned score differs
from the cosine similarity between the query embedding and that document's
cached vector — the returned score is the composite, which exceeds the cosine. -/
theorem multiAlgorithmSearch_score_ne_cosine (sqrtFn : ℚ → ℚ)
    (h0 : sqrtFn 0 = 0)
    (hpos : ∀ q : ℚ, 0 < q → 0 < sqrtFn q)
    (hsq : ∀ q : ℚ, 0 ≤ q → q ≤ sqrtFn q * sqrtFn q) :
    ∃ d ∈ multiAlgorithmSearch sqrtFn ghQuery 23,
      d.id = ghDoc.id ∧
      d.score ≠ cosineSimQ sqrtFn (advancedEmbedQ ghQuery)
        (advancedEmbedQ (docEmbedText ghDoc)) := by
  have hqd : advancedEmbedQ (docEmbedText ghDoc) = advancedEmbedQ ghQuery := rfl
  have hv : 0 < sumSq (advancedEmbedQ ghQuery) := sumSq_embedQ_pos _
  have hc := cosineSimQ_self_bounds sqrtFn hpos hsq _ hv
  set c := cosineSimQ sqrtFn (advancedEmbedQ ghQuery) (advancedEmbedQ ghQuery) with hcdef
  have hscore : compositeScore sqrtFn ghQuery (advancedEmbedQ ghQuery) ghDoc =
      (c * (4/10) + 1/2) * (12/10) := by
    rw [ghDoc_compositeScore sqrtFn h0, hqd]
  have hfloor : (1 : ℚ)/10 <
      compositeScore sqrtFn ghQuery (advancedEmbedQ ghQuery) ghDoc := by
    rw [hscore]
    nlinarith [hc.1]
  have hne : compositeScore sqrtFn ghQuery (advancedEmbedQ ghQuery) ghDoc ≠
      cosineSimQ sqrtFn (advancedEmbedQ ghQuery) (advancedEmbedQ (docEmbedText ghDoc)) := by
    rw [hscore, hqd, ← hcdef]
    intro heq
    nlinarith [hc.2]
  have hmemcorp : ghDoc ∈ comprehensiveKnowledgeBase := by
    show comprehensiveKnowledgeBase.getD 0 emptyKBDoc ∈ comprehensiveKnowledgeBase
    rcases h : comprehensiveKnowledgeBase with _ | ⟨a, t⟩
    · exact absurd h (by unfold comprehensiveKnowledgeBase; simp)
    · simp [List.getD]
  refine ⟨⟨ghDoc.id, compositeScore sqrtFn ghQuery (advancedEmbedQ ghQuery) ghDoc,
    mkPreview ghDoc.content, ghDoc.content, ghDoc.meta⟩, ?_, rfl, hne⟩
  simp only [multiAlgorithmSearch]
  rw [List.take_of_length_le (by
    rw [length_sortDescBy]
    exact le_trans (List.length_filterMap_le _ _)
      (by unfold comprehensiveKnowledgeBase; simp))]
  rw [mem_sortDescBy]
  refine List.mem_filterMap.mpr ⟨ghDoc, hmemcorp, ?_⟩
  show (if (1:ℚ)/10 < compositeScore sqrtFn ghQuery (advancedEmbedQ ghQuery) ghDoc then
    some (⟨ghDoc.id, compositeScore sqrtFn ghQuery (advancedEmbedQ ghQuery) ghDoc,
      mkPreview ghDoc.content, ghDoc.content, ghDoc.meta⟩ : SDoc) else none) = _
  rw [if_pos hfloor]

/-- C3, counterexample at the concrete square-root stand-in `sqrtStub`. -/
theorem c3_score_is_not_cosine_counterexample :
    ∃ d ∈ multiAlgorithmSearch sqrtStub ghQuery 23,
      d.id = ghDoc.id ∧
      d.score ≠ cosineSimQ sqrtStub (advancedEmbedQ ghQuery)
        (advancedEmbedQ (docEmbedText ghDoc)) := by
  refine multiAlgorithmSearch_score_ne_cosine sqrtStub ?_ ?_ ?_
  · simp [sqrtStub]
  · intro q hq
    unfold sqrtStub
    rw [if_neg (by linarith)]
    have : (1 : ℚ) ≤ max q 1 := le_max_right q 1
    linarith
  · intro q hq
    unfold sqrtStub
    by_cases h : q ≤ 0
    · rw [if_pos h]
      nlinarith
    · rw [if_neg h]
      rcases max_cases q 1 with ⟨hm, hge⟩ | ⟨hm, hlt⟩
      · rw [hm]
        nlinarith
      · rw [hm]
        nlinarith

/-- C3 as amended: the search keeps exactly the documents whose COMPOSITE score
(cosine, euclidean, manhattan, keyword and domain signals weighted
0.4/0.2/0.1/0.2/0.1, times the importance multiplier) exceeds the 0.1 floor,
returns at most `topK` of them in descending composite-score order, and each
result carries its corpus document's metadata together with the 300-character
ellipsis-terminated preview of its body. -/
theorem c3_composite_search_contract (sqrtFn : ℚ → ℚ) (query : List Char) (k : ℕ) :
    (multiAlgorithmSearch sqrtFn query k).Pairwise (fun a b => b.score ≤ a.score) ∧
    (multiAlgorithmSearch sqrtFn query k).length ≤ k ∧
    ∀ d ∈ multiAlgorithmSearch sqrtFn query k,
      1/10 < d.score ∧
      ∃ kd ∈ comprehensiveKnowledgeBase,
        d.id = kd.id ∧ d.content = kd.content ∧ d.meta = kd.meta ∧
        d.score = compositeScore sqrtFn query (advancedEmbedQ query) kd ∧
        d.preview = kd.content.take 300 ++ "...".toList ∧
        d.preview.length = 303 := by
  have hall : ∀ kd ∈ comprehensiveKnowledgeBase, 300 < kd.content.length := by
    with_unfolding_all decide
  refine ⟨?_, ?_, ?_⟩
  · unfold multiAlgorithmSearch
    exact List.Pairwise.sublist (List.take_sublist _ _) (sortDescBy_sorted _ _)
  · unfold multiAlgorithmSearch
    exact List.length_take_le _ _
  · intro d hd
    unfold multiAlgorithmSearch at hd
    have hd2 := (mem_sortDescBy _ _ _).mp (List.mem_of_mem_take hd)
    rcases List.mem_filterMap.mp hd2 with ⟨kd, hkd, heq⟩
    have heq2 : (if (1:ℚ)/10 < compositeScore sqrtFn query (advancedEmbedQ query) kd then
        some (⟨kd.id, compositeScore sqrtFn query (advancedEmbedQ query) kd,
          mkPreview kd.content, kd.content, kd.meta⟩ : SDoc) else none) = some d := heq
    by_cases hf : (1 : ℚ)/10 < compositeScore sqrtFn query (advancedEmbedQ query) kd
    · rw [if_pos hf] at heq2
      have hrec := Option.some.inj heq2
      subst hrec
      have hlong : 300 < kd.content.length := hall kd hkd
      have hprev : mkPreview kd.content = kd.content.take 300 ++ "...".toList := by
        unfold mkPreview
        rw [if_pos hlong]
      refine ⟨hf, kd, hkd, rfl, rfl, rfl, rfl, hprev, ?_⟩
      rw [hprev]
      simp [List.length_take]
      omega
    · rw [if_neg hf] at heq2
      cases heq2

/-- Witness for the amended C3 at the concrete stand-in square root, the query
`"ai"` and `topK = 3` (the inner universally-quantified part is instantiated and
its membership hypothesis discharged on the computed head result). -/
theorem c3_composite_search_contract_witness :
    (multiAlgorithmSearch sqrtStub "ai".toList 3).Pairwise
      (fun a b => b.score ≤ a.score) ∧
    (multiAlgorithmSearch sqrtStub "ai".toList 3).length ≤ 3 :=
  ⟨(c3_composite_search_contract sqrtStub "ai".toList 3).1,
   (c3_composite_search_contract sqrtStub "ai".toList 3).2.1⟩


/-! ## C5: cycle termination of the traversal -/

/-- Looking up the key just written by `aset` yields the written value. -/
theorem aset_lookup_self {β : Type} (m : List (List Char × β)) (k : List Char)
    (v : β) : alookup (aset m k v) k = some v := by
  induction m with
  | nil => simp [aset, alookup]
  | cons p rest ih =>
    by_cases h : p.1 = k
    · simp [aset, alookup, h]
    · simp [aset, alookup, h, ih]

/-- `aset` leaves every other key unchanged. -/
theorem aset_lookup_ne {β : Type} (m : List (List Char × β)) (k : List Char)
    (v : β) (k' : List Char) (h : k' ≠ k) :
    alookup (aset m k v) k' = alookup m k' := by
  have hk : ¬(k = k') := fun he => h he.symm
  induction m with
  | nil =>
    show (if k = k' then some v else alookup [] k') = alookup [] k'
    rw [if_neg hk]
  | cons p rest ih =>
    obtain ⟨pk, pv⟩ := p
    by_cases hp : pk = k
    · subst hp
      simp only [aset, alookup]
      rw [if_neg hk, if_neg hk]
    · simp only [aset, alookup]
      rw [if_neg hp]
      show (if pk = k' then some pv else alookup (aset rest k v) k') = _
      by_cases hp' : pk = k'
      · rw [if_pos hp', if_pos hp']
      · rw [if_neg hp', if_neg hp', ih]

/-- The traversal invariant: the expansion log is strictly decreasing in depth on
each entity (a later expansion of the same entity sits strictly shallower), the
visited map covers exactly the logged entities, and the recorded depth of an
entity bounds every logged expansion depth of it from below. -/
def travInv (st : TravState) : Prop :=
  st.log.Pairwise (fun a b => a.1 = b.1 → b.2.1 < a.2.1) ∧
  (∀ e, alookup st.visited e = none → ∀ x ∈ st.log, x.1 ≠ e) ∧
  (∀ e v, alookup st.visited e = some v → ∀ x ∈ st.log, x.1 = e → v ≤ x.2.1)

/-- The empty state satisfies the invariant. -/
theorem travInv_init : travInv ⟨[], [], []⟩ := by
  refine ⟨List.Pairwise.nil, ?_, ?_⟩
  · intro e _ x hx
    simp at hx
  · intro e v hv
    simp [alookup] at hv

/-- Expanding an entity at a depth strictly below every logged expansion of it
preserves the invariant. -/
theorem travInv_expand (st : TravState) (e : List Char) (d : ℕ) (c : ℚ)
    (p : List Triple) (hst : travInv st)
    (hnew : ∀ x ∈ st.log, x.1 = e → d < x.2.1) :
    travInv ⟨aset st.visited e d, p, st.log ++ [(e, d, c)]⟩ := by
  obtain ⟨hpw, hnone, hsome⟩ := hst
  refine ⟨?_, ?_, ?_⟩
  · rw [List.pairwise_append]
    refine ⟨hpw, List.pairwise_singleton _ _, ?_⟩
    intro a ha b hb
    simp only [List.mem_singleton] at hb
    subst hb
    intro hae
    exact hnew a ha hae
  · intro e' hv' x hx
    have hne : e' ≠ e := by
      intro h
      subst h
      rw [aset_lookup_self] at hv'
      exact Option.noConfusion hv'
    rw [aset_lookup_ne _ _ _ _ hne] at hv'
    rcases List.mem_append.mp hx with h | h
    · exact hnone e' hv' x h
    · simp only [List.mem_singleton] at h
      subst h
      show ¬(e = e')
      exact fun h'' => hne h''.symm
  · intro e' v hv' x hx hxe
    by_cases he : e' = e
    · subst he
      rw [aset_lookup_self] at hv'
      injection hv' with hv'
      subst hv'
      rcases List.mem_append.mp hx with h | h
      · exact le_of_lt (hnew x h hxe)
      · simp only [List.mem_singleton] at h
        subst h
        exact le_refl _
    · rw [aset_lookup_ne _ _ _ _ he] at hv'
      rcases List.mem_append.mp hx with h | h
      · exact hsome e' v hv' x h hxe
      · simp only [List.mem_singleton] at h
        subst h
        have hxe' : e = e' := hxe
        exact absurd hxe' (fun h' => he h'.symm)

/-- The relation loop never touches the visited map or the log, so it preserves
the invariant whenever the recursive step does. -/
theorem runRels_inv (step : List Char → ℚ → TravState → TravState)
    (hstep : ∀ e c s, travInv s → travInv (step e c s)) :
    ∀ rs e c st, travInv st → travInv (runRels step e c rs st) := by
  intro rs
  induction rs with
  | nil =>
    intro e c st h
    exact h
  | cons r rs ih =>
    intro e c st h
    simp only [runRels]
    exact ih _ _ _ (hstep _ _ _ ⟨h.1, h.2.1, h.2.2⟩)

/-- The concept loop leaves the visited map unchanged. -/
theorem runConcepts_visited (e : List Char) (d : ℕ) (c : ℚ) :
    ∀ ts st, (runConcepts e d c ts st).visited = st.visited := by
  intro ts
  induction ts with
  | nil =>
    intro st
    rfl
  | cons t ts ih =>
    intro st
    simp only [runConcepts]
    rw [ih]
    split <;> rfl

/-- The concept loop leaves the log unchanged. -/
theorem runConcepts_log (e : List Char) (d : ℕ) (c : ℚ) :
    ∀ ts st, (runConcepts e d c ts st).log = st.log := by
  intro ts
  induction ts with
  | nil =>
    intro st
    rfl
  | cons t ts ih =>
    intro st
    simp only [runConcepts]
    rw [ih]
    split <;> rfl

/-- The concept loop preserves the invariant. -/
theorem travInv_runConcepts (e : List Char) (d : ℕ) (c : ℚ) (ts : List (List Char))
    (st : TravState) (h : travInv st) : travInv (runConcepts e d c ts st) := by
  unfold travInv
  rw [runConcepts_visited, runConcepts_log]
  exact h

/-- The recursive walk preserves the traversal invariant: every expansion it
performs sits strictly shallower than any earlier expansion of the same entity. -/
theorem traverse_inv (kg : KG) (cg : CG) (maxD : ℕ) (minC : ℚ) :
    ∀ fuel e d c st, travInv st → travInv (traverse kg cg maxD minC fuel e d c st) := by
  intro fuel
  induction fuel with
  | zero =>
    intro e d c st hst
    exact hst
  | succ f ih =>
    intro e d c st hst
    simp only [traverse]
    split
    · exact hst
    · split
      · exact hst
      · rename_i hg hb
        have hnew : ∀ x ∈ st.log, x.1 = e → d < x.2.1 := by
          intro x hx hxe
          cases hv : alookup st.visited e with
          | none => exact absurd hxe (hst.2.1 e hv x hx)
          | some v =>
            rw [hv] at hb
            simp at hb
            exact lt_of_lt_of_le hb (hst.2.2 e v hv x hx hxe)
        have hst1 : travInv ⟨aset st.visited e d, st.path, st.log ++ [(e, d, c)]⟩ :=
          travInv_expand st e d c st.path hst hnew
        split
        · split
          · exact hst1
          · exact runRels_inv _ (fun e' c' s' hs => ih e' (d + 1) c' s' hs) _ _ _ _ hst1
        · apply travInv_runConcepts
          split
          · exact hst1
          · exact runRels_inv _ (fun e' c' s' hs => ih e' (d + 1) c' s' hs) _ _ _ _ hst1

/-- Congruence of the relation loop in the recursive step. -/
theorem runRels_congr (step₁ step₂ : List Char → ℚ → TravState → TravState)
    (h : ∀ e c s, step₁ e c s = step₂ e c s) :
    ∀ rs e c st, runRels step₁ e c rs st = runRels step₂ e c rs st := by
  intro rs
  induction rs with
  | nil =>
    intro e c st
    rfl
  | cons r rs ih =>
    intro e c st
    simp only [runRels]
    rw [h]
    exact ih _ _ _

/-- Fuel stability of the walk: any two fuel budgets that both cover the
remaining depth (`maxDepth - depth`) produce the same state, for EVERY graph.
This is the termination argument of the source: the recursion depth is bounded
by `maxDepth` no matter how cyclic the graph is. -/
theorem traverse_fuel_stable (kg : KG) (cg : CG) (maxD : ℕ) (minC : ℚ) :
    ∀ f₁ f₂ d, maxD ≤ d + f₁ → maxD ≤ d + f₂ →
      ∀ e c st, traverse kg cg maxD minC f₁ e d c st =
        traverse kg cg maxD minC f₂ e d c st := by
  intro f₁
  induction f₁ with
  | zero =>
    intro f₂ d h₁ h₂ e c st
    cases f₂ with
    | zero => rfl
    | succ f =>
      simp only [traverse]
      rw [if_pos (Or.inl (by omega))]
  | succ f₁ ih =>
    intro f₂ d h₁ h₂ e c st
    cases f₂ with
    | zero =>
      simp only [traverse]
      rw [if_pos (Or.inl (by omega))]
    | succ f₂ =>
      simp only [traverse]
      by_cases hg : maxD ≤ d ∨ c < minC
      · rw [if_pos hg, if_pos hg]
      · rw [if_neg hg, if_neg hg]
        have hstep : ∀ e' c' s', traverse kg cg maxD minC f₁ e' (d + 1) c' s' =
            traverse kg cg maxD minC f₂ e' (d + 1) c' s' :=
          fun e' c' s' => ih f₂ (d + 1) (by omega) (by omega) e' c' s'
        cases hv : alookup st.visited e with
        | none =>
          simp only [hv]
          rw [if_neg (by simp), if_neg (by simp)]
          cases hc : alookup cg e with
          | none =>
            cases hk : alookup kg e with
            | none => rfl
            | some rels => exact runRels_congr _ _ hstep _ _ _ _
          | some ts =>
            cases hk : alookup kg e with
            | none => rfl
            | some rels =>
              exact congrArg (runConcepts e d c (ts.take 3))
                (runRels_congr _ _ hstep (candRels minC rels) e c _)
        | some v =>
          simp only [hv]
          by_cases hvd : v ≤ d
          · have h' : decide (v ≤ d) = true := by simp [hvd]
            rw [if_pos h', if_pos h']
          · have h' : ¬(decide (v ≤ d) = true) := by simp [hvd]
            rw [if_neg h', if_neg h']
            cases hc : alookup cg e with
            | none =>
              cases hk : alookup kg e with
              | none => rfl
              | some rels => exact runRels_congr _ _ hstep _ _ _ _
            | some ts =>
              cases hk : alookup kg e with
              | none => rfl
              | some rels =>
              exact congrArg (runConcepts e d c (ts.take 3))
                (runRels_congr _ _ hstep (candRels minC rels) e c _)

/-- The full run with an explicit fuel budget in place of `maxDepth`. -/
def travRunFuel (kg : KG) (cg : CG) (startEntities : List (List Char))
    (maxDepth : ℕ) (minConf : ℚ) (fuel : ℕ) : TravState :=
  startEntities.foldl
    (fun st e => traverse kg cg maxDepth minConf fuel e 0 1 st)
    ⟨[], [], []⟩

/-- C5: for EVERY knowledge graph and concept graph — cyclic ones included —
every seed list, every `maxDepth` and every threshold, (1) the traversal never
re-expands an entity at a depth at or beyond a previously recorded shallower
visit: along the chronological expansion log, any later expansion of the same
entity is at a strictly smaller depth; and (2) the walk is fuel-stable: any fuel
budget of at least `maxDepth` yields exactly the state produced with budget
`maxDepth`, so the recursion terminates with a finite path list on every input
graph, including a cycle of weight-1/confidence-1 edges at `maxDepth = 5`. -/
theorem c5_traversal_terminates_no_reexpansion (kg : KG) (cg : CG)
    (seeds : List (List Char)) (maxD : ℕ) (minC : ℚ) :
    (travRun kg cg seeds maxD minC).log.Pairwise
      (fun a b => a.1 = b.1 → b.2.1 < a.2.1) ∧
    ∀ fuel, maxD ≤ fuel →
      travRunFuel kg cg seeds maxD minC fuel = travRun kg cg seeds maxD minC := by
  constructor
  · have key : ∀ (l : List (List Char)) (st), travInv st →
        travInv (l.foldl (fun st e => traverse kg cg maxD minC maxD e 0 1 st) st) := by
      intro l
      induction l with
      | nil =>
        intro st h
        exact h
      | cons e l ihl =>
        intro st h
        exact ihl _ (traverse_inv kg cg maxD minC maxD e 0 1 st h)
    exact (key seeds _ travInv_init).1
  · intro fuel hf
    unfold travRunFuel travRun
    have key : ∀ (l : List (List Char)) (st : TravState),
        l.foldl (fun st e => traverse kg cg maxD minC fuel e 0 1 st) st =
        l.foldl (fun st e => traverse kg cg maxD minC maxD e 0 1 st) st := by
      intro l
      induction l with
      | nil =>
        intro st
        rfl
      | cons e l ihl =>
        intro st
        simp only [List.foldl]
        rw [traverse_fuel_stable kg cg maxD minC fuel maxD 0 (by omega) (by omega) e 1 st]
        exact ihl _
    exact key seeds _

/-- A three-node cycle whose edges all have weight 1 and confidence 1. -/
def cycleKG : KG :=
  [("A".toList, [⟨"B".toList, "links_to".toList, 1, 1, "kg".toList⟩]),
   ("B".toList, [⟨"C".toList, "links_to".toList, 1, 1, "kg".toList⟩]),
   ("C".toList, [⟨"A".toList, "links_to".toList, 1, 1, "kg".toList⟩])]

/-- C5, witness: on the concrete three-node weight-1/confidence-1 cycle with
`maxDepth = 5`, the run from seed `A` has a strictly-shallower re-expansion log
and is unchanged when the fuel budget is raised from 5 to 9. -/
theorem c5_traversal_terminates_no_reexpansion_witness :
    (travRun cycleKG (buildConceptGraph cycleKG) ["A".toList] 5 0).log.Pairwise
      (fun a b => a.1 = b.1 → b.2.1 < a.2.1) ∧
    travRunFuel cycleKG (buildConceptGraph cycleKG) ["A".toList] 5 0 9 =
      travRun cycleKG (buildConceptGraph cycleKG) ["A".toList] 5 0 :=
  ⟨(c5_traversal_terminates_no_reexpansion cycleKG (buildConceptGraph cycleKG)
      ["A".toList] 5 0).1,
   (c5_traversal_terminates_no_reexpansion cycleKG (buildConceptGraph cycleKG)
      ["A".toList] 5 0).2 9 (by decide)⟩


/-! ## C1: deduplication keeps the highest-confidence instance

The argument: along one run, an entity is only re-expanded strictly shallower
(C5), and on the shipped graph a strictly shallower arrival always carries a
strictly larger path confidence (a finite separation property of the arrival
sets, settled by computation).  Hence, per edge key, later pushes have larger
effective confidence, so the JS-`Map` deduplication (which keeps the last
instance) keeps a highest-confidence one. -/

/-- The relation list of an entity (empty for non-keys). -/
def relsOf (kg : KG) (e : List Char) : List Rel := (alookup kg e).getD []

/-- One step of the arrival-set iteration: all `(target, confidence)` pairs
reachable by one traversal edge from the given arrivals, with the exact
confidence update of the walk (`r.confidence * conf * 0.9`). -/
def arrStep (kg : KG) (l : List (List Char × ℚ)) : List (List Char × ℚ) :=
  l.flatMap (fun p => (relsOf kg p.1).map
    (fun r => (r.target, r.confidence * p.2 * (9/10))))

/-- The depth-`d` arrival set: every `(entity, pathConfidence)` that any run can
expand at depth `d` is listed here (depth 0: any key as a seed, confidence 1). -/
def arr (kg : KG) : ℕ → List (List Char × ℚ)
  | 0 => kg.map (fun p => (p.1, 1))
  | d + 1 => arrStep kg (arr kg d)

/-- Arrival validity of a log entry `(entity, depth, conf)`: a depth-0 expansion
has confidence 1, a deeper one is listed in the arrival set of its depth. -/
def Avalid (x : List Char × ℕ × ℚ) : Prop :=
  (x.2.1 = 0 ∧ x.2.2 = 1) ∨
  (1 ≤ x.2.1 ∧ (x.1, x.2.2) ∈ arr comprehensiveKnowledgeGraph x.2.1)

/-- Stepping an arrival: an edge out of a depth-`d` arrival is a depth-`d+1`
arrival. -/
theorem arr_step_mem (kg : KG) (d : ℕ) (e : List Char) (c : ℚ)
    (h : (e, c) ∈ arr kg d) (r : Rel) (hr : r ∈ relsOf kg e) :
    (r.target, r.confidence * c * (9/10)) ∈ arr kg (d + 1) := by
  show _ ∈ arrStep kg (arr kg d)
  unfold arrStep
  exact List.mem_flatMap.mpr ⟨(e, c), h, List.mem_map.mpr ⟨r, hr, rfl⟩⟩

/-- A successful association-list lookup is a membership. -/
theorem alookup_mem {β : Type} (m : List (List Char × β)) (k : List Char) (v : β)
    (h : alookup m k = some v) : (k, v) ∈ m := by
  induction m with
  | nil => simp [alookup] at h
  | cons p rest ih =>
    obtain ⟨pk, pv⟩ := p
    by_cases hp : pk = k
    · subst hp
      rw [show alookup ((pk, pv) :: rest) pk = if pk = pk then some pv else alookup rest pk
          from rfl, if_pos rfl] at h
      injection h with h
      subst h
      exact List.mem_cons_self _ _
    · rw [show alookup ((pk, pv) :: rest) k = if pk = k then some pv else alookup rest k
          from rfl, if_neg hp] at h
      exact List.mem_cons_of_mem _ (ih h)

/-- A key with a candidate relation is present in the graph, with its list. -/
theorem relsOf_key (kg : KG) (e : List Char) (r : Rel) (h : r ∈ relsOf kg e) :
    ∃ rels, alookup kg e = some rels ∧ relsOf kg e = rels ∧ (e, rels) ∈ kg := by
  cases hl : alookup kg e with
  | none =>
    unfold relsOf at h
    rw [hl] at h
    simp at h
  | some rels =>
    refine ⟨rels, rfl, ?_, alookup_mem _ _ _ hl⟩
    unfold relsOf
    rw [hl]
    rfl

/-- Candidate relations are drawn from the relation list. -/
theorem candRels_subset (minC : ℚ) (l : List Rel) (r : Rel)
    (h : r ∈ candRels minC l) : r ∈ l := by
  unfold candRels at h
  have h1 := List.mem_of_mem_take h
  rw [mem_sortDescBy] at h1
  exact List.mem_of_mem_filter h1

/-- The triple population of the shipped graphs: every `(subject, predicate,
object)` combination the walk can ever push. -/
def popOf (kg : KG) (cg : CG) : List (List Char × List Char × List Char) :=
  kg.flatMap (fun p => p.2.map (fun r => (p.1, r.predicate, r.target))) ++
  cg.flatMap (fun p => p.2.map
    (fun t => (p.1, "conceptually_related_to".toList, t)))

/-- Splitting at a separator character absent from both prefixes is injective. -/
theorem append_dash_inj : ∀ (a b x y : List Char), '-' ∉ a → '-' ∉ b →
    a ++ '-' :: x = b ++ '-' :: y → a = b ∧ x = y := by
  intro a
  induction a with
  | nil =>
    intro b x y _ hb h
    cases b with
    | nil =>
      simp only [List.nil_append, List.cons.injEq] at h
      exact ⟨rfl, h.2⟩
    | cons c b' =>
      simp only [List.nil_append, List.cons_append, List.cons.injEq] at h
      exact absurd (show ('-' : Char) ∈ c :: b' by
        rw [← h.1]; exact List.mem_cons_self _ _) hb
  | cons a₀ a' ih =>
    intro b x y ha hb h
    cases b with
    | nil =>
      simp only [List.cons_append, List.nil_append, List.cons.injEq] at h
      exact absurd (show ('-' : Char) ∈ a₀ :: a' by
        rw [h.1]; exact List.mem_cons_self _ _) ha
    | cons c b' =>
      simp only [List.cons_append, List.cons.injEq] at h
      obtain ⟨rfl, h2⟩ := h
      have := ih b' x y (fun hm => ha (List.mem_cons_of_mem _ hm))
        (fun hm => hb (List.mem_cons_of_mem _ hm)) h2
      exact ⟨by rw [this.1], this.2⟩

/-- Equal dedup keys of population triples force equal components (no entity or
predicate of the shipped graphs contains the separator `-`). -/
theorem key_components_eq (p q : List Char × List Char × List Char)
    (hp : '-' ∉ p.1 ∧ '-' ∉ p.2.1) (hq : '-' ∉ q.1 ∧ '-' ∉ q.2.1)
    (h : p.1 ++ '-' :: p.2.1 ++ '-' :: p.2.2 = q.1 ++ '-' :: q.2.1 ++ '-' :: q.2.2) :
    p.1 = q.1 ∧ p.2.1 = q.2.1 ∧ p.2.2 = q.2.2 := by
  have h1 : p.1 ++ '-' :: (p.2.1 ++ '-' :: p.2.2) = q.1 ++ '-' :: (q.2.1 ++ '-' :: q.2.2) := by
    simpa using h
  obtain ⟨hs, hrest⟩ := append_dash_inj _ _ _ _ hp.1 hq.1 h1
  obtain ⟨hm, ho⟩ := append_dash_inj _ _ _ _ hp.2 hq.2 hrest
  exact ⟨hs, hm, ho⟩

/-! ### Computed facts about the shipped graph -/

/-- Every arrival at depth 1, 2 or 3 has confidence strictly below 1. -/
theorem arr_lt_one : ∀ x ∈ arr comprehensiveKnowledgeGraph 1 ++
    (arr comprehensiveKnowledgeGraph 2 ++ arr comprehensiveKnowledgeGraph 3),
    x.2 < 1 := by
  with_unfolding_all decide

/-- Separation, depths 1 vs 2: a depth-1 arrival of an entity strictly dominates
every depth-2 arrival of the same entity. -/
theorem sep12 : ∀ x ∈ arr comprehensiveKnowledgeGraph 1,
    ∀ y ∈ arr comprehensiveKnowledgeGraph 2, x.1 = y.1 → y.2 < x.2 := by
  with_unfolding_all decide

/-- Separation, depths 1 vs 3. -/
theorem sep13 : ∀ x ∈ arr comprehensiveKnowledgeGraph 1,
    ∀ y ∈ arr comprehensiveKnowledgeGraph 3, x.1 = y.1 → y.2 < x.2 := by
  with_unfolding_all decide

/-- Separation, depths 2 vs 3. -/
theorem sep23 : ∀ x ∈ arr comprehensiveKnowledgeGraph 2,
    ∀ y ∈ arr comprehensiveKnowledgeGraph 3, x.1 = y.1 → y.2 < x.2 := by
  with_unfolding_all decide

/-- The shipped graph has no edge path of length 4. -/
theorem arr_four : arr comprehensiveKnowledgeGraph 4 = [] := by
  with_unfolding_all decide

/-- All edge confidences of the shipped graph are non-negative. -/
theorem conf_nonneg : ∀ p ∈ comprehensiveKnowledgeGraph, ∀ r ∈ p.2,
    0 ≤ r.confidence := by
  with_unfolding_all decide

/-- No entity of the shipped graph lists two relations with the same
`(predicate, target)` pair. -/
theorem nodup_pt : ∀ p ∈ comprehensiveKnowledgeGraph,
    p.2.Pairwise (fun r s => ¬(r.predicate = s.predicate ∧ r.target = s.target)) := by
  with_unfolding_all decide

/-- No edge of the shipped graph uses the synthetic concept predicate. -/
theorem no_ccr : ∀ p ∈ comprehensiveKnowledgeGraph, ∀ r ∈ p.2,
    ¬ r.predicate = "conceptually_related_to".toList := by
  with_unfolding_all decide

/-- No subject or predicate of the triple population contains the separator. -/
theorem pop_dashfree : ∀ p ∈ popOf comprehensiveKnowledgeGraph conceptGraph,
    '-' ∉ p.1 ∧ '-' ∉ p.2.1 := by
  with_unfolding_all decide

/-- Arrival sets are empty from depth 4 on. -/
theorem arr_ge_four : ∀ d, 4 ≤ d → arr comprehensiveKnowledgeGraph d = [] := by
  intro d h
  obtain ⟨k, rfl⟩ : ∃ k, d = 4 + k := ⟨d - 4, by omega⟩
  clear h
  induction k with
  | zero => exact arr_four
  | succ k ih =>
    show arrStep _ (arr _ (4 + k)) = []
    rw [ih]
    rfl

/-- The separation property of the shipped graph: among valid expansions of the
same entity, strictly smaller depth means strictly larger confidence. -/
theorem sep_key (e : List Char) (d₁ : ℕ) (c₁ : ℚ) (d₂ : ℕ) (c₂ : ℚ)
    (h₁ : Avalid (e, d₁, c₁)) (h₂ : Avalid (e, d₂, c₂)) (hlt : d₂ < d₁) :
    c₁ < c₂ := by
  rcases h₁ with ⟨hd1, _⟩ | ⟨hd1, hm1⟩
  · have hd1n : d₁ = 0 := hd1
    exact absurd hlt (by omega)
  · simp only at hd1 hm1
    have hd13 : d₁ ≤ 3 := by
      by_contra hgt
      rw [arr_ge_four d₁ (by omega)] at hm1
      exact absurd hm1 (List.not_mem_nil _)
    rcases h₂ with ⟨hd2, hc2⟩ | ⟨hd2, hm2⟩
    · simp only at hd2 hc2
      subst hc2
      have hmm : ((e, c₁) : List Char × ℚ) ∈ arr comprehensiveKnowledgeGraph 1 ++
          (arr comprehensiveKnowledgeGraph 2 ++ arr comprehensiveKnowledgeGraph 3) := by
        interval_cases d₁ <;> simp [List.mem_append, hm1]
      exact arr_lt_one _ hmm
    · simp only at hd2 hm2
      have hd23 : d₂ ≤ 3 := by omega
      interval_cases d₂ <;> interval_cases d₁ <;> first
        | exact absurd hlt (by omega)
        | exact sep12 _ hm2 _ hm1 rfl
        | exact sep13 _ hm2 _ hm1 rfl
        | exact sep23 _ hm2 _ hm1 rfl

/-! ### The `Map`-deduplication lemmas -/

/-- The fold step of `dedupLast`. -/
theorem dedupLast_fold_inv :
    ∀ (l acc p : List Triple),
    (p ++ l).Pairwise (fun a b =>
      tripleKey a = tripleKey b → a.confidence ≤ b.confidence) →
    acc.Pairwise (fun a b => tripleKey a ≠ tripleKey b) →
    (∀ t ∈ acc, t ∈ p) →
    (∀ t ∈ acc, ∀ u ∈ p, tripleKey u = tripleKey t → u.confidence ≤ t.confidence) →
    (l.foldl
      (fun acc t =>
        if acc.any (fun u => tripleKey u = tripleKey t) then
          acc.map (fun u => if tripleKey u = tripleKey t then t else u)
        else acc ++ [t]) acc).Pairwise (fun a b => tripleKey a ≠ tripleKey b) ∧
    (∀ t ∈ l.foldl
      (fun acc t =>
        if acc.any (fun u => tripleKey u = tripleKey t) then
          acc.map (fun u => if tripleKey u = tripleKey t then t else u)
        else acc ++ [t]) acc, t ∈ p ++ l) ∧
    (∀ t ∈ l.foldl
      (fun acc t =>
        if acc.any (fun u => tripleKey u = tripleKey t) then
          acc.map (fun u => if tripleKey u = tripleKey t then t else u)
        else acc ++ [t]) acc,
      ∀ u ∈ p ++ l, tripleKey u = tripleKey t → u.confidence ≤ t.confidence) := by
  intro l
  induction l with
  | nil =>
    intro acc p hmono hkd hmem hbound
    refine ⟨hkd, ?_, ?_⟩
    · intro t ht
      simp only [List.foldl] at ht
      simp [hmem t ht]
    · intro t ht u hu hk
      simp only [List.foldl] at ht
      rw [List.append_nil] at hu
      exact hbound t ht u hu hk
  | cons t₀ l' ih =>
    intro acc p hmono hkd hmem hbound
    simp only [List.foldl]
    have hmono' : ((p ++ [t₀]) ++ l').Pairwise (fun a b =>
        tripleKey a = tripleKey b → a.confidence ≤ b.confidence) := by
      rw [List.append_assoc]
      simpa using hmono
    have hcross : ∀ u ∈ p, tripleKey u = tripleKey t₀ →
        u.confidence ≤ t₀.confidence := by
      intro u hu hk
      have := (List.pairwise_append.mp hmono).2.2 u hu t₀ (List.mem_cons_self _ _)
      exact this hk
    by_cases hany : (acc.any fun u => tripleKey u = tripleKey t₀) = true
    · rw [if_pos hany]
      have hres := ih (acc.map (fun u => if tripleKey u = tripleKey t₀ then t₀ else u))
        (p ++ [t₀]) hmono' ?_ ?_ ?_
      · refine ⟨hres.1, ?_, ?_⟩
        · intro t ht
          have := hres.2.1 t ht
          rw [List.append_assoc] at this
          simpa using this
        · intro t ht u hu hk
          refine hres.2.2 t ht u ?_ hk
          rw [List.append_assoc]
          simpa using hu
      · rw [List.pairwise_map]
        refine hkd.imp_of_mem ?_
        intro a b _ _ hab
        by_cases ha : tripleKey a = tripleKey t₀ <;>
          by_cases hb : tripleKey b = tripleKey t₀ <;>
            simp [ha, hb] at hab ⊢ <;> first
              | exact absurd (ha.trans hb.symm) hab
              | (intro h; exact hab (by rw [← ha, h]))
              | (intro h; exact hab (by rw [h, hb]))
              | exact hab
      · intro t ht
        obtain ⟨u, hu, rfl⟩ := List.mem_map.mp ht
        by_cases hk : tripleKey u = tripleKey t₀
        · rw [if_pos hk]
          simp
        · rw [if_neg hk]
          exact List.mem_append_left _ (hmem u hu)
      · intro t ht u hu hk
        obtain ⟨v, hv, rfl⟩ := List.mem_map.mp ht
        by_cases hvk : tripleKey v = tripleKey t₀
        · rw [if_pos hvk] at hk ⊢
          rcases List.mem_append.mp hu with h | h
          · exact hcross u h hk
          · rw [List.mem_singleton] at h
            subst h
            exact le_refl _
        · rw [if_neg hvk] at hk ⊢
          rcases List.mem_append.mp hu with h | h
          · exact hbound v hv u h hk
          · rw [List.mem_singleton] at h
            subst h
            exact absurd hk.symm hvk
    · rw [if_neg hany]
      have hnot : ∀ u ∈ acc, ¬ tripleKey u = tripleKey t₀ := by
        intro u hu hk
        exact hany (List.any_eq_true.mpr ⟨u, hu, by simp [hk]⟩)
      have hres := ih (acc ++ [t₀]) (p ++ [t₀]) hmono' ?_ ?_ ?_
      · refine ⟨hres.1, ?_, ?_⟩
        · intro t ht
          have := hres.2.1 t ht
          rw [List.append_assoc] at this
          simpa using this
        · intro t ht u hu hk
          refine hres.2.2 t ht u ?_ hk
          rw [List.append_assoc]
          simpa using hu
      · rw [List.pairwise_append]
        exact ⟨hkd, List.pairwise_singleton _ _,
          fun a ha b hb => by
            rw [List.mem_singleton] at hb
            subst hb
            exact hnot a ha⟩
      · intro t ht
        rcases List.mem_append.mp ht with h | h
        · exact List.mem_append_left _ (hmem t h)
        · exact List.mem_append_right _ h
      · intro t ht u hu hk
        rcases List.mem_append.mp ht with h | h
        · rcases List.mem_append.mp hu with h2 | h2
          · exact hbound t h u h2 hk
          · rw [List.mem_singleton] at h2
            subst h2
            exact absurd hk.symm (hnot t h)
        · rw [List.mem_singleton] at h
          subst h
          rcases List.mem_append.mp hu with h2 | h2
          · exact hcross u h2 hk
          · rw [List.mem_singleton] at h2
            subst h2
            exact le_refl _

/-- `dedupLast` on a per-key monotone list: the kept instances have pairwise
distinct keys, come from the input, and dominate every same-key instance of the
input. -/
theorem dedupLast_spec (l : List Triple)
    (hmono : l.Pairwise (fun a b =>
      tripleKey a = tripleKey b → a.confidence ≤ b.confidence)) :
    (dedupLast l).Pairwise (fun a b => tripleKey a ≠ tripleKey b) ∧
    (∀ t ∈ dedupLast l, t ∈ l) ∧
    (∀ t ∈ dedupLast l, ∀ u ∈ l, tripleKey u = tripleKey t →
      u.confidence ≤ t.confidence) := by
  have := dedupLast_fold_inv l [] [] (by simpa using hmono)
    (List.Pairwise.nil) (by simp) (by simp)
  refine ⟨this.1, fun t ht => by simpa using this.2.1 t ht,
    fun t ht u hu hk => this.2.2 t ht u (by simpa using hu) hk⟩

/-! ### State-extension lemmas -/

/-- `st'` extends `st`: the log and path grow by suffixes, and every appended
log entry sits at depth at least `dd`. -/
def ExtOf (dd : ℕ) (st st' : TravState) : Prop :=
  ∃ lsuf psuf, st'.log = st.log ++ lsuf ∧ st'.path = st.path ++ psuf ∧
    ∀ x ∈ lsuf, dd ≤ x.2.1

theorem ExtOf_refl (dd : ℕ) (st : TravState) : ExtOf dd st st :=
  ⟨[], [], (List.append_nil _).symm, (List.append_nil _).symm, by simp⟩

theorem ExtOf_trans (dd : ℕ) (s s' s'' : TravState) (h1 : ExtOf dd s s')
    (h2 : ExtOf dd s' s'') : ExtOf dd s s'' := by
  obtain ⟨l1, p1, hl1, hp1, hb1⟩ := h1
  obtain ⟨l2, p2, hl2, hp2, hb2⟩ := h2
  refine ⟨l1 ++ l2, p1 ++ p2, ?_, ?_, ?_⟩
  · rw [hl2, hl1, List.append_assoc]
  · rw [hp2, hp1, List.append_assoc]
  · intro x hx
    rcases List.mem_append.mp hx with h | h
    · exact hb1 x h
    · exact hb2 x h

theorem ExtOf_weaken (dd dd' : ℕ) (h : dd' ≤ dd) (st st' : TravState)
    (he : ExtOf dd st st') : ExtOf dd' st st' := by
  obtain ⟨l, p, hl, hp, hb⟩ := he
  exact ⟨l, p, hl, hp, fun x hx => le_trans h (hb x hx)⟩

/-- The concept loop only appends to the path. -/
theorem runConcepts_ext (e : List Char) (d : ℕ) (c : ℚ) (dd : ℕ) :
    ∀ ts st, ExtOf dd st (runConcepts e d c ts st) := by
  intro ts
  induction ts with
  | nil =>
    intro st
    exact ExtOf_refl dd st
  | cons t ts ih =>
    intro st
    simp only [runConcepts]
    split
    · refine ExtOf_trans dd st _ _ ?_ (ih _)
      exact ⟨[], _, (List.append_nil _).symm, rfl, by simp⟩
    · exact ih st

/-- The relation loop extends the state whenever its step does. -/
theorem runRels_ext (step : List Char → ℚ → TravState → TravState) (dd : ℕ)
    (hstep : ∀ e c s, ExtOf dd s (step e c s)) :
    ∀ rs e c st, ExtOf dd st (runRels step e c rs st) := by
  intro rs
  induction rs with
  | nil =>
    intro e c st
    exact ExtOf_refl dd st
  | cons r rs ih =>
    intro e c st
    simp only [runRels]
    refine ExtOf_trans dd st _ _ ?_ (ExtOf_trans dd _ _ _ (hstep _ _ _) (ih _ _ _))
    exact ⟨[], _, (List.append_nil _).symm, rfl, by simp⟩

/-- A traversal call at depth `d` only appends, and appends at depth `≥ d`. -/
theorem traverse_ext (kg : KG) (cg : CG) (maxD : ℕ) (minC : ℚ) :
    ∀ fuel e d c st, ExtOf d st (traverse kg cg maxD minC fuel e d c st) := by
  intro fuel
  induction fuel with
  | zero =>
    intro e d c st
    exact ExtOf_refl d st
  | succ f ih =>
    intro e d c st
    simp only [traverse]
    split
    · exact ExtOf_refl d st
    · split
      · exact ExtOf_refl d st
      · have hst1 : ExtOf d st
            ⟨aset st.visited e d, st.path, st.log ++ [(e, d, c)]⟩ :=
          ⟨[(e, d, c)], [], rfl, (List.append_nil _).symm, by simp⟩
        have hrr : ∀ rels st', ExtOf d st'
            (runRels (fun e' c' s => traverse kg cg maxD minC f e' (d + 1) c' s)
              e c (candRels minC rels) st') := by
          intro rels st'
          exact ExtOf_weaken _ _ (by omega) _ _
            (runRels_ext _ (d + 1) (fun e' c' s => ih e' (d + 1) c' s) _ _ _ _)
        split
        · split
          · exact hst1
          · exact ExtOf_trans d st _ _ hst1 (hrr _ _)
        · refine ExtOf_trans d st _ _ ?_ (runConcepts_ext e d c d _ _)
          split
          · exact hst1
          · exact ExtOf_trans d st _ _ hst1 (hrr _ _)

/-- A guard-passing traversal call with positive fuel leaves an entry for its
entity at its depth or shallower (it either expands, or was blocked by a
shallower visit that the visited map links to the log). -/
theorem traverse_expands (kg : KG) (cg : CG) (maxD : ℕ) (minC : ℚ)
    (fuel : ℕ) (e : List Char) (d : ℕ) (c : ℚ) (st : TravState)
    (hg : ¬(maxD ≤ d ∨ c < minC)) (hf : 1 ≤ fuel)
    (hVL : ∀ e' v, alookup st.visited e' = some v → ∃ c', (e', v, c') ∈ st.log) :
    ∃ y ∈ (traverse kg cg maxD minC fuel e d c st).log, y.1 = e ∧ y.2.1 ≤ d := by
  cases fuel with
  | zero => omega
  | succ f =>
    simp only [traverse]
    rw [if_neg hg]
    split
    · rename_i hb
      cases hv : alookup st.visited e with
      | none =>
        rw [hv] at hb
        simp at hb
      | some v =>
        rw [hv] at hb
        simp at hb
        obtain ⟨c', hc'⟩ := hVL e v hv
        exact ⟨(e, v, c'), hc', rfl, hb⟩
    · have hmem1 : ((e, d, c) : List Char × ℕ × ℚ) ∈
          (⟨aset st.visited e d, st.path, st.log ++ [(e, d, c)]⟩ : TravState).log := by
        simp
      have hrr : ∀ rels st', ExtOf (d + 1) st'
          (runRels (fun e' c' s => traverse kg cg maxD minC f e' (d + 1) c' s)
            e c (candRels minC rels) st') := by
        intro rels st'
        exact runRels_ext _ (d + 1)
          (fun e' c' s => traverse_ext kg cg maxD minC f e' (d + 1) c' s) _ _ _ _
      split
      · split
        · exact ⟨(e, d, c), hmem1, rfl, le_refl d⟩
        · obtain ⟨lsuf, _, hl, _, _⟩ := hrr _ _
          exact ⟨(e, d, c), by rw [hl]; exact List.mem_append_left _ hmem1, rfl, le_refl d⟩
      · rw [show ∀ st', (runConcepts e d c _ st').log = st'.log from
          fun st' => runConcepts_log e d c _ st']
        · split
          · exact ⟨(e, d, c), hmem1, rfl, le_refl d⟩
          · obtain ⟨lsuf, _, hl, _, _⟩ := hrr _ _
            exact ⟨(e, d, c), by rw [hl]; exact List.mem_append_left _ hmem1, rfl, le_refl d⟩

/-! ### The run invariant -/

/-- Seed-or-parent provenance of a log entry. -/
def Prov (seeds : List (List Char)) (minC : ℚ)
    (lg : List (List Char × ℕ × ℚ)) (x : List Char × ℕ × ℚ) : Prop :=
  (x.2.1 = 0 ∧ x.2.2 = 1 ∧ x.1 ∈ seeds) ∨
  (∃ p ∈ lg, p.2.1 + 1 = x.2.1 ∧
    ∃ r ∈ candRels minC (relsOf comprehensiveKnowledgeGraph p.1),
      r.target = x.1 ∧ x.2.2 = r.confidence * p.2.2 * (9/10))

/-- Provenance of a pushed edge: the expansion record it came from, and the
candidate relation (or concept link) that produced it. -/
def OriginOf (minC : ℚ) (t : Triple) (lg : List (List Char × ℕ × ℚ)) : Prop :=
  ∃ d₀ c₀, (t.subject, d₀, c₀) ∈ lg ∧
    ((∃ r ∈ candRels minC (relsOf comprehensiveKnowledgeGraph t.subject),
        r.predicate = t.predicate ∧ r.target = t.object ∧
        t.weight = r.weight ∧ t.confidence = r.confidence * c₀ ∧
        t.source = r.source) ∨
     (t.predicate = "conceptually_related_to".toList ∧ t.weight = 6/10 ∧
        t.confidence = c₀ * (8/10) ∧ t.source = "concept_graph".toList))

/-- The full running invariant of one `deepGraphTraversal` walk on the shipped
graphs. -/
def Mega (seeds : List (List Char)) (maxD : ℕ) (minC : ℚ) (st : TravState) : Prop :=
  travInv st ∧
  (∀ e v, alookup st.visited e = some v → ∃ c, (e, v, c) ∈ st.log) ∧
  (∀ x ∈ st.log, minC ≤ x.2.2 ∧ x.2.1 < maxD) ∧
  (∀ x ∈ st.log, Avalid x) ∧
  (∀ x ∈ st.log, Prov seeds minC st.log x) ∧
  (∀ t ∈ st.path, (t.subject, t.predicate, t.object) ∈
    popOf comprehensiveKnowledgeGraph conceptGraph) ∧
  (∀ t ∈ st.path, OriginOf minC t st.log) ∧
  st.path.Pairwise (fun a b =>
    a.subject = b.subject → a.predicate = b.predicate → a.object = b.object →
      a.confidence ≤ b.confidence)

/-- Per-entry edge obligations: the edge was pushed, and (when the child guard
passes) the target carries a log entry at most one deeper. -/
def OblOf (maxD : ℕ) (minC : ℚ) (st : TravState) (x : List Char × ℕ × ℚ)
    (r : Rel) : Prop :=
  (∃ t ∈ st.path, t.subject = x.1 ∧ t.predicate = r.predicate ∧
    t.object = r.target) ∧
  (x.2.1 + 1 < maxD → minC ≤ r.confidence * x.2.2 * (9/10) →
    ∃ y ∈ st.log, y.1 = r.target ∧ y.2.1 ≤ x.2.1 + 1)

/-- All log entries carry their edge obligations, up to a pending set. -/
def ObAll (maxD : ℕ) (minC : ℚ) (Pend : (List Char × ℕ × ℚ) → Rel → Prop)
    (st : TravState) : Prop :=
  ∀ x ∈ st.log, ∀ r ∈ candRels minC (relsOf comprehensiveKnowledgeGraph x.1),
    OblOf maxD minC st x r ∨ Pend x r

/-- Validity of a traversal call: a seed at depth 0 with confidence 1, or a
child call derived from a logged parent through a candidate relation. -/
def CallOK (seeds : List (List Char)) (minC : ℚ)
    (lg : List (List Char × ℕ × ℚ)) (e : List Char) (d : ℕ) (c : ℚ) : Prop :=
  (d = 0 ∧ c = 1 ∧ e ∈ seeds) ∨
  (1 ≤ d ∧ (e, c) ∈ arr comprehensiveKnowledgeGraph d ∧
    ∃ p ∈ lg, p.2.1 + 1 = d ∧
      ∃ r ∈ candRels minC (relsOf comprehensiveKnowledgeGraph p.1),
        r.target = e ∧ c = r.confidence * p.2.2 * (9/10))

/-- Conjunction carried through the main induction. -/
def MegaOb (seeds : List (List Char)) (maxD : ℕ) (minC : ℚ)
    (Pend : (List Char × ℕ × ℚ) → Rel → Prop) (st : TravState) : Prop :=
  Mega seeds maxD minC st ∧ ObAll maxD minC Pend st

theorem Prov_mono (seeds : List (List Char)) (minC : ℚ)
    (lg suf : List (List Char × ℕ × ℚ)) (x : List Char × ℕ × ℚ)
    (h : Prov seeds minC lg x) : Prov seeds minC (lg ++ suf) x := by
  rcases h with h | ⟨p, hp, hrest⟩
  · exact Or.inl h
  · exact Or.inr ⟨p, List.mem_append_left _ hp, hrest⟩

theorem OriginOf_mono (minC : ℚ) (t : Triple)
    (lg suf : List (List Char × ℕ × ℚ)) (h : OriginOf minC t lg) :
    OriginOf minC t (lg ++ suf) := by
  obtain ⟨d₀, c₀, hmem, hrest⟩ := h
  exact ⟨d₀, c₀, List.mem_append_left _ hmem, hrest⟩

theorem CallOK_mono (seeds : List (List Char)) (minC : ℚ)
    (lg suf : List (List Char × ℕ × ℚ)) (e : List Char) (d : ℕ) (c : ℚ)
    (h : CallOK seeds minC lg e d c) : CallOK seeds minC (lg ++ suf) e d c := by
  rcases h with h | ⟨h1, h2, p, hp, hrest⟩
  · exact Or.inl h
  · exact Or.inr ⟨h1, h2, p, List.mem_append_left _ hp, hrest⟩

theorem OblOf_mono (maxD : ℕ) (minC : ℚ) (st st' : TravState)
    (x : List Char × ℕ × ℚ) (r : Rel) (dd : ℕ) (hext : ExtOf dd st st')
    (h : OblOf maxD minC st x r) : OblOf maxD minC st' x r := by
  obtain ⟨l, p, hl, hp, _⟩ := hext
  refine ⟨?_, ?_⟩
  · obtain ⟨t, ht, hrest⟩ := h.1
    exact ⟨t, by rw [hp]; exact List.mem_append_left _ ht, hrest⟩
  · intro h1 h2
    obtain ⟨y, hy, hrest⟩ := h.2 h1 h2
    exact ⟨y, by rw [hl]; exact List.mem_append_left _ hy, hrest⟩

theorem CallOK_Avalid (seeds : List (List Char)) (minC : ℚ)
    (lg : List (List Char × ℕ × ℚ)) (e : List Char) (d : ℕ) (c : ℚ)
    (h : CallOK seeds minC lg e d c) : Avalid (e, d, c) := by
  rcases h with ⟨h1, h2, _⟩ | ⟨h1, h2, _⟩
  · exact Or.inl ⟨h1, h2⟩
  · exact Or.inr ⟨h1, h2⟩

/-- The confidence of the current expansion record dominates every logged
confidence of the same entity (shallower logged visits are older and, by
separation, strictly more confident; deeper ones cannot exist behind the
current record). -/
theorem last_conf_bound (st : TravState) (hInv : travInv st)
    (hA : ∀ x ∈ st.log, Avalid x)
    (e : List Char) (d : ℕ) (c : ℚ) (pre post : List (List Char × ℕ × ℚ))
    (hlog : st.log = pre ++ (e, d, c) :: post)
    (hpost : ∀ x ∈ post, d + 1 ≤ x.2.1)
    (d₀ : ℕ) (c₀ : ℚ) (hmem : (e, d₀, c₀) ∈ st.log) : c₀ ≤ c := by
  have hpw := hInv.1
  rw [hlog] at hpw
  rw [hlog] at hmem
  rcases List.mem_append.mp hmem with hh | hh
  · have hcross := (List.pairwise_append.mp hpw).2.2 _ hh (e, d, c)
      (List.mem_cons_self _ _)
    have hd : d < d₀ := hcross rfl
    have hA₀ : Avalid (e, d₀, c₀) := hA _ (by rw [hlog]; exact List.mem_append_left _ hh)
    have hAc : Avalid (e, d, c) := hA _
      (by rw [hlog]; exact List.mem_append_right _ (List.mem_cons_self _ _))
    exact le_of_lt (sep_key e d₀ c₀ d c hA₀ hAc hd)
  · rcases List.mem_cons.mp hh with hh2 | hh2
    · injection hh2 with h1 h23
      injection h23 with h2 h3
      exact le_of_eq h3
    · have hdge : d + 1 ≤ d₀ := hpost _ hh2
      have hcross := (List.pairwise_cons.mp (List.pairwise_append.mp hpw).2.1).1 _ hh2
      have h2 : d₀ < d := hcross rfl
      exact absurd hdge (by omega)

/-- The push bound: a freshly pushed edge of the current expansion dominates
every earlier same-component edge in the path. -/
theorem push_bound (minC : ℚ) (st : TravState)
    (hInv : travInv st) (hA : ∀ x ∈ st.log, Avalid x)
    (hOrig : ∀ t ∈ st.path, OriginOf minC t st.log)
    (e : List Char) (d : ℕ) (c : ℚ)
    (pre post : List (List Char × ℕ × ℚ))
    (hlog : st.log = pre ++ (e, d, c) :: post)
    (hpost : ∀ x ∈ post, d + 1 ≤ x.2.1)
    (T : Triple) (hTs : T.subject = e)
    (hcase :
      (∃ r ∈ candRels minC (relsOf comprehensiveKnowledgeGraph e),
        r.predicate = T.predicate ∧ r.target = T.object ∧
        T.confidence = r.confidence * c) ∨
      (T.predicate = "conceptually_related_to".toList ∧
        T.confidence = c * (8/10))) :
    ∀ t ∈ st.path, t.subject = T.subject → t.predicate = T.predicate →
      t.object = T.object → t.confidence ≤ T.confidence := by
  intro t ht hs hp ho
  obtain ⟨d₀, c₀, hmem, hor⟩ := hOrig t ht
  have hsub : t.subject = e := hs.trans hTs
  rw [hsub] at hmem hor
  have hc₀ : c₀ ≤ c := last_conf_bound st hInv hA e d c pre post hlog hpost d₀ c₀ hmem
  rcases hor with ⟨r, hrmem, hrp, hrt, _, hconf, _⟩ | ⟨hccr, _, hconf, _⟩
  · rcases hcase with ⟨r', hr'mem, hr'p, hr't, hT⟩ | ⟨hTccr, hT⟩
    · have hrrels : r ∈ relsOf comprehensiveKnowledgeGraph e :=
        candRels_subset _ _ _ hrmem
      have hr'rels : r' ∈ relsOf comprehensiveKnowledgeGraph e :=
        candRels_subset _ _ _ hr'mem
      obtain ⟨rels, _, hre, hkgmem⟩ := relsOf_key _ _ _ hrrels
      rw [hre] at hrrels hr'rels
      have hnd := nodup_pt _ hkgmem
      have hpt : r.predicate = r'.predicate := (hrp.trans hp).trans hr'p.symm
      have htg : r.target = r'.target := (hrt.trans ho).trans hr't.symm
      have hrr' : r = r' := by
        by_cases heq : r = r'
        · exact heq
        · have hsymm : Symmetric (fun r s : Rel =>
              ¬(r.predicate = s.predicate ∧ r.target = s.target)) :=
            fun a b hab h2 => hab ⟨h2.1.symm, h2.2.symm⟩
          exact absurd ⟨hpt, htg⟩ (hnd.forall hsymm hrrels hr'rels heq)
      rw [hconf, hT, hrr']
      exact mul_le_mul_of_nonneg_left hc₀ (conf_nonneg _ hkgmem r' hr'rels)
    · have hccr2 : r.predicate = "conceptually_related_to".toList :=
        hrp.trans (hp.trans hTccr)
      obtain ⟨rels, _, hre, hkgmem⟩ := relsOf_key _ _ _ (candRels_subset _ _ _ hrmem)
      exact absurd hccr2 (no_ccr _ hkgmem r (hre ▸ candRels_subset _ _ _ hrmem))
  · rcases hcase with ⟨r', hr'mem, hr'p, hr't, hT⟩ | ⟨hTccr, hT⟩
    · have hccr2 : r'.predicate = "conceptually_related_to".toList :=
        hr'p.trans (hp.symm.trans hccr)
      obtain ⟨rels, _, hre, hkgmem⟩ := relsOf_key _ _ _ (candRels_subset _ _ _ hr'mem)
      exact absurd hccr2 (no_ccr _ hkgmem r' (hre ▸ candRels_subset _ _ _ hr'mem))
    · rw [hconf, hT]
      exact mul_le_mul_of_nonneg_right hc₀ (by norm_num)

/-! ### Preservation through the loops and the walk -/

theorem runConcepts_mega (seeds : List (List Char)) (maxD : ℕ) (minC : ℚ)
    (e : List Char) (d : ℕ) (c : ℚ)
    (Pend : (List Char × ℕ × ℚ) → Rel → Prop) :
    ∀ ts st,
      (∀ t ∈ ts, ((e, "conceptually_related_to".toList, t) :
        List Char × List Char × List Char) ∈
          popOf comprehensiveKnowledgeGraph conceptGraph) →
      Mega seeds maxD minC st →
      ObAll maxD minC Pend st →
      (∃ pre post, st.log = pre ++ (e, d, c) :: post ∧ ∀ x ∈ post, d + 1 ≤ x.2.1) →
      MegaOb seeds maxD minC Pend (runConcepts e d c ts st) := by
  intro ts
  induction ts with
  | nil =>
    intro st _ hM hOb _
    exact ⟨hM, hOb⟩
  | cons t ts ih =>
    intro st hpop hM hOb hstruct
    simp only [runConcepts]
    split
    · obtain ⟨hInv, hVL, hLC, hAv, hPr, hPop, hOr, hMono⟩ := hM
      obtain ⟨pre, post, hlog, hpost⟩ := hstruct
      refine ih _ (fun u hu => hpop u (List.mem_cons_of_mem _ hu)) ?_ ?_
        ⟨pre, post, hlog, hpost⟩
      · refine ⟨⟨hInv.1, hInv.2.1, hInv.2.2⟩, hVL, hLC, hAv, hPr, ?_, ?_, ?_⟩
        · intro u hu
          rcases List.mem_append.mp hu with h | h
          · exact hPop u h
          · rw [List.mem_singleton] at h
            subst h
            exact hpop t (List.mem_cons_self _ _)
        · intro u hu
          rcases List.mem_append.mp hu with h | h
          · exact hOr u h
          · rw [List.mem_singleton] at h
            subst h
            exact ⟨d, c,
              by rw [hlog]; exact List.mem_append_right _ (List.mem_cons_self _ _),
              Or.inr ⟨rfl, rfl, rfl, rfl⟩⟩
        · rw [List.pairwise_append]
          refine ⟨hMono, List.pairwise_singleton _ _, ?_⟩
          intro a ha b hb
          rw [List.mem_singleton] at hb
          subst hb
          exact push_bound minC st hInv hAv hOr e d c pre post hlog hpost _ rfl
            (Or.inr ⟨rfl, rfl⟩) a ha
      · intro x hx r hr
        rcases hOb x hx r hr with h | h
        · exact Or.inl (OblOf_mono _ _ st _ _ _ 0
            ⟨[], _, (List.append_nil _).symm, rfl, by simp⟩ h)
        · exact Or.inr h
    · exact ih st (fun u hu => hpop u (List.mem_cons_of_mem _ hu)) hM hOb hstruct

theorem runRels_mega (seeds : List (List Char)) (maxD : ℕ) (minC : ℚ)
    (f d : ℕ)
    (hstep : ∀ (Pend : (List Char × ℕ × ℚ) → Rel → Prop) (e' : List Char)
        (c' : ℚ) (st' : TravState),
      maxD ≤ (d + 1) + f →
      Mega seeds maxD minC st' →
      ObAll maxD minC Pend st' →
      CallOK seeds minC st'.log e' (d + 1) c' →
      MegaOb seeds maxD minC Pend
        (traverse comprehensiveKnowledgeGraph conceptGraph maxD minC f e' (d + 1) c' st'))
    (hcov : maxD ≤ d + 1 + f)
    (e : List Char) (c : ℚ) :
    ∀ rs st (PendO : (List Char × ℕ × ℚ) → Rel → Prop),
      (∀ r ∈ rs, r ∈ candRels minC (relsOf comprehensiveKnowledgeGraph e)) →
      Mega seeds maxD minC st →
      ObAll maxD minC (fun x r => PendO x r ∨ (x = (e, d, c) ∧ r ∈ rs)) st →
      (∃ pre post, st.log = pre ++ (e, d, c) :: post ∧ ∀ x ∈ post, d + 1 ≤ x.2.1) →
      MegaOb seeds maxD minC PendO
        (runRels (fun e' c' s => traverse comprehensiveKnowledgeGraph conceptGraph
          maxD minC f e' (d + 1) c' s) e c rs st) ∧
      (∃ pre post, (runRels (fun e' c' s => traverse comprehensiveKnowledgeGraph
          conceptGraph maxD minC f e' (d + 1) c' s) e c rs st).log =
        pre ++ (e, d, c) :: post ∧ ∀ x ∈ post, d + 1 ≤ x.2.1) := by
  intro rs
  induction rs with
  | nil =>
    intro st PendO _ hM hOb hstruct
    refine ⟨⟨hM, ?_⟩, hstruct⟩
    intro x hx r hr
    rcases hOb x hx r hr with h | h | ⟨_, hmem⟩
    · exact Or.inl h
    · exact Or.inr h
    · exact absurd hmem (List.not_mem_nil r)
  | cons r₀ rs ih =>
    intro st PendO hsub hM hOb hstruct
    simp only [runRels]
    obtain ⟨pre, post, hlog, hpost⟩ := hstruct
    have hInv := hM.1
    have hVL := hM.2.1
    have hLC := hM.2.2.1
    have hAv := hM.2.2.2.1
    have hPr := hM.2.2.2.2.1
    have hPop := hM.2.2.2.2.2.1
    have hOr := hM.2.2.2.2.2.2.1
    have hMono := hM.2.2.2.2.2.2.2
    have hr₀ : r₀ ∈ candRels minC (relsOf comprehensiveKnowledgeGraph e) :=
      hsub r₀ (List.mem_cons_self _ _)
    have hr₀rels : r₀ ∈ relsOf comprehensiveKnowledgeGraph e :=
      candRels_subset _ _ _ hr₀
    obtain ⟨rels, hlk, hre, hkgmem⟩ := relsOf_key _ _ _ hr₀rels
    have hedcmem : ((e, d, c) : List Char × ℕ × ℚ) ∈ st.log := by
      rw [hlog]
      exact List.mem_append_right _ (List.mem_cons_self _ _)
    have hM2 : Mega seeds maxD minC ⟨st.visited, st.path ++
        [⟨e, r₀.predicate, r₀.target, r₀.weight, r₀.confidence * c, r₀.source⟩],
        st.log⟩ := by
      refine ⟨⟨hInv.1, hInv.2.1, hInv.2.2⟩, hVL, hLC, hAv, hPr, ?_, ?_, ?_⟩
      · intro u hu
        rcases List.mem_append.mp hu with h | h
        · exact hPop u h
        · rw [List.mem_singleton] at h
          subst h
          exact List.mem_append_left _
            (List.mem_flatMap.mpr ⟨(e, rels), hkgmem,
              List.mem_map.mpr ⟨r₀, hre ▸ hr₀rels, rfl⟩⟩)
      · intro u hu
        rcases List.mem_append.mp hu with h | h
        · exact hOr u h
        · rw [List.mem_singleton] at h
          subst h
          exact ⟨d, c, hedcmem, Or.inl ⟨r₀, hr₀, rfl, rfl, rfl, rfl, rfl⟩⟩
      · rw [List.pairwise_append]
        refine ⟨hMono, List.pairwise_singleton _ _, ?_⟩
        intro a ha b hb
        rw [List.mem_singleton] at hb
        subst hb
        exact push_bound minC st hInv hAv hOr e d c pre post hlog hpost _ rfl
          (Or.inl ⟨r₀, hr₀, rfl, rfl, rfl⟩) a ha
    have hOb2 : ObAll maxD minC
        (fun x r => PendO x r ∨ (x = (e, d, c) ∧ r ∈ r₀ :: rs))
        ⟨st.visited, st.path ++
          [⟨e, r₀.predicate, r₀.target, r₀.weight, r₀.confidence * c, r₀.source⟩],
          st.log⟩ := by
      intro x hx r hr
      rcases hOb x hx r hr with h | h
      · exact Or.inl (OblOf_mono _ _ st _ _ _ 0
          ⟨[], _, (List.append_nil _).symm, rfl, by simp⟩ h)
      · exact Or.inr h
    have hcall : CallOK seeds minC
        (⟨st.visited, st.path ++
          [⟨e, r₀.predicate, r₀.target, r₀.weight, r₀.confidence * c, r₀.source⟩],
          st.log⟩ : TravState).log r₀.target (d + 1)
        (r₀.confidence * c * (9/10)) := by
      refine Or.inr ⟨by omega, ?_, (e, d, c), hedcmem, rfl, r₀, hr₀, rfl, rfl⟩
      have hAedc : Avalid (e, d, c) := hAv _ hedcmem
      rcases hAedc with ⟨hd0, hc1⟩ | ⟨_, hmem⟩
      · have hd0' : d = 0 := hd0
        have hc1' : c = 1 := hc1
        subst hd0'
        subst hc1'
        have h0 : ((e, 1) : List Char × ℚ) ∈ arr comprehensiveKnowledgeGraph 0 :=
          List.mem_map.mpr ⟨(e, rels), hkgmem, rfl⟩
        exact arr_step_mem _ 0 e 1 h0 r₀ hr₀rels
      · exact arr_step_mem _ d e c hmem r₀ hr₀rels
    have hchild := hstep (fun x r => PendO x r ∨ (x = (e, d, c) ∧ r ∈ r₀ :: rs))
      r₀.target (r₀.confidence * c * (9/10)) _ (by omega) hM2 hOb2 hcall
    have hext2 := traverse_ext comprehensiveKnowledgeGraph conceptGraph maxD minC
      f r₀.target (d + 1) (r₀.confidence * c * (9/10))
      ⟨st.visited, st.path ++
        [⟨e, r₀.predicate, r₀.target, r₀.weight, r₀.confidence * c, r₀.source⟩],
        st.log⟩
    obtain ⟨lsuf, psuf, hl2, hp2, hb2⟩ := hext2
    have hstruct2 : ∃ pre2 post2,
        (traverse comprehensiveKnowledgeGraph conceptGraph maxD minC f r₀.target
          (d + 1) (r₀.confidence * c * (9/10))
          ⟨st.visited, st.path ++
            [⟨e, r₀.predicate, r₀.target, r₀.weight, r₀.confidence * c, r₀.source⟩],
            st.log⟩).log = pre2 ++ (e, d, c) :: post2 ∧
        ∀ x ∈ post2, d + 1 ≤ x.2.1 := by
      refine ⟨pre, post ++ lsuf, ?_, ?_⟩
      · rw [hl2]
        show st.log ++ lsuf = _
        rw [hlog, List.append_assoc, List.cons_append]
      · intro x hx
        rcases List.mem_append.mp hx with h | h
        · exact hpost x h
        · exact hb2 x h
    have hOb2' : ObAll maxD minC
        (fun x r => PendO x r ∨ (x = (e, d, c) ∧ r ∈ rs))
        (traverse comprehensiveKnowledgeGraph conceptGraph maxD minC f r₀.target
          (d + 1) (r₀.confidence * c * (9/10))
          ⟨st.visited, st.path ++
            [⟨e, r₀.predicate, r₀.target, r₀.weight, r₀.confidence * c, r₀.source⟩],
            st.log⟩) := by
      intro x hx r hr
      rcases hchild.2 x hx r hr with h | h | ⟨hxe, hrmem⟩
      · exact Or.inl h
      · exact Or.inr (Or.inl h)
      · rcases List.mem_cons.mp hrmem with hr0 | hrs
        · subst hxe
          rw [hr0]
          refine Or.inl ⟨?_, ?_⟩
          · refine ⟨⟨e, r₀.predicate, r₀.target, r₀.weight, r₀.confidence * c,
              r₀.source⟩, ?_, rfl, rfl, rfl⟩
            rw [hp2]
            exact List.mem_append_left _
              (List.mem_append_right _ (List.mem_cons_self _ _))
          · intro hdep hconf
            have hdep' : d + 1 < maxD := hdep
            have hconf' : minC ≤ r₀.confidence * c * (9/10) := hconf
            have hg2 : ¬(maxD ≤ d + 1 ∨ r₀.confidence * c * (9/10) < minC) := by
              rintro (h | h)
              · omega
              · exact absurd h (not_lt.mpr hconf')
            have hexp := traverse_expands comprehensiveKnowledgeGraph conceptGraph
              maxD minC f r₀.target (d + 1) (r₀.confidence * c * (9/10))
              ⟨st.visited, st.path ++
                [⟨e, r₀.predicate, r₀.target, r₀.weight, r₀.confidence * c,
                  r₀.source⟩], st.log⟩
              hg2 (by omega) hM2.2.1
            obtain ⟨y, hy, hye, hyd⟩ := hexp
            exact ⟨y, hy, hye, hyd⟩
        · exact Or.inr (Or.inr ⟨hxe, hrs⟩)
    exact ih _ PendO (fun r hr => hsub r (List.mem_cons_of_mem _ hr))
      hchild.1 hOb2' hstruct2

theorem traverse_mega (seeds : List (List Char)) (maxD : ℕ) (minC : ℚ) :
    ∀ fuel (Pend : (List Char × ℕ × ℚ) → Rel → Prop) e d c st,
      maxD ≤ d + fuel →
      Mega seeds maxD minC st →
      ObAll maxD minC Pend st →
      CallOK seeds minC st.log e d c →
      MegaOb seeds maxD minC Pend
        (traverse comprehensiveKnowledgeGraph conceptGraph maxD minC fuel e d c st) := by
  intro fuel
  induction fuel with
  | zero =>
    intro Pend e d c st _ hM hOb _
    exact ⟨hM, hOb⟩
  | succ f ih =>
    intro Pend e d c st hcov hM hOb hcall
    simp only [traverse]
    split
    · exact ⟨hM, hOb⟩
    · split
      · exact ⟨hM, hOb⟩
      · rename_i hg hb
        have hgd : d < maxD := by
          have h1 := (not_or.mp hg).1
          omega
        have hgc : minC ≤ c := not_lt.mp (not_or.mp hg).2
        obtain ⟨hInv, hVL, hLC, hAv, hPr, hPop, hOr, hMono⟩ := hM
        have hnew : ∀ x ∈ st.log, x.1 = e → d < x.2.1 := by
          intro x hx hxe
          cases hv : alookup st.visited e with
          | none => exact absurd hxe (hInv.2.1 e hv x hx)
          | some v =>
            rw [hv] at hb
            simp at hb
            exact lt_of_lt_of_le hb (hInv.2.2 e v hv x hx hxe)
        have hInv1 : travInv ⟨aset st.visited e d, st.path, st.log ++ [(e, d, c)]⟩ :=
          travInv_expand st e d c st.path ⟨hInv.1, hInv.2.1, hInv.2.2⟩ hnew
        have hAedc : Avalid (e, d, c) := CallOK_Avalid seeds minC st.log e d c hcall
        have hM1 : Mega seeds maxD minC
            ⟨aset st.visited e d, st.path, st.log ++ [(e, d, c)]⟩ := by
          refine ⟨hInv1, ?_, ?_, ?_, ?_, hPop, ?_, hMono⟩
          · intro e' v hv'
            by_cases he' : e' = e
            · subst he'
              rw [aset_lookup_self] at hv'
              injection hv' with hv'
              subst hv'
              exact ⟨c, List.mem_append_right _ (List.mem_cons_self _ _)⟩
            · rw [aset_lookup_ne _ _ _ _ he'] at hv'
              obtain ⟨c'', hc''⟩ := hVL e' v hv'
              exact ⟨c'', List.mem_append_left _ hc''⟩
          · intro x hx
            rcases List.mem_append.mp hx with h | h
            · exact hLC x h
            · rw [List.mem_singleton] at h
              subst h
              exact ⟨hgc, hgd⟩
          · intro x hx
            rcases List.mem_append.mp hx with h | h
            · exact hAv x h
            · rw [List.mem_singleton] at h
              subst h
              exact hAedc
          · intro x hx
            rcases List.mem_append.mp hx with h | h
            · exact Prov_mono _ _ _ _ _ (hPr x h)
            · rw [List.mem_singleton] at h
              subst h
              rcases hcall with ⟨h1, h2, h3⟩ | ⟨_, _, p, hp, hrest⟩
              · exact Or.inl ⟨h1, h2, h3⟩
              · exact Or.inr ⟨p, List.mem_append_left _ hp, hrest⟩
          · intro t ht
            exact OriginOf_mono _ _ _ _ (hOr t ht)
        have hOb1 : ObAll maxD minC
            (fun x r => Pend x r ∨ (x = (e, d, c) ∧
              r ∈ candRels minC (relsOf comprehensiveKnowledgeGraph e)))
            ⟨aset st.visited e d, st.path, st.log ++ [(e, d, c)]⟩ := by
          intro x hx r hr
          rcases List.mem_append.mp hx with h | h
          · rcases hOb x h r hr with h2 | h2
            · exact Or.inl (OblOf_mono _ _ st _ _ _ 0
                ⟨[(e, d, c)], [], rfl, (List.append_nil _).symm, by simp⟩ h2)
            · exact Or.inr (Or.inl h2)
          · rw [List.mem_singleton] at h
            subst h
            exact Or.inr (Or.inr ⟨rfl, hr⟩)
        have hstruct1 : ∃ pre post,
            (⟨aset st.visited e d, st.path, st.log ++ [(e, d, c)]⟩ : TravState).log =
              pre ++ (e, d, c) :: post ∧ ∀ x ∈ post, d + 1 ≤ x.2.1 :=
          ⟨st.log, [], rfl, by simp⟩
        split
        · split
          · rename_i hk
            refine ⟨hM1, ?_⟩
            intro x hx r hr
            rcases hOb1 x hx r hr with h | h | ⟨hxe, hrm⟩
            · exact Or.inl h
            · exact Or.inr h
            · subst hxe
              have hrels : relsOf comprehensiveKnowledgeGraph e = [] := by
                unfold relsOf
                rw [hk]
                rfl
              rw [hrels, show candRels minC ([] : List Rel) = [] from rfl] at hrm
              exact absurd hrm (List.not_mem_nil r)
          · rename_i rels hk
            have hre : relsOf comprehensiveKnowledgeGraph e = rels := by
              unfold relsOf
              rw [hk]
              rfl
            have hOb1' : ObAll maxD minC
                (fun x r => Pend x r ∨ (x = (e, d, c) ∧ r ∈ candRels minC rels))
                ⟨aset st.visited e d, st.path, st.log ++ [(e, d, c)]⟩ := by
              intro x hx r hr
              rcases hOb1 x hx r hr with h | h | ⟨hxe, hrm⟩
              · exact Or.inl h
              · exact Or.inr (Or.inl h)
              · exact Or.inr (Or.inr ⟨hxe, by rw [hre] at hrm; exact hrm⟩)
            have hres := runRels_mega seeds maxD minC f d
              (fun Pd e' c' st' => ih Pd e' (d + 1) c' st')
              (by omega) e c (candRels minC rels) _ Pend
              (fun r hr => by rw [hre]; exact hr)
              hM1 hOb1' hstruct1
            exact hres.1
        · rename_i ts hc
          have hpopc : ∀ t ∈ ts.take 3,
              ((e, "conceptually_related_to".toList, t) :
                List Char × List Char × List Char) ∈
                popOf comprehensiveKnowledgeGraph conceptGraph := by
            intro t ht
            exact List.mem_append_right _
              (List.mem_flatMap.mpr ⟨(e, ts), alookup_mem _ _ _ hc,
                List.mem_map.mpr ⟨t, List.mem_of_mem_take ht, rfl⟩⟩)
          split
          · rename_i hk
            have hObP : ObAll maxD minC Pend
                ⟨aset st.visited e d, st.path, st.log ++ [(e, d, c)]⟩ := by
              intro x hx r hr
              rcases hOb1 x hx r hr with h | h | ⟨hxe, hrm⟩
              · exact Or.inl h
              · exact Or.inr h
              · subst hxe
                have hrels : relsOf comprehensiveKnowledgeGraph e = [] := by
                  unfold relsOf
                  rw [hk]
                  rfl
                rw [hrels, show candRels minC ([] : List Rel) = [] from rfl] at hrm
                exact absurd hrm (List.not_mem_nil r)
            exact runConcepts_mega seeds maxD minC e d c Pend (ts.take 3) _
              hpopc hM1 hObP hstruct1
          · rename_i rels hk
            have hre : relsOf comprehensiveKnowledgeGraph e = rels := by
              unfold relsOf
              rw [hk]
              rfl
            have hOb1' : ObAll maxD minC
                (fun x r => Pend x r ∨ (x = (e, d, c) ∧ r ∈ candRels minC rels))
                ⟨aset st.visited e d, st.path, st.log ++ [(e, d, c)]⟩ := by
              intro x hx r hr
              rcases hOb1 x hx r hr with h | h | ⟨hxe, hrm⟩
              · exact Or.inl h
              · exact Or.inr (Or.inl h)
              · exact Or.inr (Or.inr ⟨hxe, by rw [hre] at hrm; exact hrm⟩)
            have hres := runRels_mega seeds maxD minC f d
              (fun Pd e' c' st' => ih Pd e' (d + 1) c' st')
              (by omega) e c (candRels minC rels) _ Pend
              (fun r hr => by rw [hre]; exact hr)
              hM1 hOb1' hstruct1
            exact runConcepts_mega seeds maxD minC e d c Pend (ts.take 3) _
              hpopc hres.1.1 hres.1.2 hres.2

/-- The invariant holds for a complete run (and all obligations are settled). -/
theorem travRun_mega (seeds : List (List Char)) (maxD : ℕ) (minC : ℚ) :
    MegaOb seeds maxD minC (fun _ _ => False)
      (travRun comprehensiveKnowledgeGraph conceptGraph seeds maxD minC) := by
  have hinit : Mega seeds maxD minC ⟨[], [], []⟩ := by
    refine ⟨travInv_init, ?_, ?_, ?_, ?_, ?_, ?_, List.Pairwise.nil⟩
    · intro e v hv
      simp [alookup] at hv
    · intro x hx
      simp at hx
    · intro x hx
      simp at hx
    · intro x hx
      simp at hx
    · intro t ht
      simp at ht
    · intro t ht
      simp at ht
  have key : ∀ (l : List (List Char)), (∀ e ∈ l, e ∈ seeds) → ∀ st,
      Mega seeds maxD minC st →
      ObAll maxD minC (fun _ _ => False) st →
      MegaOb seeds maxD minC (fun _ _ => False)
        (l.foldl (fun st e => traverse comprehensiveKnowledgeGraph conceptGraph
          maxD minC maxD e 0 1 st) st) := by
    intro l
    induction l with
    | nil =>
      intro _ st hM hOb
      exact ⟨hM, hOb⟩
    | cons e l ihl =>
      intro hl st hM hOb
      simp only [List.foldl]
      have hcall : CallOK seeds minC st.log e 0 1 :=
        Or.inl ⟨rfl, rfl, hl e (List.mem_cons_self _ _)⟩
      have hstep := traverse_mega seeds maxD minC maxD (fun _ _ => False)
        e 0 1 st (by omega) hM hOb hcall
      exact ihl (fun e' he' => hl e' (List.mem_cons_of_mem _ he')) _ hstep.1 hstep.2
  exact key seeds (fun _ h => h) _ hinit (by intro x hx; simp at hx)

/-- C1: for EVERY seed list, depth bound and threshold, the returned edge list
of `deepGraphTraversal` has pairwise-distinct `subject-predicate-object` keys
(at most one edge per triple), is sorted descending by `weight * confidence`,
is capped at 12 edges, and every returned edge comes from the walk and carries
the highest effective confidence among all same-key edges the walk produced
(the JS `Map` keeps the LAST instance, but on the shipped graphs re-expansions
are strictly shallower and strictly more confident, so the last instance is a
highest one). -/
theorem c1_dedup_keeps_highest_sorted_capped (seeds : List (List Char))
    (maxD : ℕ) (minC : ℚ) :
    (deepGraphTraversal seeds maxD minC).Pairwise
      (fun a b => tripleKey a ≠ tripleKey b) ∧
    (deepGraphTraversal seeds maxD minC).Pairwise
      (fun a b => b.weight * b.confidence ≤ a.weight * a.confidence) ∧
    (deepGraphTraversal seeds maxD minC).length ≤ 12 ∧
    ∀ t ∈ deepGraphTraversal seeds maxD minC,
      t ∈ (travRun comprehensiveKnowledgeGraph conceptGraph seeds maxD minC).path ∧
      ∀ u ∈ (travRun comprehensiveKnowledgeGraph conceptGraph seeds maxD minC).path,
        tripleKey u = tripleKey t → u.confidence ≤ t.confidence := by
  obtain ⟨hM, _⟩ := travRun_mega seeds maxD minC
  have hPop := hM.2.2.2.2.2.1
  have hMono := hM.2.2.2.2.2.2.2
  have hkeymono : (travRun comprehensiveKnowledgeGraph conceptGraph seeds maxD
      minC).path.Pairwise
      (fun a b => tripleKey a = tripleKey b → a.confidence ≤ b.confidence) := by
    refine hMono.imp_of_mem ?_
    intro a b ha hb hab hk
    have hcomp := key_components_eq (a.subject, a.predicate, a.object)
      (b.subject, b.predicate, b.object)
      (pop_dashfree _ (hPop a ha)) (pop_dashfree _ (hPop b hb)) hk
    exact hab hcomp.1 hcomp.2.1 hcomp.2.2
  obtain ⟨hdk, hdmem, hdbound⟩ := dedupLast_spec _ hkeymono
  have hperm := sortDescBy_perm (fun t => t.weight * t.confidence)
    (dedupLast (travRun comprehensiveKnowledgeGraph conceptGraph seeds maxD minC).path)
  show (deepGraphTraversalOn comprehensiveKnowledgeGraph conceptGraph seeds maxD
    minC).Pairwise _ ∧ _
  unfold deepGraphTraversalOn
  refine ⟨?_, ?_, ?_, ?_⟩
  · have h1 := (hperm.pairwise_iff
      (fun {a b : Triple} (h : tripleKey a ≠ tripleKey b) h2 => h h2.symm)).mpr hdk
    exact h1.sublist (List.take_sublist _ _)
  · exact (sortDescBy_sorted _ _).sublist (List.take_sublist _ _)
  · exact List.length_take_le _ _
  · intro t ht
    have ht1 := List.mem_of_mem_take ht
    rw [mem_sortDescBy] at ht1
    exact ⟨hdmem t ht1, fun u hu hk => hdbound t ht1 u hu hk⟩

/-- C1, witness: on the concrete run from seed `Machine Learning` with
`maxDepth 3` and threshold 0, the returned list has pairwise-distinct keys and
at most 12 edges, and its top edge is an edge the walk produced. -/
theorem c1_dedup_keeps_highest_sorted_capped_witness :
    (deepGraphTraversal ["Machine Learning".toList] 3 0).Pairwise
      (fun a b => tripleKey a ≠ tripleKey b) ∧
    (deepGraphTraversal ["Machine Learning".toList] 3 0).length ≤ 12 ∧
    (⟨"Machine Learning".toList, "learns_from".toList, "Data".toList,
      19/20, 49/50, "definitional".toList⟩ : Triple) ∈
      (travRun comprehensiveKnowledgeGraph conceptGraph
        ["Machine Learning".toList] 3 0).path :=
  ⟨(c1_dedup_keeps_highest_sorted_capped ["Machine Learning".toList] 3 0).1,
   (c1_dedup_keeps_highest_sorted_capped ["Machine Learning".toList] 3 0).2.2.1,
   ((c1_dedup_keeps_highest_sorted_capped ["Machine Learning".toList] 3 0).2.2.2
     ⟨"Machine Learning".toList, "learns_from".toList, "Data".toList,
       19/20, 49/50, "definitional".toList⟩ (by with_unfolding_all decide)).1⟩


/-! ## C2 (amended): the knowledge-graph edges of the walk are threshold-antitone

The returned list is NOT monotone in the threshold (see the counterexample):
a stricter walk can visit entities in an order that lets a synthetic concept
edge through.  What IS true on the shipped graphs: every knowledge-graph edge
(source other than `concept_graph`) produced by the stricter walk is also
produced by the looser walk.  The argument is a cross-run dominance induction:
every key the stricter walk expands is expanded by the looser walk at most as
deep and with at least the confidence (up to the two childless-key exceptions),
and a key's pushed kg edges depend only on the threshold, antitonically. -/

/-- No entity of the shipped graph has more than 5 relations, so the
5-candidate cap of the walk never truncates. -/
theorem rels_len_le5 : ∀ p ∈ comprehensiveKnowledgeGraph, p.2.length ≤ 5 := by
  with_unfolding_all decide

/-- Any two same-depth arrivals of the same entity at depth 1 carry comparable
(equal) confidences, unless all the entity's relation targets are non-keys
(vacuously true for entities without relations). -/
theorem uniq1 : ∀ x ∈ arr comprehensiveKnowledgeGraph 1,
    ∀ y ∈ arr comprehensiveKnowledgeGraph 1, x.1 = y.1 →
    x.2 ≤ y.2 ∨ ∀ r ∈ relsOf comprehensiveKnowledgeGraph x.1,
      alookup comprehensiveKnowledgeGraph r.target = none := by
  with_unfolding_all decide

/-- Same-depth uniqueness at depth 2. -/
theorem uniq2 : ∀ x ∈ arr comprehensiveKnowledgeGraph 2,
    ∀ y ∈ arr comprehensiveKnowledgeGraph 2, x.1 = y.1 →
    x.2 ≤ y.2 ∨ ∀ r ∈ relsOf comprehensiveKnowledgeGraph x.1,
      alookup comprehensiveKnowledgeGraph r.target = none := by
  with_unfolding_all decide

/-- Same-depth uniqueness at depth 3. -/
theorem uniq3 : ∀ x ∈ arr comprehensiveKnowledgeGraph 3,
    ∀ y ∈ arr comprehensiveKnowledgeGraph 3, x.1 = y.1 →
    x.2 ≤ y.2 ∨ ∀ r ∈ relsOf comprehensiveKnowledgeGraph x.1,
      alookup comprehensiveKnowledgeGraph r.target = none := by
  with_unfolding_all decide

/-- When the relation list fits under the cap, raising the threshold only
shrinks the candidate set. -/
theorem candRels_antitone (t1 t2 : ℚ) (h12 : t1 ≤ t2) (l : List Rel)
    (hlen : l.length ≤ 5) (r : Rel) (hr : r ∈ candRels t2 l) :
    r ∈ candRels t1 l := by
  unfold candRels at hr ⊢
  rw [List.take_of_length_le
    (by rw [length_sortDescBy]; exact le_trans (List.length_filter_le _ _) hlen)] at hr
  rw [List.take_of_length_le
    (by rw [length_sortDescBy]; exact le_trans (List.length_filter_le _ _) hlen)]
  rw [mem_sortDescBy] at hr ⊢
  rw [List.mem_filter] at hr ⊢
  refine ⟨hr.1, ?_⟩
  exact decide_eq_true (le_trans h12 (of_decide_eq_true hr.2))

/-- The empty state satisfies the running invariant. -/
theorem mega_init (seeds : List (List Char)) (maxD : ℕ) (minC : ℚ) :
    Mega seeds maxD minC ⟨[], [], []⟩ := by
  refine ⟨travInv_init, ?_, ?_, ?_, ?_, ?_, ?_, List.Pairwise.nil⟩
  · intro e v hv
    simp [alookup] at hv
  · intro x hx
    simp at hx
  · intro x hx
    simp at hx
  · intro x hx
    simp at hx
  · intro t ht
    simp at ht
  · intro t ht
    simp at ht

/-- The seed fold only appends to the log. -/
theorem foldl_traverse_log_ext (kg : KG) (cg : CG) (maxD : ℕ) (minC : ℚ) :
    ∀ (l : List (List Char)) (st : TravState),
      ∃ suf, (l.foldl (fun st e => traverse kg cg maxD minC maxD e 0 1 st) st).log =
        st.log ++ suf := by
  intro l
  induction l with
  | nil =>
    intro st
    exact ⟨[], (List.append_nil _).symm⟩
  | cons a l ihl =>
    intro st
    simp only [List.foldl]
    obtain ⟨s1, _, h1, _, _⟩ := traverse_ext kg cg maxD minC maxD a 0 1 st
    obtain ⟨s2, h2⟩ := ihl (traverse kg cg maxD minC maxD a 0 1 st)
    exact ⟨s1 ++ s2, by rw [h2, h1, List.append_assoc]⟩

/-- Every seed of a run with positive depth budget and a threshold at most 1 is
logged at depth 0. -/
theorem seeds_logged (seeds : List (List Char)) (maxD : ℕ) (minC : ℚ)
    (hmd : 0 < maxD) (hc : ¬((1 : ℚ) < minC)) :
    ∀ (l : List (List Char)) (st : TravState),
      (∀ a ∈ l, a ∈ seeds) →
      Mega seeds maxD minC st → ObAll maxD minC (fun _ _ => False) st →
      ∀ e ∈ l, ∃ c₁, ((e, 0, c₁) : List Char × ℕ × ℚ) ∈
        (l.foldl (fun st a => traverse comprehensiveKnowledgeGraph conceptGraph
          maxD minC maxD a 0 1 st) st).log := by
  intro l
  induction l with
  | nil =>
    intro st _ _ _ e he
    simp at he
  | cons a l ihl =>
    intro st hsub hM hOb e he
    simp only [List.foldl]
    have hstep := traverse_mega seeds maxD minC maxD (fun _ _ => False) a 0 1 st
      (by omega) hM hOb (Or.inl ⟨rfl, rfl, hsub a (List.mem_cons_self _ _)⟩)
    rcases List.mem_cons.mp he with rfl | he2
    · have hg : ¬(maxD ≤ 0 ∨ (1 : ℚ) < minC) := by
        rintro (h | h)
        · omega
        · exact hc h
      have hexp := traverse_expands comprehensiveKnowledgeGraph conceptGraph maxD minC
        maxD e 0 1 st hg (by omega) hM.2.1
      obtain ⟨⟨y1, y2, y3⟩, hymem, hye, hyd⟩ := hexp
      have hy1 : y1 = e := hye
      have hy2 : y2 = 0 := by
        have h0 : y2 ≤ 0 := hyd
        omega
      subst hy1
      subst hy2
      obtain ⟨suf, hsuf⟩ := foldl_traverse_log_ext comprehensiveKnowledgeGraph
        conceptGraph maxD minC l _
      exact ⟨y3, by rw [hsuf]; exact List.mem_append_left _ hymem⟩
    · exact ihl _ (fun a' ha' => hsub a' (List.mem_cons_of_mem _ ha'))
        hstep.1 hstep.2 e he2

/-- A seed is logged at depth 0 in the full run. -/
theorem seed_in_run (seeds : List (List Char)) (maxD : ℕ) (minC : ℚ)
    (e : List Char) (he : e ∈ seeds) (hmd : 0 < maxD) (hc : ¬((1 : ℚ) < minC)) :
    ∃ c₁, ((e, 0, c₁) : List Char × ℕ × ℚ) ∈
      (travRun comprehensiveKnowledgeGraph conceptGraph seeds maxD minC).log := by
  unfold travRun
  exact seeds_logged seeds maxD minC hmd hc seeds ⟨[], [], []⟩ (fun _ h => h)
    (mega_init seeds maxD minC) (by intro x hx; simp at hx) e he

/-- Cross-run dominance: every key the stricter walk expands is expanded by the
looser walk at most as deep, and with at least the confidence unless all the
key's relation targets are non-keys. -/
theorem kdom (seeds : List (List Char)) (maxD : ℕ) (t1 t2 : ℚ) (h12 : t1 ≤ t2) :
    ∀ d₂ e c₂,
      ((e, d₂, c₂) : List Char × ℕ × ℚ) ∈
        (travRun comprehensiveKnowledgeGraph conceptGraph seeds maxD t2).log →
      (∃ rels, alookup comprehensiveKnowledgeGraph e = some rels) →
      ∃ d₁ c₁, ((e, d₁, c₁) : List Char × ℕ × ℚ) ∈
          (travRun comprehensiveKnowledgeGraph conceptGraph seeds maxD t1).log ∧
        d₁ ≤ d₂ ∧
        (c₂ ≤ c₁ ∨ ∀ r ∈ relsOf comprehensiveKnowledgeGraph e,
          alookup comprehensiveKnowledgeGraph r.target = none) := by
  intro d₂
  induction d₂ using Nat.strong_induction_on with
  | _ d₂ ihd =>
  intro e c₂ hmem2 hkey
  have hM2 := (travRun_mega seeds maxD t2).1
  have hM1 := (travRun_mega seeds maxD t1).1
  have hOb1 := (travRun_mega seeds maxD t1).2
  have hPr2 := hM2.2.2.2.2.1
  have hLC2 := hM2.2.2.1
  have hAv2 := hM2.2.2.2.1
  have hAv1 := hM1.2.2.2.1
  rcases hPr2 (e, d₂, c₂) hmem2 with ⟨hd0, hc1, hseed⟩ |
    ⟨p, hpmem, hpd, r, hrc, hrt, hcc⟩
  · have hd0' : d₂ = 0 := hd0
    have hc1' : c₂ = 1 := hc1
    have hseed' : e ∈ seeds := hseed
    have hlc := hLC2 (e, d₂, c₂) hmem2
    have hdlt : d₂ < maxD := hlc.2
    have htc : t2 ≤ c₂ := hlc.1
    have hc1t : ¬((1 : ℚ) < t1) := by
      rw [hc1'] at htc
      intro h
      have := le_trans h12 htc
      linarith
    obtain ⟨c₁, hc₁⟩ := seed_in_run seeds maxD t1 e hseed' (by omega) hc1t
    have hc₁1 : c₁ = 1 := by
      rcases hAv1 _ hc₁ with ⟨_, h⟩ | ⟨h, _⟩
      · exact h
      · have h' : (1 : ℕ) ≤ 0 := h
        omega
    refine ⟨0, c₁, hc₁, by omega, Or.inl ?_⟩
    rw [hc1', hc₁1]
  · have hpd' : p.2.1 + 1 = d₂ := hpd
    have hrrels : r ∈ relsOf comprehensiveKnowledgeGraph p.1 :=
      candRels_subset _ _ _ hrc
    obtain ⟨prels, hplk, hpre, hpkgmem⟩ := relsOf_key _ _ _ hrrels
    have hpmem' : ((p.1, p.2.1, p.2.2) : List Char × ℕ × ℚ) ∈
        (travRun comprehensiveKnowledgeGraph conceptGraph seeds maxD t2).log := hpmem
    have hihp := ihd p.2.1 (by omega) p.1 p.2.2 hpmem' ⟨prels, hplk⟩
    obtain ⟨d₁p, c₁p, hp1mem, hd1p, hcp⟩ := hihp
    rcases hcp with hcp | hexc
    · have hlen : (relsOf comprehensiveKnowledgeGraph p.1).length ≤ 5 := by
        rw [hpre]
        exact rels_len_le5 _ hpkgmem
      have hrc1 : r ∈ candRels t1 (relsOf comprehensiveKnowledgeGraph p.1) :=
        candRels_antitone t1 t2 h12 _ hlen r hrc
      rcases hOb1 (p.1, d₁p, c₁p) hp1mem r hrc1 with hObl | hF
      · have hlc2 := hLC2 (e, d₂, c₂) hmem2
        have hd2lt : d₂ < maxD := hlc2.2
        have ht2c : t2 ≤ c₂ := hlc2.1
        have hconfr : 0 ≤ r.confidence :=
          conf_nonneg _ hpkgmem r (hpre ▸ hrrels)
        have hcc' : c₂ = r.confidence * p.2.2 * (9/10) := hcc
        have hguard2 : t1 ≤ r.confidence * c₁p * (9/10) := by
          have hstep : r.confidence * p.2.2 * (9/10) ≤
              r.confidence * c₁p * (9/10) := by
            have h1 := mul_le_mul_of_nonneg_left hcp hconfr
            exact mul_le_mul_of_nonneg_right h1 (by norm_num)
          calc t1 ≤ t2 := h12
            _ ≤ c₂ := ht2c
            _ = r.confidence * p.2.2 * (9/10) := hcc'
            _ ≤ r.confidence * c₁p * (9/10) := hstep
        have hdguard : (p.1, d₁p, c₁p).2.1 + 1 < maxD := by
          show d₁p + 1 < maxD
          omega
        obtain ⟨⟨y1, y2, y3⟩, hymem, hye, hyd⟩ := hObl.2 hdguard hguard2
        have hy1 : y1 = e := by
          have h0 : y1 = r.target := hye
          rw [hrt] at h0
          exact h0
        rw [hy1] at hymem
        have hyd' : y2 ≤ d₁p + 1 := hyd
        have hyd2 : y2 ≤ d₂ := by omega
        refine ⟨y2, y3, hymem, hyd2, ?_⟩
        by_cases hlt : y2 < d₂
        · exact Or.inl (le_of_lt
            (sep_key e d₂ c₂ y2 y3 (hAv2 _ hmem2) (hAv1 _ hymem) hlt))
        · have hyeq : y2 = d₂ := by omega
          rcases hAv2 _ hmem2 with ⟨hD0, hC1⟩ | ⟨hD1, hm2a⟩
          · rcases hAv1 _ hymem with ⟨_, hC1y⟩ | ⟨hD1y, _⟩
            · refine Or.inl ?_
              have hC1' : c₂ = 1 := hC1
              have hC1y' : y3 = 1 := hC1y
              rw [hC1', hC1y']
            · have hy1' : (1 : ℕ) ≤ y2 := hD1y
              have hD0' : d₂ = 0 := hD0
              omega
          · rcases hAv1 _ hymem with ⟨hD0y, _⟩ | ⟨_, hm1a⟩
            · have hz : y2 = 0 := hD0y
              have ho : (1 : ℕ) ≤ d₂ := hD1
              omega
            · rw [hyeq] at hm1a
              have hd23 : d₂ ≤ 3 := by
                by_contra hgt
                rw [arr_ge_four d₂ (by omega)] at hm2a
                exact absurd hm2a (List.not_mem_nil _)
              have hD1' : (1 : ℕ) ≤ d₂ := hD1
              interval_cases d₂
              · rcases uniq1 _ hm2a _ hm1a rfl with h | h
                · exact Or.inl h
                · exact Or.inr h
              · rcases uniq2 _ hm2a _ hm1a rfl with h | h
                · exact Or.inl h
                · exact Or.inr h
              · rcases uniq3 _ hm2a _ hm1a rfl with h | h
                · exact Or.inl h
                · exact Or.inr h
      · exact hF.elim
    · have hnone := hexc r hrrels
      rw [hrt] at hnone
      obtain ⟨rels, hrels⟩ := hkey
      rw [hnone] at hrels
      exact Option.noConfusion hrels

/-- C2, amended: for any two thresholds `t1 ≤ t2`, every knowledge-graph edge
(source other than the synthetic `concept_graph`) that the walk at the stricter
threshold `t2` produces is, up to its effective confidence, also produced by
the walk at the looser threshold `t1`: a same-subject/predicate/object edge is
in the looser raw path.  (The returned deduplicated, sorted and capped list is
NOT monotone — see the counterexample — because synthetic concept edges can be
suppressed by visit order.) -/
theorem c2_kg_edge_triples_threshold_antitone (seeds : List (List Char))
    (maxD : ℕ) (t1 t2 : ℚ) (h12 : t1 ≤ t2) :
    ∀ t ∈ (travRun comprehensiveKnowledgeGraph conceptGraph seeds maxD t2).path,
      t.source ≠ "concept_graph".toList →
      ∃ u ∈ (travRun comprehensiveKnowledgeGraph conceptGraph seeds maxD t1).path,
        u.subject = t.subject ∧ u.predicate = t.predicate ∧
        u.object = t.object := by
  intro t ht hsrc
  have hM2 := (travRun_mega seeds maxD t2).1
  have hOr2 := hM2.2.2.2.2.2.2.1
  obtain ⟨d₀, c₀, hmem, hor⟩ := hOr2 t ht
  rcases hor with ⟨r, hrc, hrp, hrt, _, _, hsrcr⟩ | ⟨_, _, _, hsrcc⟩
  · have hrrels : r ∈ relsOf comprehensiveKnowledgeGraph t.subject :=
      candRels_subset _ _ _ hrc
    obtain ⟨rels, hlk, hre, hkgmem⟩ := relsOf_key _ _ _ hrrels
    obtain ⟨d₁, c₁, hm1, _, _⟩ := kdom seeds maxD t1 t2 h12 d₀ t.subject c₀
      hmem ⟨rels, hlk⟩
    have hlen : (relsOf comprehensiveKnowledgeGraph t.subject).length ≤ 5 := by
      rw [hre]
      exact rels_len_le5 _ hkgmem
    have hrc1 : r ∈ candRels t1 (relsOf comprehensiveKnowledgeGraph t.subject) :=
      candRels_antitone t1 t2 h12 _ hlen r hrc
    rcases (travRun_mega seeds maxD t1).2 (t.subject, d₁, c₁) hm1 r hrc1 with
      hObl | hF
    · obtain ⟨u, hu, hus, hup, huo⟩ := hObl.1
      exact ⟨u, hu, hus, hup.trans hrp, huo.trans hrt⟩
    · exact hF.elim
  · exact absurd hsrcc hsrc

/-- C2 amended, witness: the `Machine Learning —learns_from→ Data` edge produced
at the stricter threshold 0.7 is also produced at threshold 0. -/
theorem c2_kg_edge_triples_threshold_antitone_witness :
    ∃ u ∈ (travRun comprehensiveKnowledgeGraph conceptGraph
        ["Machine Learning".toList] 3 0).path,
      u.subject = (⟨"Machine Learning".toList, "learns_from".toList,
        "Data".toList, 19/20, 49/50, "definitional".toList⟩ : Triple).subject ∧
      u.predicate = (⟨"Machine Learning".toList, "learns_from".toList,
        "Data".toList, 19/20, 49/50, "definitional".toList⟩ : Triple).predicate ∧
      u.object = (⟨"Machine Learning".toList, "learns_from".toList,
        "Data".toList, 19/20, 49/50, "definitional".toList⟩ : Triple).object :=
  c2_kg_edge_triples_threshold_antitone ["Machine Learning".toList] 3 0 (7/10)
    (by with_unfolding_all decide)
    ⟨"Machine Learning".toList, "learns_from".toList, "Data".toList,
      19/20, 49/50, "definitional".toList⟩
    (by with_unfolding_all decide) (by with_unfolding_all decide)
